import Mathlib

/-!
# Car pooling: a shallow embedding of `car-pooling.go`

The Go program keeps two process-wide registries, `cars` and `groups`, and
four operations on them (`loadCars`, `rideTryGroup`, `dropGroup`,
`locateGroup`) plus two internal routines (`ride`, `rideTryCar`).

Modelling conventions
* Go `int` is `Int`, 64 bits wide.  The one value that grows with the length
  of a run is the counter `groupsArrived`: its increment is `wrapInt (n + 1)`,
  which wraps from `maxInt` to `minInt` as the Go addition does.  All other
  arithmetic is on seat counts, people counts and slice indices, which
  validated input keeps between -1 and 6; it is exact.
* Go `map[int]T` is an association list `Map T` with `mget`, `mset`, `mdel`.
  The order of the list carries no meaning; the one place where Go iterates a
  map (`for _, c := range cars.pools[i]`, whose order is unspecified) takes
  an extra argument `pick` that says which entry the iteration yields first.
* A slice index out of range is the fault `Fault.panic`.
* `rideTryCar` is recursive in the source.  The model recurses on a fuel
  counter; running out of fuel is the fault `Fault.timeout`, and `rideTryCar`
  supplies one unit of fuel more than there are queued entries.
* The mutexes are not modelled: every operation runs to completion under both
  locks, so the operations are sequential state transformers.
-/

namespace CarPooling

/-! ## Data model -/

/-- The struct `car` of the source. -/
structure car where
  id : Int
  seatsTotal : Int
  seatsAvailable : Int
deriving DecidableEq

/-- The struct `carJSONAPI` of the source. -/
structure carJSONAPI where
  Id : Int
  Seats : Int
deriving DecidableEq

/-- The struct `group` of the source. -/
structure group where
  id : Int
  arrival : Int
  people : Int
  idCar : Int
deriving DecidableEq

/-- The struct `groupFORMAPI` of the source. -/
structure groupFORMAPI where
  Id : Int
deriving DecidableEq

/-- The struct `groupJSONAPI` of the source. -/
structure groupJSONAPI where
  Id : Int
  People : Int
deriving DecidableEq

/-- A Go `map[int]T`, as an association list. -/
abbrev Map (α : Type) := List (Int × α)

/-- The lookup `m[k]` with its `ok` flag: `none` when the key is absent. -/
def mget {α : Type} : Map α → Int → Option α
  | [], _ => none
  | (k', v) :: m, k => if k' = k then some v else mget m k

/-- The builtin `delete(m, k)`. -/
def mdel {α : Type} (m : Map α) (k : Int) : Map α :=
  m.filter (fun p => decide (p.1 ≠ k))

/-- The assignment `m[k] = v`. -/
def mset {α : Type} (m : Map α) (k : Int) (v : α) : Map α :=
  (k, v) :: mdel m k

/-- The keys of a map. -/
def mkeys {α : Type} (m : Map α) : List Int := m.map Prod.fst

/-- The struct `carsStruct` of the source (without its mutex). -/
structure carsStruct where
  m : Map car
  pools : List (Map car)
deriving DecidableEq

/-- The struct `groupsStruct` of the source (without its mutex). -/
structure groupsStruct where
  groupsArrived : Int
  m : Map group
  queues : List (List group)
deriving DecidableEq

/-- The two package-level variables `cars` and `groups`. -/
structure State where
  cars : carsStruct
  groups : groupsStruct
deriving DecidableEq

/-- The ways a run can fail to return: a Go runtime panic, or the fuel of the
model of a recursive function running out. -/
inductive Fault where
  | panic
  | timeout
deriving DecidableEq

/-- The zero value of `car`, what `cars.m[k]` yields for an absent key. -/
def zeroCar : car := { id := 0, seatsTotal := 0, seatsAvailable := 0 }

/-- The zero value of `group`, what `var g group` declares. -/
def zeroGroup : group := { id := 0, arrival := 0, people := 0, idCar := 0 }

/-- The one-result lookup `cars.m[k]`: the zero car when the key is absent. -/
def carAt (m : Map car) (k : Int) : car :=
  match mget m k with
  | some c => c
  | none => zeroCar

/-- The slice read `l[i]`: panics when `i` is out of range. -/
def idx {α : Type} (l : List α) (i : Int) : Except Fault α :=
  if 0 ≤ i then
    match l[i.toNat]? with
    | some x => .ok x
    | none => .error Fault.panic
  else .error Fault.panic

/-- The slice update `l[i] = f(l[i])`: panics when `i` is out of range. -/
def updIdx {α : Type} (l : List α) (i : Int) (f : α → α) : Except Fault (List α) :=
  if 0 ≤ i then
    match l[i.toNat]? with
    | some x => .ok (l.set i.toNat (f x))
    | none => .error Fault.panic
  else .error Fault.panic

/-- The largest value of a Go `int`: `math.MaxInt64`. -/
def maxInt : Int := 9223372036854775807

/-- The smallest value of a Go `int`: `math.MinInt64`. -/
def minInt : Int := -9223372036854775808

/-- The value a Go `int` holds after an operation whose exact result is `x`:
the two's-complement representative of `x` modulo `2^64`. -/
def wrapInt (x : Int) : Int :=
  (x + 9223372036854775808) % 18446744073709551616 - 9223372036854775808

/-! ## Operations -/

/-- The function `resetState` of `main.go`: `cars.reset()` then `groups.reset()`. -/
def resetState : State :=
  { cars := { m := [], pools := List.replicate 6 [] },
    groups := { groupsArrived := 0, m := [], queues := List.replicate 6 [] } }

/-- The method `carsStruct.loadCars`. -/
def loadCars : List carJSONAPI → State → Except Fault State
  | [], s => .ok s
  | cJSONAPI :: rest, s => do
    let m1 := mset s.cars.m cJSONAPI.Id
      { id := cJSONAPI.Id, seatsTotal := cJSONAPI.Seats, seatsAvailable := cJSONAPI.Seats }
    let pools1 ← updIdx s.cars.pools (cJSONAPI.Seats - 1)
      (fun b => mset b cJSONAPI.Id (carAt m1 cJSONAPI.Id))
    loadCars rest { s with cars := { m := m1, pools := pools1 } }

/-- The method `carsStruct.ride`. -/
def ride (c : car) (g : group) (s : State) : Except Fault State := do
  let gm := mset s.groups.m g.id
    { id := g.id, arrival := g.arrival, people := g.people, idCar := c.id }
  let pools1 ← updIdx s.cars.pools (c.seatsAvailable - 1) (fun b => mdel b c.id)
  let m1 := mset s.cars.m c.id
    { id := c.id, seatsTotal := c.seatsTotal, seatsAvailable := c.seatsAvailable - g.people }
  if (carAt m1 c.id).seatsAvailable > 0 then do
    let pools2 ← updIdx pools1 ((carAt m1 c.id).seatsAvailable - 1)
      (fun b => mset b c.id (carAt m1 c.id))
    .ok { cars := { m := m1, pools := pools2 }, groups := { s.groups with m := gm } }
  else
    .ok { cars := { m := m1, pools := pools1 }, groups := { s.groups with m := gm } }

/-- The loop `for i := g.people - 1; i < len(cars.pools); i++` of
`rideTryGroup`, from index `i` on; `fuel` bounds the number of iterations
(the caller passes `len(cars.pools) - i`). It yields the first non-empty
bucket met, if any. -/
def scanPools (pools : List (Map car)) : Nat → Int → Except Fault (Option (Map car))
  | 0, _ => .ok none
  | fuel + 1, i =>
    if i < (pools.length : Int) then do
      let b ← idx pools i
      if b.length > 0 then .ok (some b) else scanPools pools fuel (i + 1)
    else .ok none

/-- The method `carsStruct.rideTryGroup`. The argument `pick` resolves the
unspecified iteration order of `range cars.pools[i]`: the car seated is entry
`pick % len` of the bucket. -/
def rideTryGroup (pick : Nat) (groupToRide : groupJSONAPI) (s : State) :
    Except Fault (Int × State) :=
  match mget s.groups.m groupToRide.Id with
  | some _ => .ok (-1, s)
  | none => do
    let arrived := wrapInt (s.groups.groupsArrived + 1)
    let g : group :=
      { id := groupToRide.Id, arrival := arrived, people := groupToRide.People, idCar := 0 }
    let s1 : State :=
      { s with groups := { s.groups with groupsArrived := arrived, m := mset s.groups.m g.id g } }
    let found ← scanPools s1.cars.pools
      ((s1.cars.pools.length : Int) - (g.people - 1)).toNat (g.people - 1)
    match found with
    | some b =>
      match b[pick % b.length]? with
      | some (_, c) => do
        let s2 ← ride c g s1
        .ok (0, s2)
      | none => .error Fault.panic
    | none => do
      let queues1 ← updIdx s1.groups.queues (g.people - 1) (fun q => q ++ [g])
      .ok (1, { s1 with groups := { s1.groups with queues := queues1 } })

/-- The test of the prune loop of `rideTryCar`: entry `e` of a queue is live
when the ledger holds a group under `e.id` that is equal to `e`. -/
def live (m : Map group) (e : group) : Bool :=
  decide (mget m e.id = some e)

/-- The first loop of `rideTryCar`: every queue loses its leading entries
that are not live. -/
def pruneQueues (m : Map group) (queues : List (List group)) : List (List group) :=
  queues.map (fun q => q.dropWhile (fun e => !(live m e)))

/-- The second loop of `rideTryCar`, `for i := c.seatsAvailable - 1; i >= 0; i--`,
with `n` iterations left (so `i = n - 1`), carrying the variables `g` and
`gQueue`. -/
def selectGroup (queues : List (List group)) : Nat → group × Int → Except Fault (group × Int)
  | 0, acc => .ok acc
  | i + 1, (g, gQueue) => do
    let q ← idx queues (i : Int)
    match q with
    | [] => selectGroup queues i (g, gQueue)
    | h :: _ =>
      if g.id = 0 ∨ h.arrival < g.arrival then selectGroup queues i (h, (i : Int))
      else selectGroup queues i (g, gQueue)

/-- The slice expression `q[1:]`: panics on an empty slice. -/
def popHead (q : List group) : Except Fault (List group) :=
  match q with
  | [] => .error Fault.panic
  | _ :: t => .ok t

/-- The body of `rideTryCar` up to its recursive call: prune, select, and if a
group was selected pop it and seat it. It yields the state reached and the
group seated, if any. -/
def rideTryCarStep (c : car) (s : State) : Except Fault (State × Option group) := do
  let s1 : State := { s with groups := { s.groups with queues := pruneQueues s.groups.m s.groups.queues } }
  let (g, gQueue) ← selectGroup s1.groups.queues c.seatsAvailable.toNat (zeroGroup, -1)
  if gQueue ≥ 0 then do
    let q ← idx s1.groups.queues gQueue
    let t ← popHead q
    let queues2 ← updIdx s1.groups.queues gQueue (fun _ => t)
    let s3 ← ride c g { s1 with groups := { s1.groups with queues := queues2 } }
    .ok (s3, some g)
  else .ok (s1, none)

/-- The method `groupsStruct.rideTryCar`, with a bound `fuel` on the depth of
the recursion. -/
def rideTryCarFuel : Nat → car → State → Except Fault State
  | 0, _, _ => .error Fault.timeout
  | fuel + 1, c, s => do
    let (s1, seated) ← rideTryCarStep c s
    match seated with
    | some _ => rideTryCarFuel fuel (carAt s1.cars.m c.id) s1
    | none => .ok s1

/-- The number of entries in all the queues together. -/
def queued (s : State) : Nat := (s.groups.queues.map List.length).sum

/-- The method `groupsStruct.rideTryCar`: every recursive call follows the
removal of a queue entry, so `queued s + 1` levels are enough. -/
def rideTryCar (c : car) (s : State) : Except Fault State :=
  rideTryCarFuel (queued s + 1) c s

/-- The part of `dropGroup` that gives the seats of the dropped group `g`
back to its car, from `c := cars.m[g.idCar]` to the second pool update; it
yields the car `cars.m[c.id]` and the state that `rideTryCar` is then called
with. -/
def giveBack (g : group) (s : State) : Except Fault (car × State) := do
  let c := carAt s.cars.m g.idCar
  let pools1 ← if c.seatsAvailable > 0
    then updIdx s.cars.pools (c.seatsAvailable - 1) (fun b => mdel b c.id)
    else .ok s.cars.pools
  let m1 := mset s.cars.m c.id
    { id := c.id, seatsTotal := c.seatsTotal, seatsAvailable := c.seatsAvailable + g.people }
  let pools2 ← updIdx pools1 ((carAt m1 c.id).seatsAvailable - 1)
    (fun b => mset b c.id (carAt m1 c.id))
  .ok (carAt m1 c.id, { s with cars := { m := m1, pools := pools2 } })

/-- The method `groupsStruct.dropGroup`. -/
def dropGroup (groupToDrop : groupFORMAPI) (s : State) : Except Fault (Int × State) :=
  match mget s.groups.m groupToDrop.Id with
  | none => .ok (-1, s)
  | some g =>
    let s1 : State := { s with groups := { s.groups with m := mdel s.groups.m g.id } }
    if g.idCar > 0 then do
      let (c1, s2) ← giveBack g s1
      let s3 ← rideTryCar c1 s2
      .ok (0, s3)
    else .ok (1, s1)

/-- The method `groupsStruct.locateGroup`; it only reads, the state is
returned as it was received. -/
def locateGroup (groupToLocate : groupFORMAPI) (s : State) : Int × State :=
  match mget s.groups.m groupToLocate.Id with
  | some g => (g.idCar, s)
  | none => (-1, s)

/-- The handler `putCars` of `main.go` past its decoding: `resetState()` then
`cars.loadCars(carsToLoad)`; the prior state is discarded. -/
def putCars (carsToLoad : List carJSONAPI) (_prior : State) : Except Fault State :=
  loadCars carsToLoad resetState

/-- Two results of a run can be compared. -/
instance instDecidableEqExcept {ε α : Type} [DecidableEq ε] [DecidableEq α] :
    DecidableEq (Except ε α)
  | .ok a, .ok b =>
    if h : a = b then isTrue (by rw [h]) else isFalse (fun h' => h (Except.ok.inj h'))
  | .error a, .error b =>
    if h : a = b then isTrue (by rw [h]) else isFalse (fun h' => h (Except.error.inj h'))
  | .ok _, .error _ => isFalse (fun h => by cases h)
  | .error _, .ok _ => isFalse (fun h => by cases h)

/-! ## Well-formed input and reachable states -/

/-- Validated input of a fleet load: distinct positive car ids, seats in 1..6.
The handler `putCars` itself only requires both fields to be non-zero. -/
def validFleet (l : List carJSONAPI) : Prop :=
  (l.map (fun c => c.Id)).Nodup ∧ ∀ c ∈ l, 0 < c.Id ∧ 1 ≤ c.Seats ∧ c.Seats ≤ 6

instance (l : List carJSONAPI) : Decidable (validFleet l) := by
  unfold validFleet; infer_instance

/-- Validated input of a ride request: non-zero id, people in 1..6. The
handler `postJourney` itself only requires both fields to be non-zero. -/
def validRequest (r : groupJSONAPI) : Prop :=
  r.Id ≠ 0 ∧ 1 ≤ r.People ∧ r.People ≤ 6

instance (r : groupJSONAPI) : Decidable (validRequest r) := by
  unfold validRequest; infer_instance

/-- The states the service can be in between two requests: the state after
`resetState`, and every state that a fleet load, a ride request, a drop-off or
a locate that returned leads to from such a state. The runs covered are those
in which the counter `groupsArrived` stays below `maxInt`, that is, fewer than
`2^63 - 1` ride requests were accepted since the last fleet load: the
increment of such a state does not wrap. -/
inductive Reachable : State → Prop
  | init : Reachable resetState
  | load (prior s : State) (l : List carJSONAPI) :
      Reachable prior → validFleet l → putCars l prior = .ok s → Reachable s
  | journey (s s1 : State) (pick : Nat) (r : groupJSONAPI) (res : Int) :
      Reachable s → validRequest r → rideTryGroup pick r s = .ok (res, s1) →
      s1.groups.groupsArrived < maxInt → Reachable s1
  | dropoff (s s1 : State) (d : groupFORMAPI) (res : Int) :
      Reachable s → dropGroup d s = .ok (res, s1) → Reachable s1
  | locate (s : State) (d : groupFORMAPI) :
      Reachable s → Reachable (locateGroup d s).2

/-- The calls of `rideTryCar`: `RematchCall c s` says that `rideTryCar` is
entered with car `c` in state `s`, either from `dropGroup` in a reachable
state, after the seats of a traveling group were given back, or from the
round before of `rideTryCar` itself, which seated a group. -/
inductive RematchCall : car → State → Prop
  | first (s : State) (d : groupFORMAPI) (g : group) (c1 : car) (s2 : State) :
      Reachable s → mget s.groups.m d.Id = some g → g.idCar > 0 →
      giveBack g ⟨s.cars, ⟨s.groups.groupsArrived, mdel s.groups.m g.id, s.groups.queues⟩⟩
        = .ok (c1, s2) →
      RematchCall c1 s2
  | next (c : car) (s s1 : State) (g : group) :
      RematchCall c s → rideTryCarStep c s = .ok (s1, some g) →
      RematchCall (carAt s1.cars.m c.id) s1

/-! ### The run of the specification's scenario

Fleet `[{id: 1, seats: 4}]`; group 1 (4 people) asks for a ride; group 2
(1 person) asks for a ride; group 1 is dropped. -/

/-- The state after loading the fleet `[{id: 1, seats: 4}]`. -/
def demo0 : State :=
  { cars := { m := [(1, ⟨1, 4, 4⟩)], pools := [[], [], [], [(1, ⟨1, 4, 4⟩)], [], []] },
    groups := { groupsArrived := 0, m := [], queues := [[], [], [], [], [], []] } }

/-- The state after group 1, of 4 people, was seated in car 1. -/
def demo1 : State :=
  { cars := { m := [(1, ⟨1, 4, 0⟩)], pools := [[], [], [], [], [], []] },
    groups := { groupsArrived := 1, m := [(1, ⟨1, 1, 4, 1⟩)],
                queues := [[], [], [], [], [], []] } }

/-- The state after group 2, of 1 person, was put in the queue. -/
def demo2 : State :=
  { cars := { m := [(1, ⟨1, 4, 0⟩)], pools := [[], [], [], [], [], []] },
    groups := { groupsArrived := 2, m := [(2, ⟨2, 2, 1, 0⟩), (1, ⟨1, 1, 4, 1⟩)],
                queues := [[⟨2, 2, 1, 0⟩], [], [], [], [], []] } }

/-- The state after group 1 was dropped and group 2 took its place. -/
def demo3 : State :=
  { cars := { m := [(1, ⟨1, 4, 3⟩)], pools := [[], [], [(1, ⟨1, 4, 3⟩)], [], [], []] },
    groups := { groupsArrived := 2, m := [(2, ⟨2, 2, 1, 1⟩)],
                queues := [[], [], [], [], [], []] } }

/-- The state `demo2` after group 3, of 2 people, was put in the queue too. -/
def demoTwoWaiting : State :=
  { cars := { m := [(1, ⟨1, 4, 0⟩)], pools := [[], [], [], [], [], []] },
    groups := { groupsArrived := 3,
                m := [(3, ⟨3, 3, 2, 0⟩), (2, ⟨2, 2, 1, 0⟩), (1, ⟨1, 1, 4, 1⟩)],
                queues := [[⟨2, 2, 1, 0⟩], [⟨3, 3, 2, 0⟩], [], [], [], []] } }

/-- The state in which `dropGroup` calls `rideTryCar` when group 1 is dropped
in `demoTwoWaiting`: the four seats of car 1 are free again, group 2 (1
person, arrival 2) and group 3 (2 people, arrival 3) are waiting. -/
def demoCall : State :=
  { cars := { m := [(1, ⟨1, 4, 4⟩)], pools := [[], [], [], [(1, ⟨1, 4, 4⟩)], [], []] },
    groups := { groupsArrived := 3, m := [(3, ⟨3, 3, 2, 0⟩), (2, ⟨2, 2, 1, 0⟩)],
                queues := [[⟨2, 2, 1, 0⟩], [⟨3, 3, 2, 0⟩], [], [], [], []] } }

/-- The state after loading the fleet `[{id: 1, seats: 4}, {id: 2, seats: 4}]`. -/
def demoTwoCars : State :=
  { cars := { m := [(2, ⟨2, 4, 4⟩), (1, ⟨1, 4, 4⟩)],
              pools := [[], [], [], [(2, ⟨2, 4, 4⟩), (1, ⟨1, 4, 4⟩)], [], []] },
    groups := { groupsArrived := 0, m := [], queues := [[], [], [], [], [], []] } }

/-- The people seated in car `cid` according to the ledger `m`: the sum of
`people` over the ledger groups whose `idCar` is `cid`. -/
def seated (m : Map group) (cid : Int) : Int :=
  (m.map (fun p => if p.2.idCar = cid then p.2.people else 0)).sum

/-- The keys of a map are pairwise distinct. -/
def keysNodup {α : Type} (m : Map α) : Prop := (mkeys m).Nodup

/-- The sum of `f` over the entries of a map. -/
def msum {α : Type} (f : Int × α → Int) (m : Map α) : Int := (m.map f).sum

/-- The representation invariant of the car registry: cars are keyed by
their positive id, seat counts are in range, and bucket `k` of the pool index
holds exactly the cars with `k + 1` seats available. -/
structure CarsInv (cs : carsStruct) : Prop where
  carsNodup : keysNodup cs.m
  carsOk : ∀ k c, mget cs.m k = some c →
    c.id = k ∧ 0 < k ∧ 1 ≤ c.seatsTotal ∧ c.seatsTotal ≤ 6 ∧
      0 ≤ c.seatsAvailable ∧ c.seatsAvailable ≤ c.seatsTotal
  poolsLen : cs.pools.length = 6
  poolsNodup : ∀ (k : Nat) b, cs.pools[k]? = some b → keysNodup b
  poolsOk : ∀ (k : Nat) b, cs.pools[k]? = some b → ∀ id v,
    mget b id = some v ↔ (mget cs.m id = some v ∧ v.seatsAvailable = (k : Int) + 1)

/-- The representation invariant of the whole state. The argument `skip`
names a ledger group that is waiting without being queued: between the
moment a group is recorded (or popped from its queue) and the moment `ride`
seats it. Between two requests `skip` is `none`. -/
structure Inv (skip : Option Int) (s : State) : Prop where
  cars : CarsInv s.cars
  groupsNodup : keysNodup s.groups.m
  groupsOk : ∀ k g, mget s.groups.m k = some g →
    g.id = k ∧ k ≠ 0 ∧ 1 ≤ g.people ∧ g.people ≤ 6 ∧
      1 ≤ g.arrival ∧ g.arrival ≤ s.groups.groupsArrived ∧
      (g.idCar = 0 ∨ ∃ c, mget s.cars.m g.idCar = some c)
  arrivalInj : ∀ k1 g1 k2 g2, mget s.groups.m k1 = some g1 → mget s.groups.m k2 = some g2 →
    g1.arrival = g2.arrival → k1 = k2
  conserve : ∀ k c, mget s.cars.m k = some c →
    c.seatsAvailable + seated s.groups.m k = c.seatsTotal
  arrivedNonneg : 0 ≤ s.groups.groupsArrived
  queuesLen : s.groups.queues.length = 6
  queuesOk : ∀ (k : Nat) q, s.groups.queues[k]? = some q → ∀ e ∈ q,
    e.people = (k : Int) + 1 ∧ e.idCar = 0 ∧ e.id ≠ 0 ∧
      1 ≤ e.arrival ∧ e.arrival ≤ s.groups.groupsArrived
  queuesSorted : ∀ (k : Nat) q, s.groups.queues[k]? = some q →
    q.Pairwise (fun a b => a.arrival < b.arrival)
  waitQ : ∀ k g, mget s.groups.m k = some g → g.idCar = 0 → some k ≠ skip →
    ∃ q, s.groups.queues[(g.people - 1).toNat]? = some q ∧ g ∈ q

/-- The loop invariant of the selection loop of `rideTryCar`, for the
buckets `lo .. hi - 1` scanned so far: either nothing is selected and they are
all empty, or the selected group heads one of them and no head among them
arrived earlier. -/
def Sel (queues : List (List group)) (lo hi : Nat) (acc : group × Int) : Prop :=
  (acc.1.id = 0 ∧ acc.2 = -1 ∧ ∀ j : Nat, lo ≤ j → j < hi → queues[j]? = some []) ∨
  (acc.1.id ≠ 0 ∧ ∃ (i : Nat) (t : List group), acc.2 = (i : Int) ∧ lo ≤ i ∧ i < hi ∧
    queues[i]? = some (acc.1 :: t) ∧
    ∀ (j : Nat) (h : group) (t1 : List group), lo ≤ j → j < hi →
      queues[j]? = some (h :: t1) → acc.1.arrival ≤ h.arrival)

/-- The people newly seated in car `cid` between the ledgers `m0` and `m1`:
the sum of `people` over the groups that `m1` has in car `cid` and that `m0`
had waiting (`idCar == 0`). -/
def newly (m0 m1 : Map group) (cid : Int) : Int :=
  msum (fun p => if p.2.idCar = cid ∧ (mget m0 p.1).map (fun g => g.idCar) = some 0
    then p.2.people else 0) m1

/-- The recursion of `rideTryCar` as a relation between the car and state it
is called with and the state it returns: rounds of `rideTryCarStep`, each on
the car as `cars.m` holds it after the round before, until a round seats
nobody. -/
inductive Rematch : car → State → State → Prop
  | stop (c : car) (s s1 : State) :
      rideTryCarStep c s = .ok (s1, none) → Rematch c s s1
  | seat (c : car) (s s1 s2 : State) (g : group) :
      rideTryCarStep c s = .ok (s1, some g) →
      Rematch (carAt s1.cars.m c.id) s1 s2 → Rematch c s s2

/-- What a run of `rideTryCar` on car `c` guarantees, from state `s` to
state `s1`. -/
structure RematchPost (c : car) (s s1 : State) : Prop where
  inv : Inv none s1
  carsFrame : ∀ k, k ≠ c.id → mget s1.cars.m k = mget s.cars.m k
  carKept : ∃ c1, mget s1.cars.m c.id = some c1 ∧ c1.id = c.id ∧ c1.seatsTotal = c.seatsTotal
  seats : (carAt s1.cars.m c.id).seatsAvailable + newly s.groups.m s1.groups.m c.id
    = c.seatsAvailable
  arrived : s1.groups.groupsArrived = s.groups.groupsArrived
  traveling : ∀ k g, mget s.groups.m k = some g → g.idCar ≠ 0 → mget s1.groups.m k = some g
  waiting : ∀ k g, mget s.groups.m k = some g → g.idCar = 0 →
    mget s1.groups.m k = some g ∨
      mget s1.groups.m k = some (⟨g.id, g.arrival, g.people, c.id⟩ : group)
  absent : ∀ k, mget s.groups.m k = none → mget s1.groups.m k = none
  full : ∀ k w, mget s1.groups.m k = some w → w.idCar = 0 →
    (carAt s1.cars.m c.id).seatsAvailable < w.people
  idle : (∀ k w, mget s.groups.m k = some w → w.idCar = 0 → c.seatsAvailable < w.people) →
    s1.cars = s.cars ∧ s1.groups.m = s.groups.m

/-- The number of recursive calls that a run of `rideTryCarFuel` makes: one
for every round of `rideTryCarStep` that seats a group. -/
def rematchCalls : Nat → car → State → Nat
  | 0, _, _ => 0
  | fuel + 1, c, s =>
    match rideTryCarStep c s with
    | .ok (s1, some _) => 1 + rematchCalls fuel (carAt s1.cars.m c.id) s1
    | _ => 0
/-- No waiting group fits any car: every ledger group with `idCar == 0` has
more people than any car of `cars.m` has seats available. -/
def NoFit (s : State) : Prop :=
  ∀ k g kc c, mget s.groups.m k = some g → g.idCar = 0 → mget s.cars.m kc = some c →
    c.seatsAvailable < g.people

/-- One request other than a fleet load, with the input the boundary lets
through, that returns. -/
inductive Step : State → State → Prop
  | journey (s s1 : State) (pick : Nat) (r : groupJSONAPI) (res : Int) :
      validRequest r → rideTryGroup pick r s = .ok (res, s1) → Step s s1
  | dropoff (s s1 : State) (d : groupFORMAPI) (res : Int) :
      dropGroup d s = .ok (res, s1) → Step s s1
  | locate (s : State) (d : groupFORMAPI) : Step s (locateGroup d s).2

/-- A sequence of requests that return, none of which is a ride request for
the group id `k`. -/
inductive Quiet (k : Int) : State → State → Prop
  | refl (s : State) : Quiet k s s
  | load (s s1 s2 : State) (l : List carJSONAPI) :
      Quiet k s s1 → putCars l s1 = .ok s2 → Quiet k s s2
  | journey (s s1 s2 : State) (pick : Nat) (r : groupJSONAPI) (res : Int) :
      Quiet k s s1 → r.Id ≠ k → rideTryGroup pick r s1 = .ok (res, s2) → Quiet k s s2
  | dropoff (s s1 s2 : State) (d : groupFORMAPI) (res : Int) :
      Quiet k s s1 → dropGroup d s1 = .ok (res, s2) → Quiet k s s2
  | locate (s s1 : State) (d : groupFORMAPI) :
      Quiet k s s1 → Quiet k s (locateGroup d s1).2

/-- The calls of `ride`: `RideCall c g s` says that `ride` is entered with
car `c` and group `g` in state `s`, either from `rideTryGroup` in a reachable
state, with a car of the first non-empty bucket the scan met and the group
just recorded, or from a round of `rideTryCar`, with the car it was called
with and the group it selected and popped. -/
inductive RideCall : car → group → State → Prop
  | request (s : State) (pick : Nat) (r : groupJSONAPI) (b : Map car) (k : Int) (c : car) :
      Reachable s → validRequest r → mget s.groups.m r.Id = none →
      scanPools s.cars.pools ((s.cars.pools.length : Int) - (r.People - 1)).toNat
        (r.People - 1) = .ok (some b) →
      b[pick % b.length]? = some (k, c) →
      RideCall c ⟨r.Id, wrapInt (s.groups.groupsArrived + 1), r.People, 0⟩
        ⟨s.cars, ⟨wrapInt (s.groups.groupsArrived + 1),
          mset s.groups.m r.Id ⟨r.Id, wrapInt (s.groups.groupsArrived + 1), r.People, 0⟩,
          s.groups.queues⟩⟩
  | rematch (c : car) (s : State) (g : group) (i : Nat) (t : List group) :
      RematchCall c s →
      selectGroup (pruneQueues s.groups.m s.groups.queues) c.seatsAvailable.toNat
        (zeroGroup, -1) = .ok (g, (i : Int)) →
      (pruneQueues s.groups.m s.groups.queues)[i]? = some (g :: t) →
      RideCall c g ⟨s.cars, ⟨s.groups.groupsArrived, s.groups.m,
        (pruneQueues s.groups.m s.groups.queues).set i t⟩⟩

/-- The state `demo2` after group 2, which was waiting, was dropped: its
queue entry is still there. -/
def demoStale : State :=
  { cars := { m := [(1, ⟨1, 4, 0⟩)], pools := [[], [], [], [], [], []] },
    groups := { groupsArrived := 2, m := [(1, ⟨1, 1, 4, 1⟩)],
                queues := [[⟨2, 2, 1, 0⟩], [], [], [], [], []] } }

/-- The state `demoStale` after the id 2 asked for a ride again, for 1
person: the new entry, of arrival 3, is queued behind the old one. -/
def demoAgain : State :=
  { cars := { m := [(1, ⟨1, 4, 0⟩)], pools := [[], [], [], [], [], []] },
    groups := { groupsArrived := 3, m := [(2, ⟨2, 3, 1, 0⟩), (1, ⟨1, 1, 4, 1⟩)],
                queues := [[⟨2, 2, 1, 0⟩, ⟨2, 3, 1, 0⟩], [], [], [], [], []] } }

/-- The state in which `dropGroup` calls `rideTryCar` when group 1 is dropped
in `demoAgain`. -/
def demoCallStale : State :=
  { cars := { m := [(1, ⟨1, 4, 4⟩)], pools := [[], [], [], [(1, ⟨1, 4, 4⟩)], [], []] },
    groups := { groupsArrived := 3, m := [(2, ⟨2, 3, 1, 0⟩)],
                queues := [[⟨2, 2, 1, 0⟩, ⟨2, 3, 1, 0⟩], [], [], [], [], []] } }

/-- The state `demoAgain` after group 1 was dropped: the group of arrival 3
sits in car 1 and the queue is empty. -/
def demoAfter : State :=
  { cars := { m := [(1, ⟨1, 4, 3⟩)], pools := [[], [], [(1, ⟨1, 4, 3⟩)], [], [], []] },
    groups := { groupsArrived := 3, m := [(2, ⟨2, 3, 1, 1⟩)],
                queues := [[], [], [], [], [], []] } }

/-! ### A run in which a group is passed

Fleet `[{id: 1, seats: 3}]`; group 1 (3 people) is seated; groups 2 (1
person), 3 (3 people) and 4 (1 person) ask for a ride in that order and are
queued; group 1 is dropped. -/

/-- The state after loading the fleet `[{id: 1, seats: 3}]`. -/
def demoPass0 : State :=
  { cars := { m := [(1, ⟨1, 3, 3⟩)], pools := [[], [], [(1, ⟨1, 3, 3⟩)], [], [], []] },
    groups := { groupsArrived := 0, m := [], queues := [[], [], [], [], [], []] } }

/-- The state after group 1, of 3 people, was seated in car 1. -/
def demoPass1 : State :=
  { cars := { m := [(1, ⟨1, 3, 0⟩)], pools := [[], [], [], [], [], []] },
    groups := { groupsArrived := 1, m := [(1, ⟨1, 1, 3, 1⟩)],
                queues := [[], [], [], [], [], []] } }

/-- The state after group 2, of 1 person, was put in the queue. -/
def demoPass2 : State :=
  { cars := { m := [(1, ⟨1, 3, 0⟩)], pools := [[], [], [], [], [], []] },
    groups := { groupsArrived := 2, m := [(2, ⟨2, 2, 1, 0⟩), (1, ⟨1, 1, 3, 1⟩)],
                queues := [[⟨2, 2, 1, 0⟩], [], [], [], [], []] } }

/-- The state after group 3, of 3 people, was put in the queue. -/
def demoPass3 : State :=
  { cars := { m := [(1, ⟨1, 3, 0⟩)], pools := [[], [], [], [], [], []] },
    groups := { groupsArrived := 3,
                m := [(3, ⟨3, 3, 3, 0⟩), (2, ⟨2, 2, 1, 0⟩), (1, ⟨1, 1, 3, 1⟩)],
                queues := [[⟨2, 2, 1, 0⟩], [], [⟨3, 3, 3, 0⟩], [], [], []] } }

/-- The state after group 4, of 1 person, was put in the queue. -/
def demoPass : State :=
  { cars := { m := [(1, ⟨1, 3, 0⟩)], pools := [[], [], [], [], [], []] },
    groups := { groupsArrived := 4,
                m := [(4, ⟨4, 4, 1, 0⟩), (3, ⟨3, 3, 3, 0⟩), (2, ⟨2, 2, 1, 0⟩),
                      (1, ⟨1, 1, 3, 1⟩)],
                queues := [[⟨2, 2, 1, 0⟩, ⟨4, 4, 1, 0⟩], [], [⟨3, 3, 3, 0⟩], [], [], []] } }

/-- The state in which `dropGroup` calls `rideTryCar` when group 1 is dropped
in `demoPass`: the three seats of car 1 are free again, and groups 2, 3 and 4
are waiting. -/
def demoPassCall : State :=
  { cars := { m := [(1, ⟨1, 3, 3⟩)], pools := [[], [], [(1, ⟨1, 3, 3⟩)], [], [], []] },
    groups := { groupsArrived := 4,
                m := [(4, ⟨4, 4, 1, 0⟩), (3, ⟨3, 3, 3, 0⟩), (2, ⟨2, 2, 1, 0⟩)],
                queues := [[⟨2, 2, 1, 0⟩, ⟨4, 4, 1, 0⟩], [], [⟨3, 3, 3, 0⟩], [], [], []] } }

/-- The state `demoPass` after group 1 was dropped: groups 2 and 4 sit in car
1, which has one seat left, and group 3 is still waiting. -/
def demoPassed : State :=
  { cars := { m := [(1, ⟨1, 3, 1⟩)], pools := [[(1, ⟨1, 3, 1⟩)], [], [], [], [], []] },
    groups := { groupsArrived := 4,
                m := [(4, ⟨4, 4, 1, 1⟩), (2, ⟨2, 2, 1, 1⟩), (3, ⟨3, 3, 3, 0⟩)],
                queues := [[], [], [⟨3, 3, 3, 0⟩], [], [], []] } }

/-- Arrival order over a whole drop-off of the group `d` in state `s`: of two
waiting groups `a` and `b` that both fit the car as `dropGroup` frees it, `a`
having arrived before `b`, the rematch seats `b` only if it seats `a` too. -/
def FreedCarOrder (s : State) (d : groupFORMAPI) : Prop :=
  ∀ (g : group) (c1 : car) (s2 s3 : State),
    mget s.groups.m d.Id = some g → g.idCar > 0 →
    giveBack g ⟨s.cars, ⟨s.groups.groupsArrived, mdel s.groups.m g.id, s.groups.queues⟩⟩
      = .ok (c1, s2) →
    rideTryCar c1 s2 = .ok s3 →
    ∀ a b : group,
      mget s2.groups.m a.id = some a → a.idCar = 0 → a.people ≤ c1.seatsAvailable →
      mget s2.groups.m b.id = some b → b.idCar = 0 → b.people ≤ c1.seatsAvailable →
      a.arrival < b.arrival →
      mget s3.groups.m b.id = some (⟨b.id, b.arrival, b.people, c1.id⟩ : group) →
      mget s3.groups.m a.id = some (⟨a.id, a.arrival, a.people, c1.id⟩ : group)

/-- The state `demo0` with the counter at `maxInt`. No run that `Reachable`
describes gets there; it shows what the increment does at the largest `int`. -/
def demoLast : State :=
  { cars := { m := [(1, ⟨1, 4, 4⟩)], pools := [[], [], [], [(1, ⟨1, 4, 4⟩)], [], []] },
    groups := { groupsArrived := maxInt, m := [], queues := [[], [], [], [], [], []] } }

/-- The state `demoLast` after group 1, of 4 people, was seated in car 1: the
counter and the arrival of the group are `minInt`. -/
def demoWrapped : State :=
  { cars := { m := [(1, ⟨1, 4, 0⟩)], pools := [[], [], [], [], [], []] },
    groups := { groupsArrived := minInt, m := [(1, ⟨1, minInt, 4, 1⟩)],
                queues := [[], [], [], [], [], []] } }

/-! ## The counter -/

/-- Below `maxInt` the Go increment is the exact one. -/
theorem wrapInt_succ (x : Int) (h0 : minInt ≤ x + 1) (h1 : x < maxInt) :
    wrapInt (x + 1) = x + 1 := by
  unfold wrapInt
  unfold minInt at h0
  unfold maxInt at h1
  omega

/-- At `maxInt` the Go increment wraps to `minInt`. -/
theorem wrapInt_maxInt : wrapInt (maxInt + 1) = minInt := by decide

/-- The result of a Go operation is a Go `int`. -/
theorem wrapInt_range (x : Int) : minInt ≤ wrapInt x ∧ wrapInt x ≤ maxInt := by
  unfold wrapInt minInt maxInt
  omega

/-! ## Maps -/

theorem mget_mdel {α : Type} (m : Map α) (k k1 : Int) :
    mget (mdel m k) k1 = if k1 = k then none else mget m k1 := by
  induction m with
  | nil => simp [mdel, mget]
  | cons p m ih =>
    obtain ⟨a, v⟩ := p
    unfold mdel at ih ⊢
    by_cases h : a = k
    · subst h
      simp only [List.filter, ne_eq, not_true_eq_false, decide_False]
      rw [ih]
      by_cases h1 : k1 = a
      · simp [h1]
      · have h2 : ¬ a = k1 := fun e => h1 e.symm
        simp [h1, h2, mget]
    · simp only [List.filter, ne_eq, h, not_false_eq_true, decide_True, mget]
      rw [ih]
      by_cases h1 : a = k1
      · subst h1; simp [h]
      · simp [h1]

theorem mget_mset {α : Type} (m : Map α) (k k1 : Int) (v : α) :
    mget (mset m k v) k1 = if k1 = k then some v else mget m k1 := by
  unfold mset
  by_cases h : k1 = k
  · subst h; simp [mget]
  · have h2 : ¬ k = k1 := fun e => h e.symm
    simp [mget, h, h2, mget_mdel]

theorem mget_some_mem {α : Type} (m : Map α) (k : Int) (v : α) (h : mget m k = some v) :
    (k, v) ∈ m := by
  induction m with
  | nil => simp [mget] at h
  | cons p m ih =>
    obtain ⟨a, w⟩ := p
    by_cases e : a = k
    · subst e; simp [mget] at h; simp [h]
    · simp [mget, e] at h; exact List.mem_cons_of_mem _ (ih h)

theorem mget_none_iff {α : Type} (m : Map α) (k : Int) :
    mget m k = none ↔ k ∉ mkeys m := by
  induction m with
  | nil => simp [mget, mkeys]
  | cons p m ih =>
    obtain ⟨a, w⟩ := p
    by_cases e : a = k
    · subst e; simp [mget, mkeys]
    · have e2 : ¬ k = a := fun x => e x.symm
      simp only [mkeys] at ih
      simp [mget, e, e2, mkeys, ih]

theorem mget_of_mem {α : Type} (m : Map α) (k : Int) (v : α) (hn : keysNodup m)
    (h : (k, v) ∈ m) : mget m k = some v := by
  induction m with
  | nil => simp at h
  | cons p m ih =>
    obtain ⟨a, w⟩ := p
    have hn2 : a ∉ mkeys m ∧ keysNodup m := by
      simpa [keysNodup, mkeys] using hn
    rcases List.mem_cons.mp h with h1 | h1
    · cases h1; simp [mget]
    · by_cases e : a = k
      · subst e
        exact absurd (List.mem_map_of_mem Prod.fst h1) hn2.1
      · simp [mget, e]; exact ih hn2.2 h1

theorem mkeys_mdel {α : Type} (m : Map α) (k k1 : Int) :
    k1 ∈ mkeys (mdel m k) ↔ k1 ∈ mkeys m ∧ k1 ≠ k := by
  rw [← not_iff_not, ← mget_none_iff, mget_mdel]
  by_cases h : k1 = k
  · simp [h]
  · simp [h, mget_none_iff]

theorem nodup_mdel {α : Type} (m : Map α) (k : Int) (hn : keysNodup m) :
    keysNodup (mdel m k) := by
  unfold keysNodup mkeys mdel
  exact List.Nodup.sublist (List.Sublist.map _ (List.filter_sublist m)) hn

theorem nodup_mset {α : Type} (m : Map α) (k : Int) (v : α) (hn : keysNodup m) :
    keysNodup (mset m k v) := by
  have h1 := nodup_mdel m k hn
  have h2 : k ∉ mkeys (mdel m k) := by rw [mkeys_mdel]; simp
  unfold keysNodup mkeys at *
  simp only [mset, List.map_cons, List.nodup_cons]
  exact ⟨h2, h1⟩

theorem mdel_absent {α : Type} (m : Map α) (k : Int) (h : mget m k = none) :
    mdel m k = m := by
  rw [mget_none_iff] at h
  unfold mdel
  rw [List.filter_eq_self]
  intro p hp
  have : p.1 ∈ mkeys m := List.mem_map_of_mem Prod.fst hp
  simp only [ne_eq, decide_eq_true_eq]
  intro e; rw [e] at this; exact h this

theorem msum_mdel {α : Type} (f : Int × α → Int) (m : Map α) (k : Int) (v : α)
    (hn : keysNodup m) (h : mget m k = some v) :
    msum f (mdel m k) = msum f m - f (k, v) := by
  induction m with
  | nil => simp [mget] at h
  | cons p m ih =>
    obtain ⟨a, w⟩ := p
    have hn2 : a ∉ mkeys m ∧ keysNodup m := by
      simpa [keysNodup, mkeys] using hn
    by_cases e : a = k
    · subst e
      simp [mget] at h
      subst h
      have hd : mdel ((a, w) :: m) a = mdel m a := by simp [mdel, List.filter]
      rw [hd, mdel_absent m a ((mget_none_iff m a).mpr hn2.1)]
      simp [msum]
    · simp [mget, e] at h
      have hd : mdel ((a, w) :: m) k = (a, w) :: mdel m k := by simp [mdel, List.filter, e]
      rw [hd]
      have := ih hn2.2 h
      simp only [msum, List.map_cons, List.sum_cons] at this ⊢
      rw [this]; ring

theorem msum_mset {α : Type} (f : Int × α → Int) (m : Map α) (k : Int) (v : α) :
    msum f (mset m k v) = f (k, v) + msum f (mdel m k) := by
  simp [msum, mset]

theorem msum_mset_new {α : Type} (f : Int × α → Int) (m : Map α) (k : Int) (v : α)
    (h : mget m k = none) : msum f (mset m k v) = f (k, v) + msum f m := by
  rw [msum_mset, mdel_absent m k h]

theorem msum_mset_old {α : Type} (f : Int × α → Int) (m : Map α) (k : Int) (v w : α)
    (hn : keysNodup m) (h : mget m k = some w) :
    msum f (mset m k v) = msum f m - f (k, w) + f (k, v) := by
  rw [msum_mset, msum_mdel f m k w hn h]; ring

theorem seated_eq_msum (m : Map group) (cid : Int) :
    seated m cid = msum (fun p => if p.2.idCar = cid then p.2.people else 0) m := rfl

theorem msum_congr {α : Type} (f f1 : Int × α → Int) (m : Map α)
    (h : ∀ p ∈ m, f p = f1 p) : msum f m = msum f1 m := by
  unfold msum
  rw [List.map_congr_left h]

theorem msum_eq_zero {α : Type} (f : Int × α → Int) (m : Map α)
    (h : ∀ p ∈ m, f p = 0) : msum f m = 0 := by
  rw [msum_congr f (fun _ => 0) m h]
  simp [msum]

theorem mem_mdel {α : Type} (m : Map α) (k : Int) (p : Int × α) :
    p ∈ mdel m k ↔ p ∈ m ∧ p.1 ≠ k := by
  simp [mdel]

theorem msum_congr_except {α : Type} (f f1 : Int × α → Int) (m : Map α) (k : Int) (v : α)
    (hn : keysNodup m) (hk : mget m k = some v)
    (h : ∀ p ∈ m, p.1 ≠ k → f p = f1 p) :
    msum f m = msum f1 m + f (k, v) - f1 (k, v) := by
  have e1 := msum_mdel f m k v hn hk
  have e2 := msum_mdel f1 m k v hn hk
  have e3 : msum f (mdel m k) = msum f1 (mdel m k) := by
    apply msum_congr
    intro p hp
    rw [mem_mdel] at hp
    exact h p hp.1 hp.2
  omega

theorem newly_self (m : Map group) (cid : Int) (hn : keysNodup m) (hc : cid ≠ 0) :
    newly m m cid = 0 := by
  apply msum_eq_zero
  intro p hp
  have : mget m p.1 = some p.2 := mget_of_mem m p.1 p.2 hn hp
  simp only [this, Option.map_some', Option.some.injEq]
  rw [if_neg]
  rintro ⟨h1, h2⟩
  exact hc (by rw [← h1, h2])

/-! ## Slices -/

theorem idx_eq_ok {α : Type} (l : List α) (i : Int) (x : α) :
    idx l i = .ok x ↔ 0 ≤ i ∧ l[i.toNat]? = some x := by
  unfold idx
  by_cases h : 0 ≤ i
  · simp only [h, if_true, true_and]
    cases l[i.toNat]? <;> simp
  · simp [h]

theorem idx_nat {α : Type} (l : List α) (n : Nat) (x : α) (h : l[n]? = some x) :
    idx l (n : Int) = .ok x := by
  rw [idx_eq_ok]; simpa using h

theorem updIdx_eq_ok {α : Type} (l l1 : List α) (i : Int) (f : α → α) :
    updIdx l i f = .ok l1 ↔
      0 ≤ i ∧ ∃ x, l[i.toNat]? = some x ∧ l1 = l.set i.toNat (f x) := by
  unfold updIdx
  by_cases h : 0 ≤ i
  · simp only [h, if_true, true_and]
    cases l[i.toNat]? with
    | none => simp
    | some x => simp [eq_comm]
  · simp [h]

theorem updIdx_get {α : Type} (l l1 : List α) (i : Int) (f : α → α)
    (h : updIdx l i f = .ok l1) (k : Nat) :
    l1[k]? = if k = i.toNat then (l[k]?).map f else l[k]? := by
  obtain ⟨_, x, hx, rfl⟩ := (updIdx_eq_ok l l1 i f).mp h
  by_cases e : k = i.toNat
  · subst e
    have hl : i.toNat < l.length := by
      by_contra hc
      rw [List.getElem?_eq_none (by omega)] at hx; cases hx
    simp [hx, List.getElem?_set_self, hl]
  · have e2 : ¬ i.toNat = k := fun x => e x.symm
    simp [e, List.getElem?_set_ne e2]

theorem updIdx_length {α : Type} (l l1 : List α) (i : Int) (f : α → α)
    (h : updIdx l i f = .ok l1) : l1.length = l.length := by
  obtain ⟨_, x, _, rfl⟩ := (updIdx_eq_ok l l1 i f).mp h
  simp

theorem updIdx_ok {α : Type} (l : List α) (i : Int) (f : α → α)
    (h0 : 0 ≤ i) (h1 : i < l.length) : ∃ l1, updIdx l i f = .ok l1 := by
  have hl : i.toNat < l.length := by omega
  refine ⟨l.set i.toNat (f l[i.toNat]), ?_⟩
  rw [updIdx_eq_ok]
  exact ⟨h0, l[i.toNat], by simp [hl], rfl⟩

/-! ## The car registry -/

theorem get_lt_of_some {α : Type} (l : List α) (k : Nat) (x : α) (h : l[k]? = some x) :
    k < l.length := by
  by_contra hc
  rw [List.getElem?_eq_none (by omega)] at h; cases h

/-- Changing the available seats of car `c` to `a1`, with the two pool
updates that `ride` and `dropGroup` perform, keeps the registry invariant. -/
theorem seat_change (cs : carsStruct) (c : car) (a1 : Int) (pools1 pools2 : List (Map car))
    (hI : CarsInv cs) (hc : mget cs.m c.id = some c) (h0 : 0 ≤ a1) (hle : a1 ≤ c.seatsTotal)
    (h1 : (if c.seatsAvailable > 0
      then updIdx cs.pools (c.seatsAvailable - 1) (fun b => mdel b c.id)
      else .ok cs.pools) = .ok pools1)
    (h2 : (if a1 > 0
      then updIdx pools1 (a1 - 1)
        (fun b => mset b c.id { id := c.id, seatsTotal := c.seatsTotal, seatsAvailable := a1 })
      else .ok pools1) = .ok pools2) :
    CarsInv ⟨mset cs.m c.id
      { id := c.id, seatsTotal := c.seatsTotal, seatsAvailable := a1 }, pools2⟩ := by
  have hcOk := hI.carsOk _ _ hc
  have g1 : ∀ k : Nat, pools1[k]? =
      if c.seatsAvailable > 0 ∧ k = (c.seatsAvailable - 1).toNat
      then (cs.pools[k]?).map (fun b => mdel b c.id) else cs.pools[k]? := by
    intro k
    by_cases hp : c.seatsAvailable > 0
    · rw [if_pos hp] at h1
      rw [updIdx_get _ _ _ _ h1 k]; simp [hp]
    · rw [if_neg hp] at h1
      cases h1; simp [hp]
  have g2 : ∀ k : Nat, pools2[k]? =
      if a1 > 0 ∧ k = (a1 - 1).toNat
      then (pools1[k]?).map (fun b => mset b c.id
        { id := c.id, seatsTotal := c.seatsTotal, seatsAvailable := a1 }) else pools1[k]? := by
    intro k
    by_cases hp : a1 > 0
    · rw [if_pos hp] at h2
      rw [updIdx_get _ _ _ _ h2 k]; simp [hp]
    · rw [if_neg hp] at h2
      cases h2; simp [hp]
  have l1 : pools1.length = cs.pools.length := by
    by_cases hp : c.seatsAvailable > 0
    · rw [if_pos hp] at h1; exact updIdx_length _ _ _ _ h1
    · rw [if_neg hp] at h1; cases h1; rfl
  have l2 : pools2.length = pools1.length := by
    by_cases hp : a1 > 0
    · rw [if_pos hp] at h2; exact updIdx_length _ _ _ _ h2
    · rw [if_neg hp] at h2; cases h2; rfl
  constructor
  · exact nodup_mset _ _ _ hI.carsNodup
  · intro k v hv
    rw [mget_mset] at hv
    by_cases e : k = c.id
    · rw [if_pos e] at hv; cases hv
      subst e
      exact ⟨rfl, hcOk.2.1, hcOk.2.2.1, hcOk.2.2.2.1, h0, hle⟩
    · rw [if_neg e] at hv; exact hI.carsOk k v hv
  · simp only; rw [l2, l1]; exact hI.poolsLen
  · intro k b2 hb2
    simp only at hb2
    have hk : k < cs.pools.length := by
      have := get_lt_of_some _ _ _ hb2; omega
    obtain ⟨b, hb⟩ : ∃ b, cs.pools[k]? = some b := ⟨cs.pools[k], by simp [hk]⟩
    have nb := hI.poolsNodup k b hb
    rw [g2, g1, hb] at hb2
    split_ifs at hb2 <;> simp at hb2 <;> subst hb2
    · exact nodup_mset _ _ _ (nodup_mdel _ _ nb)
    · exact nodup_mset _ _ _ nb
    · exact nodup_mdel _ _ nb
    · exact nb
  · intro k b2 hb2 id v
    simp only at hb2 ⊢
    have hk : k < cs.pools.length := by
      have := get_lt_of_some _ _ _ hb2; omega
    obtain ⟨b, hb⟩ : ∃ b, cs.pools[k]? = some b := ⟨cs.pools[k], by simp [hk]⟩
    have ok := hI.poolsOk k b hb
    rw [g2, g1, hb] at hb2
    rw [mget_mset]
    by_cases e : id = c.id
    · subst e
      have okc := ok c.id
      simp only [hc, Option.some.injEq] at okc
      split_ifs at hb2 with x1 x2 x3 <;> simp at hb2 <;> subst hb2
      · simp [mget_mset]
        intro e; subst e; simp; omega
      · simp [mget_mset]
        intro e; subst e; simp; omega
      · simp [mget_mdel]
        intro e; subst e; simp; omega
      · simp only [if_true]
        constructor
        · intro hv
          have := (okc v).mp hv
          obtain ⟨e1, e2⟩ := this
          subst e1
          exfalso; omega
        · rintro ⟨e1, e2⟩
          cases e1
          simp only at e2
          exfalso; omega
    · simp only [if_neg e]
      split_ifs at hb2 <;> simp at hb2 <;> subst hb2
      · simp [mget_mset, mget_mdel, e, ok]
      · simp [mget_mset, e, ok]
      · simp [mget_mdel, e, ok]
      · exact ok id v

theorem carAt_mset (m : Map car) (k : Int) (v : car) : carAt (mset m k v) k = v := by
  simp [carAt, mget_mset]

theorem carAt_of_mget (m : Map car) (k : Int) (v : car) (h : mget m k = some v) :
    carAt m k = v := by
  simp [carAt, h]

/-- The method `ride` returns when the car is registered and the group fits,
and it leaves the registry invariant in place. -/
theorem ride_ok (c : car) (g : group) (s : State) (hI : CarsInv s.cars)
    (hc : mget s.cars.m c.id = some c) (hp1 : 1 ≤ g.people)
    (hp2 : g.people ≤ c.seatsAvailable) :
    ∃ pools2, ride c g s = .ok ⟨⟨mset s.cars.m c.id
        (⟨c.id, c.seatsTotal, c.seatsAvailable - g.people⟩ : car), pools2⟩,
        { s.groups with m := (mset s.groups.m g.id
          (⟨g.id, g.arrival, g.people, c.id⟩ : group)) }⟩ ∧
      CarsInv ⟨mset s.cars.m c.id
        (⟨c.id, c.seatsTotal, c.seatsAvailable - g.people⟩ : car), pools2⟩ := by
  have hcOk := hI.carsOk _ _ hc
  have hl := hI.poolsLen
  obtain ⟨pools1, h1⟩ := updIdx_ok s.cars.pools (c.seatsAvailable - 1)
    (fun b => mdel b c.id) (by omega) (by omega)
  have l1 := updIdx_length _ _ _ _ h1
  have h1b : (if c.seatsAvailable > 0
      then updIdx s.cars.pools (c.seatsAvailable - 1) (fun b => mdel b c.id)
      else .ok s.cars.pools) = .ok pools1 := by
    rw [if_pos (by omega)]; exact h1
  by_cases hpos : c.seatsAvailable - g.people > 0
  · obtain ⟨pools2, h2⟩ := updIdx_ok pools1 (c.seatsAvailable - g.people - 1)
      (fun b => mset b c.id (⟨c.id, c.seatsTotal, c.seatsAvailable - g.people⟩ : car)) (by omega) (by omega)
    refine ⟨pools2, ?_, ?_⟩
    · simp only [ride, h1, carAt_mset, bind, Except.bind, if_pos hpos, h2]
    · exact seat_change s.cars c _ pools1 pools2 hI hc (by omega) (by omega) h1b
        (by rw [if_pos hpos]; exact h2)
  · refine ⟨pools1, ?_, ?_⟩
    · simp only [ride, h1, carAt_mset, bind, Except.bind, if_neg hpos]
    · exact seat_change s.cars c _ pools1 pools1 hI hc (by omega) (by omega) h1b
        (by rw [if_neg hpos])

theorem seated_mset_old (m : Map group) (k cid : Int) (v w : group)
    (hn : keysNodup m) (h : mget m k = some w) :
    seated (mset m k v) cid = seated m cid - (if w.idCar = cid then w.people else 0)
      + (if v.idCar = cid then v.people else 0) := by
  rw [seated_eq_msum, seated_eq_msum, msum_mset_old _ m k v w hn h]

theorem seated_mset_new (m : Map group) (k cid : Int) (v : group)
    (h : mget m k = none) :
    seated (mset m k v) cid = (if v.idCar = cid then v.people else 0) + seated m cid := by
  rw [seated_eq_msum, seated_eq_msum, msum_mset_new _ m k v h]

theorem seated_mdel (m : Map group) (k cid : Int) (w : group)
    (hn : keysNodup m) (h : mget m k = some w) :
    seated (mdel m k) cid = seated m cid - (if w.idCar = cid then w.people else 0) := by
  rw [seated_eq_msum, seated_eq_msum, msum_mdel _ m k w hn h]

/-- Seating a recorded, waiting group that fits: `ride` returns, and the
group is the only one the invariant had to skip. -/
theorem ride_inv (c : car) (g : group) (s : State) (hI : Inv (some g.id) s)
    (hc : mget s.cars.m c.id = some c) (hg : mget s.groups.m g.id = some g)
    (hw : g.idCar = 0) (hp : g.people ≤ c.seatsAvailable) :
    ∃ s1, ride c g s = .ok s1 ∧ Inv none s1 ∧
      s1.cars.m = mset s.cars.m c.id
        (⟨c.id, c.seatsTotal, c.seatsAvailable - g.people⟩ : car) ∧
      s1.groups = { s.groups with m := (mset s.groups.m g.id
        (⟨g.id, g.arrival, g.people, c.id⟩ : group)) } := by
  have hgOk := hI.groupsOk _ _ hg
  have hcOk := hI.cars.carsOk _ _ hc
  obtain ⟨pools2, hr, hci⟩ := ride_ok c g s hI.cars hc hgOk.2.2.1 hp
  refine ⟨_, hr, ?_, rfl, rfl⟩
  constructor
  · exact hci
  · exact nodup_mset _ _ _ hI.groupsNodup
  · intro k v hv
    simp only [mget_mset] at hv ⊢
    by_cases e : k = g.id
    · rw [if_pos e] at hv; cases hv
      subst e
      refine ⟨rfl, hgOk.2.1, hgOk.2.2.1, hgOk.2.2.2.1, hgOk.2.2.2.2.1, hgOk.2.2.2.2.2.1, ?_⟩
      right; simp
    · rw [if_neg e] at hv
      have := hI.groupsOk k v hv
      refine ⟨this.1, this.2.1, this.2.2.1, this.2.2.2.1, this.2.2.2.2.1, this.2.2.2.2.2.1, ?_⟩
      rcases this.2.2.2.2.2.2 with h0 | ⟨c0, h0⟩
      · left; exact h0
      · right
        by_cases e2 : v.idCar = c.id
        · simp [e2]
        · simp [e2, h0]
  · intro k1 g1 k2 g2 h1 h2 ha
    simp only [mget_mset] at h1 h2
    have key : ∀ k v, (if k = g.id then some
        ((⟨g.id, g.arrival, g.people, c.id⟩ : group) : group)
        else mget s.groups.m k) = some v →
        ∃ v0, mget s.groups.m k = some v0 ∧ v0.arrival = v.arrival := by
      intro k v hv
      by_cases e : k = g.id
      · rw [if_pos e] at hv; cases hv; subst e; exact ⟨g, hg, rfl⟩
      · rw [if_neg e] at hv; exact ⟨v, hv, rfl⟩
    obtain ⟨v1, hv1, a1⟩ := key k1 g1 h1
    obtain ⟨v2, hv2, a2⟩ := key k2 g2 h2
    exact hI.arrivalInj k1 v1 k2 v2 hv1 hv2 (by rw [a1, a2, ha])
  · intro k v hv
    simp only [mget_mset] at hv
    simp only
    rw [seated_mset_old _ _ _ _ g hI.groupsNodup hg]
    by_cases e : k = c.id
    · rw [if_pos e] at hv; cases hv
      subst e
      have := hI.conserve _ _ hc
      have hne : ¬ g.idCar = c.id := by omega
      simp [hne]; omega
    · rw [if_neg e] at hv
      have := hI.conserve _ _ hv
      have hk := hI.cars.carsOk _ _ hv
      have hne : ¬ g.idCar = k := by omega
      have hne2 : ¬ c.id = k := fun x => e x.symm
      simp [hne, hne2]; omega
  · exact hI.arrivedNonneg
  · exact hI.queuesLen
  · exact hI.queuesOk
  · exact hI.queuesSorted
  · intro k v hv hv0 _
    simp only [mget_mset] at hv
    by_cases e : k = g.id
    · rw [if_pos e] at hv; cases hv
      simp only at hv0; omega
    · rw [if_neg e] at hv
      exact hI.waitQ k v hv hv0 (by simpa using e)

/-! ## Fleet load -/

/-- Registering a car under an id that is not yet registered keeps the
registry invariant. -/
theorem car_add (cs : carsStruct) (id S : Int) (pools1 : List (Map car))
    (hI : CarsInv cs) (hnew : mget cs.m id = none) (hid : 0 < id) (hS1 : 1 ≤ S) (hS6 : S ≤ 6)
    (h1 : updIdx cs.pools (S - 1) (fun b => mset b id (⟨id, S, S⟩ : car)) = .ok pools1) :
    CarsInv ⟨mset cs.m id (⟨id, S, S⟩ : car), pools1⟩ := by
  have g1 := updIdx_get _ _ _ _ h1
  have l1 := updIdx_length _ _ _ _ h1
  constructor
  · exact nodup_mset _ _ _ hI.carsNodup
  · intro k v hv
    rw [mget_mset] at hv
    by_cases e : k = id
    · rw [if_pos e] at hv; cases hv
      subst e
      exact ⟨rfl, hid, hS1, hS6, by simp only; omega, le_refl _⟩
    · rw [if_neg e] at hv; exact hI.carsOk k v hv
  · simp only; rw [l1]; exact hI.poolsLen
  · intro k b2 hb2
    simp only at hb2
    have hk : k < cs.pools.length := by
      have := get_lt_of_some _ _ _ hb2; omega
    obtain ⟨b, hb⟩ : ∃ b, cs.pools[k]? = some b := ⟨cs.pools[k], by simp [hk]⟩
    have nb := hI.poolsNodup k b hb
    rw [g1, hb] at hb2
    split_ifs at hb2 <;> simp at hb2 <;> subst hb2
    · exact nodup_mset _ _ _ nb
    · exact nb
  · intro k b2 hb2 x v
    simp only at hb2 ⊢
    have hk : k < cs.pools.length := by
      have := get_lt_of_some _ _ _ hb2; omega
    obtain ⟨b, hb⟩ : ∃ b, cs.pools[k]? = some b := ⟨cs.pools[k], by simp [hk]⟩
    have ok := hI.poolsOk k b hb
    rw [g1, hb] at hb2
    rw [mget_mset]
    by_cases e : x = id
    · subst e
      have okc : ∀ v, ¬ mget b x = some v := by
        intro v hv
        have := ((ok x v).mp hv).1
        rw [hnew] at this; cases this
      split_ifs at hb2 with x1 <;> simp at hb2 <;> subst hb2
      · simp [mget_mset]
        intro e; subst e; simp; omega
      · simp only [if_true]
        constructor
        · intro hv; exact absurd hv (okc v)
        · rintro ⟨e1, e2⟩
          cases e1
          simp only at e2
          exfalso; omega
    · simp only [if_neg e]
      split_ifs at hb2 <;> simp at hb2 <;> subst hb2
      · simp [mget_mset, e, ok]
      · exact ok x v

theorem seated_nil (k : Int) : seated [] k = 0 := rfl

/-- The state after `resetState` satisfies the invariant. -/
theorem inv_resetState : Inv none resetState := by
  have hp : ∀ (k : Nat) (b : Map car), (List.replicate 6 ([] : Map car))[k]? = some b → b = [] := by
    intro k b h
    rw [List.getElem?_replicate] at h
    split_ifs at h; cases h; rfl
  have hq : ∀ (k : Nat) (q : List group),
      (List.replicate 6 ([] : List group))[k]? = some q → q = [] := by
    intro k b h
    rw [List.getElem?_replicate] at h
    split_ifs at h; cases h; rfl
  constructor
  · constructor
    · simp [resetState, keysNodup, mkeys]
    · intro k c h; simp [resetState, mget] at h
    · simp [resetState]
    · intro k b h
      rw [hp k b h]; simp [keysNodup, mkeys]
    · intro k b h id v
      rw [hp k b h]; simp [resetState, mget]
  · simp [resetState, keysNodup, mkeys]
  · intro k c h; simp [resetState, mget] at h
  · intro k1 g1 k2 g2 h; simp [resetState, mget] at h
  · intro k c h; simp [resetState, mget] at h
  · simp [resetState]
  · simp [resetState]
  · intro k q h e he
    rw [hq k q h] at he; simp at he
  · intro k q h
    rw [hq k q h]; exact List.Pairwise.nil
  · intro k c h; simp [resetState, mget] at h

/-- Loading a valid fleet into a state without groups returns, keeps the
invariant, leaves the group side as it was and registers exactly the cars of
the fleet next to those already there. -/
theorem loadCars_inv (l : List carJSONAPI) : ∀ (s : State), Inv none s → s.groups.m = [] →
    (l.map (fun c => c.Id)).Nodup →
    (∀ c ∈ l, 0 < c.Id ∧ 1 ≤ c.Seats ∧ c.Seats ≤ 6 ∧ mget s.cars.m c.Id = none) →
    ∃ s1, loadCars l s = .ok s1 ∧ Inv none s1 ∧ s1.groups = s.groups ∧
      ∀ k c, mget s1.cars.m k = some c ↔
        (mget s.cars.m k = some c ∨ ∃ cj ∈ l, cj.Id = k ∧ c = ⟨k, cj.Seats, cj.Seats⟩) := by
  induction l with
  | nil =>
    intro s hI _ _ _
    exact ⟨s, rfl, hI, rfl, by simp⟩
  | cons cj rest ih =>
    intro s hI hE hN hV
    have hcj := hV cj (List.mem_cons_self _ _)
    obtain ⟨pools1, h1⟩ := updIdx_ok s.cars.pools (cj.Seats - 1)
      (fun b => mset b cj.Id (⟨cj.Id, cj.Seats, cj.Seats⟩ : car))
      (by omega) (by rw [hI.cars.poolsLen]; omega)
    have hci := car_add s.cars cj.Id cj.Seats pools1 hI.cars hcj.2.2.2 hcj.1 hcj.2.1 hcj.2.2.1 h1
    have hN2 : cj.Id ∉ rest.map (fun c => c.Id) ∧ (rest.map (fun c => c.Id)).Nodup := by
      simpa using hN
    let s2 : State := { s with cars := ⟨mset s.cars.m cj.Id (⟨cj.Id, cj.Seats, cj.Seats⟩ : car), pools1⟩ }
    have hI2 : Inv none s2 := by
      constructor
      · exact hci
      · exact hI.groupsNodup
      · intro k g hg
        have : mget s.groups.m k = some g := hg
        rw [hE] at this; simp [mget] at this
      · intro k1 g1 k2 g2 hg
        have : mget s.groups.m k1 = some g1 := hg
        rw [hE] at this; simp [mget] at this
      · intro k c hc
        have e1 : s2.groups.m = [] := hE
        rw [e1, seated_nil]
        have := hci.carsOk k c hc
        have hc2 : mget (mset s.cars.m cj.Id (⟨cj.Id, cj.Seats, cj.Seats⟩ : car)) k = some c := hc
        rw [mget_mset] at hc2
        by_cases e : k = cj.Id
        · rw [if_pos e] at hc2; cases hc2; simp
        · rw [if_neg e] at hc2
          have := hI.conserve k c hc2
          rw [hE, seated_nil] at this; exact this
      · exact hI.arrivedNonneg
      · exact hI.queuesLen
      · exact hI.queuesOk
      · exact hI.queuesSorted
      · exact hI.waitQ
    obtain ⟨s1, hr, hI1, hg1, hm1⟩ := ih s2 hI2 hE hN2.2 (by
      intro c hc
      have := hV c (List.mem_cons_of_mem _ hc)
      refine ⟨this.1, this.2.1, this.2.2.1, ?_⟩
      show mget (mset s.cars.m cj.Id (⟨cj.Id, cj.Seats, cj.Seats⟩ : car)) c.Id = none
      rw [mget_mset]
      have hne : ¬ c.Id = cj.Id := by
        intro e
        exact hN2.1 (by rw [← e]; exact List.mem_map_of_mem (fun c => c.Id) hc)
      rw [if_neg hne]; exact this.2.2.2)
    refine ⟨s1, ?_, hI1, hg1, ?_⟩
    · simp only [loadCars, carAt_mset, h1, bind, Except.bind]
      exact hr
    · intro k c
      rw [hm1 k c]
      show (mget (mset s.cars.m cj.Id (⟨cj.Id, cj.Seats, cj.Seats⟩ : car)) k = some c ∨ _) ↔ _
      rw [mget_mset]
      by_cases e : k = cj.Id
      · subst e
        simp only [if_true, List.mem_cons, exists_eq_or_imp, true_and]
        have : ¬ mget s.cars.m cj.Id = some c := by rw [hcj.2.2.2]; simp
        constructor
        · rintro (h | h)
          · cases h; right; left; rfl
          · right; right; exact h
        · rintro (h | h | h)
          · exact absurd h this
          · left; rw [h]
          · right; exact h
      · simp only [if_neg e, List.mem_cons, exists_eq_or_imp]
        have e2 : ¬ cj.Id = k := fun x => e x.symm
        simp [e2]

/-! ## Ride requests -/

theorem mset_mset {α : Type} (m : Map α) (k : Int) (v w : α) :
    mset (mset m k v) k w = mset m k w := by
  have h : mdel (mdel m k) k = mdel m k := by
    apply mdel_absent; rw [mget_mdel]; simp
  simp [mset, mdel, List.filter] at h ⊢

/-- What the scan of the pool buckets yields, from index `n` on: the first
non-empty bucket at or after `n`, or nothing when all of them are empty. -/
theorem scanPools_spec (pools : List (Map car)) : ∀ (fuel n : Nat), n + fuel = pools.length →
    (∃ (k : Nat) (b : Map car), scanPools pools fuel (n : Int) = .ok (some b) ∧ n ≤ k ∧
        pools[k]? = some b ∧ b ≠ [] ∧ ∀ j : Nat, n ≤ j → j < k → pools[j]? = some []) ∨
      (scanPools pools fuel (n : Int) = .ok none ∧
        ∀ j : Nat, n ≤ j → j < pools.length → pools[j]? = some []) := by
  intro fuel
  induction fuel with
  | zero =>
    intro n hn
    right
    refine ⟨rfl, ?_⟩
    intro j h1 h2; omega
  | succ fuel ih =>
    intro n hn
    have hlt : n < pools.length := by omega
    have hb : pools[n]? = some pools[n] := by simp [hlt]
    have hi := idx_nat pools n _ hb
    have hcond : (n : Int) < (pools.length : Int) := by omega
    by_cases he : pools[n] = []
    · have hstep : scanPools pools (fuel + 1) (n : Int) = scanPools pools fuel ((n + 1 : Nat) : Int) := by
        simp only [scanPools, if_pos hcond, hi, bind, Except.bind, he, List.length_nil,
          gt_iff_lt, lt_self_iff_false, if_false]
        rfl
      rw [hstep]
      rcases ih (n + 1) (by omega) with ⟨k, b, h1, h2, h3, h4, h5⟩ | ⟨h1, h2⟩
      · left
        refine ⟨k, b, h1, by omega, h3, h4, ?_⟩
        intro j hj1 hj2
        by_cases e : j = n
        · subst e; rw [hb, he]
        · exact h5 j (by omega) hj2
      · right
        refine ⟨h1, ?_⟩
        intro j hj1 hj2
        by_cases e : j = n
        · subst e; rw [hb, he]
        · exact h2 j (by omega) hj2
    · left
      refine ⟨n, pools[n], ?_, le_refl _, hb, he, ?_⟩
      · have hpos : pools[n].length > 0 := List.length_pos.mpr he
        simp only [scanPools, if_pos hcond, hi, bind, Except.bind, if_pos hpos]
      · intro j h1 h2; omega

/-- Recording a new group (not yet queued, not yet seated) keeps the
invariant, the new group being the one that is skipped. -/
theorem record_inv (r : groupJSONAPI) (s : State) (hI : Inv none s) (hv : validRequest r)
    (hnew : mget s.groups.m r.Id = none) :
    Inv (some r.Id) { s with groups := { s.groups with
      groupsArrived := s.groups.groupsArrived + 1,
      m := mset s.groups.m r.Id (⟨r.Id, s.groups.groupsArrived + 1, r.People, 0⟩ : group) } } := by
  have hA := hI.arrivedNonneg
  constructor
  · exact hI.cars
  · exact nodup_mset _ _ _ hI.groupsNodup
  · intro k v hv1
    simp only [mget_mset] at hv1 ⊢
    by_cases e : k = r.Id
    · rw [if_pos e] at hv1; cases hv1
      subst e
      exact ⟨rfl, hv.1, hv.2.1, hv.2.2, by simp only; omega, le_refl _, Or.inl rfl⟩
    · rw [if_neg e] at hv1
      have := hI.groupsOk k v hv1
      exact ⟨this.1, this.2.1, this.2.2.1, this.2.2.2.1, this.2.2.2.2.1,
        by omega, this.2.2.2.2.2.2⟩
  · intro k1 g1 k2 g2 h1 h2 ha
    simp only [mget_mset] at h1 h2
    by_cases e1 : k1 = r.Id <;> by_cases e2 : k2 = r.Id
    · rw [e1, e2]
    · rw [if_pos e1] at h1; rw [if_neg e2] at h2; cases h1
      have := hI.groupsOk k2 g2 h2
      simp only at ha; omega
    · rw [if_neg e1] at h1; rw [if_pos e2] at h2; cases h2
      have := hI.groupsOk k1 g1 h1
      simp only at ha; omega
    · rw [if_neg e1] at h1; rw [if_neg e2] at h2
      exact hI.arrivalInj k1 g1 k2 g2 h1 h2 ha
  · intro k c hc
    simp only
    rw [seated_mset_new _ _ _ _ hnew]
    have := hI.conserve k c hc
    have hk := hI.cars.carsOk k c hc
    have hne : ¬ (0 : Int) = k := by omega
    simp [hne]; exact this
  · simp only; omega
  · exact hI.queuesLen
  · intro k q hq e he
    have := hI.queuesOk k q hq e he
    exact ⟨this.1, this.2.1, this.2.2.1, this.2.2.2.1, by simp only; omega⟩
  · exact hI.queuesSorted
  · intro k v hv1 hv0 hk
    simp only [mget_mset] at hv1
    by_cases e : k = r.Id
    · subst e; exact absurd rfl hk
    · rw [if_neg e] at hv1
      exact hI.waitQ k v hv1 hv0 (by simp)

/-- A registered car sits in the pool bucket of its available seats. -/
theorem car_in_bucket (cs : carsStruct) (hI : CarsInv cs) (k : Int) (c : car)
    (hc : mget cs.m k = some c) (hpos : 0 < c.seatsAvailable) :
    ∃ b, cs.pools[(c.seatsAvailable - 1).toNat]? = some b ∧ mget b k = some c := by
  have hcOk := hI.carsOk k c hc
  have hl := hI.poolsLen
  have hlt : (c.seatsAvailable - 1).toNat < cs.pools.length := by omega
  refine ⟨cs.pools[(c.seatsAvailable - 1).toNat], by simp [hlt], ?_⟩
  rw [hI.poolsOk (c.seatsAvailable - 1).toNat _ (by simp [hlt])]
  exact ⟨hc, by omega⟩

theorem mget_ne_nil {α : Type} (m : Map α) (k : Int) (v : α) (h : mget m k = some v) :
    m ≠ [] := by
  intro e; subst e; simp [mget] at h

/-- The outcome of a ride request of a group that is not in the ledger:
either a car with enough seats is found, and the group is seated in a car of
the first non-empty bucket, or no car has enough seats and the group is put
at the end of the queue of its size. -/
theorem rideTryGroup_new (pick : Nat) (r : groupJSONAPI) (s : State) (hI : Inv none s)
    (hb : s.groups.groupsArrived < maxInt)
    (hv1 : 1 ≤ r.People) (hv6 : r.People ≤ 6) (hnew : mget s.groups.m r.Id = none) :
    (∃ c s1, rideTryGroup pick r s = .ok (0, s1) ∧ (r.Id ≠ 0 → Inv none s1) ∧
        mget s.cars.m c.id = some c ∧ r.People ≤ c.seatsAvailable ∧
        (∀ k c2, mget s.cars.m k = some c2 → r.People ≤ c2.seatsAvailable →
          c.seatsAvailable ≤ c2.seatsAvailable) ∧
        s1.cars.m = mset s.cars.m c.id
          (⟨c.id, c.seatsTotal, c.seatsAvailable - r.People⟩ : car) ∧
        s1.groups = ⟨s.groups.groupsArrived + 1,
          mset s.groups.m r.Id (⟨r.Id, s.groups.groupsArrived + 1, r.People, c.id⟩ : group),
          s.groups.queues⟩) ∨
      ((∀ k c, mget s.cars.m k = some c → c.seatsAvailable < r.People) ∧
        ∃ s1 q, rideTryGroup pick r s = .ok (1, s1) ∧ (r.Id ≠ 0 → Inv none s1) ∧
          s1.cars = s.cars ∧
          s.groups.queues[(r.People - 1).toNat]? = some q ∧
          s1.groups = ⟨s.groups.groupsArrived + 1,
            mset s.groups.m r.Id (⟨r.Id, s.groups.groupsArrived + 1, r.People, 0⟩ : group),
            s.groups.queues.set (r.People - 1).toNat
              (q ++ [(⟨r.Id, s.groups.groupsArrived + 1, r.People, 0⟩ : group)])⟩) := by
  have hrec := fun (h0 : r.Id ≠ 0) => record_inv r s hI ⟨h0, hv1, hv6⟩ hnew
  have hw : wrapInt (s.groups.groupsArrived + 1) = s.groups.groupsArrived + 1 :=
    wrapInt_succ _ (by have := hI.arrivedNonneg; unfold minInt; omega) hb
  have hl := hI.cars.poolsLen
  have hn : (((r.People - 1).toNat : Nat) : Int) = r.People - 1 := by omega
  have hf : ((s.cars.pools.length : Int) - (r.People - 1)).toNat = 6 - (r.People - 1).toNat := by
    omega
  rcases scanPools_spec s.cars.pools (6 - (r.People - 1).toNat) (r.People - 1).toNat (by omega)
    with ⟨k, b, h1, h2, h3, h4, h5⟩ | ⟨h1, h2⟩
  · left
    rw [hn, ← hf] at h1
    have hlen : pick % b.length < b.length := Nat.mod_lt _ (List.length_pos.mpr h4)
    have hpk : b[pick % b.length]? = some b[pick % b.length] := by simp [hlen]
    rcases hb : b[pick % b.length] with ⟨id, c⟩
    rw [hb] at hpk
    have hmem : (id, c) ∈ b := by
      rw [← hb]; exact List.getElem_mem _
    have hgetb : mget b id = some c := mget_of_mem b id c (hI.cars.poolsNodup k b h3) hmem
    have hcar := (hI.cars.poolsOk k b h3 id c).mp hgetb
    have hcid := (hI.cars.carsOk id c hcar.1).1
    subst hcid
    have hk6 := get_lt_of_some _ _ _ h3
    obtain ⟨pools2, hr, _⟩ := ride_ok c
      (⟨r.Id, s.groups.groupsArrived + 1, r.People, 0⟩ : group)
      ⟨s.cars, ⟨s.groups.groupsArrived + 1,
        mset s.groups.m r.Id (⟨r.Id, s.groups.groupsArrived + 1, r.People, 0⟩ : group),
        s.groups.queues⟩⟩ hI.cars hcar.1 hv1 (by simp only; omega)
    refine ⟨c, ⟨⟨mset s.cars.m c.id
        (⟨c.id, c.seatsTotal, c.seatsAvailable - r.People⟩ : car), pools2⟩,
      ⟨s.groups.groupsArrived + 1,
        mset (mset s.groups.m r.Id (⟨r.Id, s.groups.groupsArrived + 1, r.People, 0⟩ : group))
          r.Id (⟨r.Id, s.groups.groupsArrived + 1, r.People, c.id⟩ : group),
        s.groups.queues⟩⟩, ?_, ?_, hcar.1, by omega, ?_, rfl, ?_⟩
    · simp only [rideTryGroup, hnew, hw, h1, bind, Except.bind, hpk, hr]
    · intro h0
      obtain ⟨s1, hr1, hI1, _, _⟩ := ride_inv c
        (⟨r.Id, s.groups.groupsArrived + 1, r.People, 0⟩ : group) _ (hrec h0) hcar.1
        (by simp [mget_mset]) rfl (by simp only; omega)
      rw [hr] at hr1
      have e := Except.ok.inj hr1
      rw [e]; exact hI1
    · intro k2 c2 hc2 hp2
      by_contra hlt
      obtain ⟨b2, hb2, hg2⟩ := car_in_bucket s.cars hI.cars k2 c2 hc2 (by omega)
      have := h5 (c2.seatsAvailable - 1).toNat (by omega) (by omega)
      rw [hb2] at this; cases this
      simp [mget] at hg2
    · simp only [mset_mset]
  · right
    rw [hn, ← hf] at h1
    have hq6 := hI.queuesLen
    have hlt : (r.People - 1).toNat < s.groups.queues.length := by omega
    have hq : s.groups.queues[(r.People - 1).toNat]? = some s.groups.queues[(r.People - 1).toNat] := by
      simp [hlt]
    have hupd : updIdx s.groups.queues (r.People - 1)
        (fun q => q ++ [(⟨r.Id, s.groups.groupsArrived + 1, r.People, 0⟩ : group)]) =
        .ok (s.groups.queues.set (r.People - 1).toNat (s.groups.queues[(r.People - 1).toNat] ++
          [(⟨r.Id, s.groups.groupsArrived + 1, r.People, 0⟩ : group)])) := by
      rw [updIdx_eq_ok]
      exact ⟨by omega, _, hq, rfl⟩
    have hgetq := updIdx_get _ _ _ _ hupd
    constructor
    · intro k c hc
      by_contra hge
      obtain ⟨b2, hb2, hg2⟩ := car_in_bucket s.cars hI.cars k c hc (by omega)
      have hcOk := hI.cars.carsOk k c hc
      have := h2 (c.seatsAvailable - 1).toNat (by omega) (by omega)
      rw [hb2] at this; cases this
      simp [mget] at hg2
    · refine ⟨⟨s.cars, ⟨s.groups.groupsArrived + 1,
          mset s.groups.m r.Id (⟨r.Id, s.groups.groupsArrived + 1, r.People, 0⟩ : group),
          s.groups.queues.set (r.People - 1).toNat (s.groups.queues[(r.People - 1).toNat] ++
            [(⟨r.Id, s.groups.groupsArrived + 1, r.People, 0⟩ : group)])⟩⟩,
        s.groups.queues[(r.People - 1).toNat], ?_, ?_, rfl, hq, rfl⟩
      · simp only [rideTryGroup, hnew, hw, h1, bind, Except.bind, hupd]
      · intro hv0
        have hrec := hrec hv0
        constructor
        · exact hrec.cars
        · exact hrec.groupsNodup
        · exact hrec.groupsOk
        · exact hrec.arrivalInj
        · exact hrec.conserve
        · exact hrec.arrivedNonneg
        · simp only [List.length_set]; exact hq6
        · intro k q hk e he
          simp only at hk
          rw [hgetq] at hk
          by_cases ek : k = (r.People - 1).toNat
          · rw [if_pos ek] at hk
            simp only [ek, hq, Option.map_some', Option.some.injEq] at hk
            subst hk
            rcases List.mem_append.mp he with h | h
            · have := hrec.queuesOk (r.People - 1).toNat _ hq e h
              rw [ek]; exact this
            · simp at h; subst h
              refine ⟨by simp only; omega, rfl, hv0, by simp only; have := hI.arrivedNonneg; omega,
                le_refl _⟩
          · rw [if_neg ek] at hk
            exact hrec.queuesOk k q hk e he
        · intro k q hk
          simp only at hk
          rw [hgetq] at hk
          by_cases ek : k = (r.People - 1).toNat
          · rw [if_pos ek] at hk
            simp only [ek, hq, Option.map_some', Option.some.injEq] at hk
            subst hk
            rw [List.pairwise_append]
            refine ⟨hI.queuesSorted _ _ hq, List.pairwise_singleton _ _, ?_⟩
            intro a ha b hb
            simp at hb; subst hb
            have := hI.queuesOk _ _ hq a ha
            simp only; omega
          · rw [if_neg ek] at hk
            exact hI.queuesSorted k q hk
        · intro k v hk1 hk0 _
          simp only at hk1 ⊢
          rw [hgetq]
          by_cases e : k = r.Id
          · subst e
            rw [mget_mset, if_pos rfl] at hk1; cases hk1
            simp only [if_true, hq, Option.map_some', Option.some.injEq, exists_eq_left']
            simp
          · obtain ⟨q, hq1, hq2⟩ := hrec.waitQ k v hk1 hk0 (by simpa using e)
            simp only at hq1
            by_cases ek : (v.people - 1).toNat = (r.People - 1).toNat
            · rw [if_pos ek, hq1]
              exact ⟨_, rfl, List.mem_append_left _ hq2⟩
            · rw [if_neg ek]
              exact ⟨q, hq1, hq2⟩

/-! ## Rematch -/

theorem prune_get (m : Map group) (queues : List (List group)) (k : Nat) :
    (pruneQueues m queues)[k]? =
      (queues[k]?).map (fun q => q.dropWhile (fun e => !(live m e))) := by
  simp [pruneQueues]

theorem mem_dropWhile {α : Type} (p : α → Bool) (l : List α) (x : α) (hx : x ∈ l)
    (hp : p x = false) : x ∈ l.dropWhile p := by
  induction l with
  | nil => simp at hx
  | cons a l ih =>
    rw [List.dropWhile_cons]
    by_cases ha : p a = true
    · rw [if_pos ha]
      rcases List.mem_cons.mp hx with h | h
      · subst h; rw [hp] at ha; cases ha
      · exact ih h
    · rw [if_neg ha]; exact hx

theorem dropWhile_head {α : Type} (p : α → Bool) (l : List α) (h : α) (t : List α)
    (e : l.dropWhile p = h :: t) : p h = false := by
  induction l with
  | nil => simp at e
  | cons a l ih =>
    rw [List.dropWhile_cons] at e
    by_cases ha : p a = true
    · rw [if_pos ha] at e; exact ih e
    · rw [if_neg ha] at e
      cases e; simpa using ha

theorem live_iff (m : Map group) (e : group) : live m e = true ↔ mget m e.id = some e := by
  simp [live]

theorem length_dropWhile_le {α : Type} (p : α → Bool) (l : List α) :
    (l.dropWhile p).length ≤ l.length :=
  (List.dropWhile_sublist p).length_le

theorem queued_prune (m : Map group) (queues : List (List group)) :
    ((pruneQueues m queues).map List.length).sum ≤ (queues.map List.length).sum := by
  induction queues with
  | nil => simp [pruneQueues]
  | cons q qs ih =>
    simp only [pruneQueues, List.map_cons, List.sum_cons] at ih ⊢
    have := length_dropWhile_le (fun e => !(live m e)) q
    omega

theorem sum_length_set (l : List (List group)) : ∀ (i : Nat) (h : group) (t : List group),
    l[i]? = some (h :: t) →
    ((l.set i t).map List.length).sum + 1 = (l.map List.length).sum := by
  induction l with
  | nil => intro i h t e; simp at e
  | cons q qs ih =>
    intro i h t e
    cases i with
    | zero =>
      simp at e; subst e
      simp; omega
    | succ i =>
      simp at e
      have := ih i h t e
      simp only [List.set_cons_succ, List.map_cons, List.sum_cons]
      omega

/-- Pruning the queues keeps the invariant. -/
theorem prune_inv (sk : Option Int) (s : State) (hI : Inv sk s) :
    Inv sk { s with groups := { s.groups with
      queues := pruneQueues s.groups.m s.groups.queues } } := by
  constructor
  · exact hI.cars
  · exact hI.groupsNodup
  · exact hI.groupsOk
  · exact hI.arrivalInj
  · exact hI.conserve
  · exact hI.arrivedNonneg
  · simp only [pruneQueues, List.length_map]; exact hI.queuesLen
  · intro k q hq e he
    simp only [prune_get] at hq
    cases h0 : s.groups.queues[k]? with
    | none => rw [h0] at hq; simp at hq
    | some q0 =>
      rw [h0] at hq; simp at hq; subst hq
      exact hI.queuesOk k q0 h0 e ((List.dropWhile_sublist _).subset he)
  · intro k q hq
    simp only [prune_get] at hq
    cases h0 : s.groups.queues[k]? with
    | none => rw [h0] at hq; simp at hq
    | some q0 =>
      rw [h0] at hq; simp at hq; subst hq
      exact (hI.queuesSorted k q0 h0).sublist (List.dropWhile_sublist _)
  · intro k g hg hg0 hk
    obtain ⟨q, hq1, hq2⟩ := hI.waitQ k g hg hg0 hk
    simp only [prune_get, hq1]
    refine ⟨_, rfl, ?_⟩
    apply mem_dropWhile _ _ _ hq2
    have hid := (hI.groupsOk k g hg).1
    have : live s.groups.m g = true := by rw [live_iff, hid]; exact hg
    simp [this]

/-- The selection loop returns, and it establishes its invariant for all the
buckets below `hi`. -/
theorem selectGroup_spec (queues : List (List group)) (hi : Nat) (hlen : hi ≤ queues.length)
    (hid : ∀ (j : Nat) (h : group) (t : List group), queues[j]? = some (h :: t) → h.id ≠ 0) :
    ∀ (n : Nat) (acc : group × Int), n ≤ hi → Sel queues n hi acc →
      ∃ r, selectGroup queues n acc = .ok r ∧ Sel queues 0 hi r := by
  intro n
  induction n with
  | zero =>
    intro acc _ h
    exact ⟨acc, rfl, h⟩
  | succ n ih =>
    intro acc hn h
    obtain ⟨g, gq⟩ := acc
    have hlt : n < queues.length := by omega
    have hq : queues[n]? = some queues[n] := by simp [hlt]
    have hi1 := idx_nat queues n _ hq
    rcases hqn : queues[n] with _ | ⟨h1, t1⟩
    · rw [hqn] at hi1 hq
      have : selectGroup queues (n + 1) (g, gq) = selectGroup queues n (g, gq) := by
        simp only [selectGroup, hi1, bind, Except.bind]
      rw [this]
      apply ih _ (by omega)
      rcases h with ⟨a1, a2, a3⟩ | ⟨a1, i, t, a2, a3, a4, a5, a6⟩
      · left
        refine ⟨a1, a2, ?_⟩
        intro j hj1 hj2
        by_cases e : j = n
        · subst e; exact hq
        · exact a3 j (by omega) hj2
      · right
        refine ⟨a1, i, t, a2, by omega, a4, a5, ?_⟩
        intro j h2 t2 hj1 hj2 hj3
        by_cases e : j = n
        · subst e; rw [hq] at hj3; cases hj3
        · exact a6 j h2 t2 (by omega) hj2 hj3
    · rw [hqn] at hi1 hq
      have hh := hid n h1 t1 hq
      by_cases hc : g.id = 0 ∨ h1.arrival < g.arrival
      · have : selectGroup queues (n + 1) (g, gq) = selectGroup queues n (h1, (n : Int)) := by
          simp only [selectGroup, hi1, bind, Except.bind, if_pos hc]
        rw [this]
        apply ih _ (by omega)
        right
        refine ⟨hh, n, t1, rfl, le_refl _, by omega, hq, ?_⟩
        intro j h2 t2 hj1 hj2 hj3
        by_cases e : j = n
        · subst e; rw [hq] at hj3; cases hj3; exact le_refl _
        · rcases h with ⟨a1, a2, a3⟩ | ⟨a1, i, t, a2, a3, a4, a5, a6⟩
          · have := a3 j (by omega) hj2
            rw [this] at hj3; cases hj3
          · have := a6 j h2 t2 (by omega) hj2 hj3
            simp only at a1 this ⊢
            rcases hc with hc | hc
            · exact absurd hc a1
            · omega
      · have : selectGroup queues (n + 1) (g, gq) = selectGroup queues n (g, gq) := by
          simp only [selectGroup, hi1, bind, Except.bind, if_neg hc]
        rw [this]
        apply ih _ (by omega)
        have hc1 : ¬ g.id = 0 := fun x => hc (Or.inl x)
        have hc2 : g.arrival ≤ h1.arrival := by
          have : ¬ h1.arrival < g.arrival := fun x => hc (Or.inr x)
          omega
        rcases h with ⟨a1, a2, a3⟩ | ⟨a1, i, t, a2, a3, a4, a5, a6⟩
        · exact absurd a1 hc1
        · right
          refine ⟨a1, i, t, a2, by omega, a4, a5, ?_⟩
          intro j h2 t2 hj1 hj2 hj3
          by_cases e : j = n
          · subst e; rw [hq] at hj3; cases hj3; exact hc2
          · exact a6 j h2 t2 (by omega) hj2 hj3

theorem updIdx_nat {α : Type} (l : List α) (i : Nat) (x : α) (f : α → α)
    (h : l[i]? = some x) : updIdx l (i : Int) f = .ok (l.set i (f x)) := by
  rw [updIdx_eq_ok]
  exact ⟨by omega, x, by simpa using h, by simp⟩

theorem set_get {α : Type} (l : List α) (i k : Nat) (x y : α) (h : l[i]? = some x) :
    (l.set i y)[k]? = if k = i then some y else l[k]? := by
  have hl := get_lt_of_some _ _ _ h
  by_cases e : k = i
  · subst e; simp [List.getElem?_set_self, hl]
  · have e2 : ¬ i = k := fun x => e x.symm
    simp [e, List.getElem?_set_ne e2]

/-- One round of `rideTryCar` on a registered car: either no waiting group
fits and only the queues are pruned, or the earliest of the waiting groups
that fit is popped from the head of its pruned queue and seated. -/
theorem rideTryCarStep_spec (c : car) (s : State) (hI : Inv none s)
    (hc : mget s.cars.m c.id = some c) :
    (rideTryCarStep c s = .ok (⟨s.cars, ⟨s.groups.groupsArrived, s.groups.m,
          pruneQueues s.groups.m s.groups.queues⟩⟩, none) ∧
        (∀ k w, mget s.groups.m k = some w → w.idCar = 0 → c.seatsAvailable < w.people)) ∨
      (∃ g t s1, rideTryCarStep c s = .ok (s1, some g) ∧ Inv none s1 ∧
        mget s.groups.m g.id = some g ∧ g.idCar = 0 ∧ g.people ≤ c.seatsAvailable ∧
        (∀ k w, mget s.groups.m k = some w → w.idCar = 0 → w.people ≤ c.seatsAvailable →
          g.arrival ≤ w.arrival) ∧
        (pruneQueues s.groups.m s.groups.queues)[(g.people - 1).toNat]? = some (g :: t) ∧
        s1.cars.m = mset s.cars.m c.id
          (⟨c.id, c.seatsTotal, c.seatsAvailable - g.people⟩ : car) ∧
        s1.groups = ⟨s.groups.groupsArrived,
          mset s.groups.m g.id (⟨g.id, g.arrival, g.people, c.id⟩ : group),
          (pruneQueues s.groups.m s.groups.queues).set (g.people - 1).toNat t⟩) := by
  have hI1 := prune_inv none s hI
  have hcOk := hI.cars.carsOk _ _ hc
  have hPl : (pruneQueues s.groups.m s.groups.queues).length = 6 := hI1.queuesLen
  have hid : ∀ (j : Nat) (h : group) (t : List group),
      (pruneQueues s.groups.m s.groups.queues)[j]? = some (h :: t) → h.id ≠ 0 := by
    intro j h t hj
    exact (hI1.queuesOk j _ hj h (List.mem_cons_self _ _)).2.2.1
  obtain ⟨r, hsel, hS⟩ := selectGroup_spec (pruneQueues s.groups.m s.groups.queues)
    c.seatsAvailable.toNat (by omega) hid c.seatsAvailable.toNat (zeroGroup, -1) (le_refl _)
    (Or.inl ⟨rfl, rfl, by intro j h1 h2; omega⟩)
  obtain ⟨g, gq⟩ := r
  -- every waiting group that fits sits in a pruned queue below the bound
  have hwait : ∀ k w, mget s.groups.m k = some w → w.idCar = 0 → w.people ≤ c.seatsAvailable →
      ∃ q, (pruneQueues s.groups.m s.groups.queues)[(w.people - 1).toNat]? = some q ∧ w ∈ q ∧
        (w.people - 1).toNat < c.seatsAvailable.toNat := by
    intro k w hw hw0 hwp
    obtain ⟨q, hq1, hq2⟩ := hI1.waitQ k w hw hw0 (by simp)
    have := hI.groupsOk k w hw
    exact ⟨q, hq1, hq2, by omega⟩
  rcases hS with ⟨a1, a2, a3⟩ | ⟨a1, i, t, a2, a3, a4, a5, a6⟩
  · left
    simp only at a2; subst a2
    constructor
    · simp only [rideTryCarStep, hsel, bind, Except.bind]
      rfl
    · intro k w hw hw0
      by_contra hfit
      obtain ⟨q, hq1, hq2, hq3⟩ := hwait k w hw hw0 (by omega)
      rw [a3 _ (Nat.zero_le _) hq3] at hq1
      cases hq1; simp at hq2
  · right
    simp only at a1 a2 a5 a6
    subst a2
    have hqOk := hI1.queuesOk i _ a5 g (List.mem_cons_self _ _)
    have hlive : mget s.groups.m g.id = some g := by
      rw [prune_get] at a5
      cases h0 : s.groups.queues[i]? with
      | none => rw [h0] at a5; simp at a5
      | some q0 =>
        rw [h0] at a5; simp at a5
        have := dropWhile_head _ _ _ _ a5
        rw [← live_iff]; simpa using this
    have hgp : (g.people - 1).toNat = i := by omega
    have hidx := idx_nat _ i _ a5
    have hupd := updIdx_nat (pruneQueues s.groups.m s.groups.queues) i (g :: t) (fun _ => t) a5
    have hget := set_get (pruneQueues s.groups.m s.groups.queues) i
    -- the state between the pop and the call of `ride`
    have hI2 : Inv (some g.id) ⟨s.cars, ⟨s.groups.groupsArrived, s.groups.m,
        (pruneQueues s.groups.m s.groups.queues).set i t⟩⟩ := by
      constructor
      · exact hI.cars
      · exact hI.groupsNodup
      · exact hI.groupsOk
      · exact hI.arrivalInj
      · exact hI.conserve
      · exact hI.arrivedNonneg
      · simp only [List.length_set]; exact hPl
      · intro k q hq e he
        simp only at hq
        rw [hget k _ t a5] at hq
        by_cases ek : k = i
        · rw [if_pos ek] at hq; cases hq
          subst ek
          exact hI1.queuesOk k _ a5 e (List.mem_cons_of_mem _ he)
        · rw [if_neg ek] at hq
          exact hI1.queuesOk k q hq e he
      · intro k q hq
        simp only at hq
        rw [hget k _ t a5] at hq
        by_cases ek : k = i
        · rw [if_pos ek] at hq; cases hq
          subst ek
          exact (List.pairwise_cons.mp (hI1.queuesSorted k _ a5)).2
        · rw [if_neg ek] at hq
          exact hI1.queuesSorted k q hq
      · intro k w hw hw0 hk
        obtain ⟨q, hq1, hq2⟩ := hI1.waitQ k w hw hw0 (by simp)
        simp only at hq1 ⊢
        rw [hget _ _ t a5]
        by_cases ek : (w.people - 1).toNat = i
        · rw [if_pos ek]
          rw [ek, a5] at hq1; cases hq1
          refine ⟨t, rfl, ?_⟩
          rcases List.mem_cons.mp hq2 with h | h
          · exfalso
            subst h
            have := (hI.groupsOk k w hw).1
            exact hk (by rw [this])
          · exact h
        · rw [if_neg ek]; exact ⟨q, hq1, hq2⟩
    obtain ⟨s3, hr, hI3, hm3, hg3⟩ := ride_inv c g _ hI2 hc hlive hqOk.2.1 (by omega)
    refine ⟨g, t, s3, ?_, hI3, hlive, hqOk.2.1, by omega, ?_, by rw [hgp]; exact a5, hm3,
      by rw [hg3, hgp]⟩
    · have hpos : (i : Int) ≥ 0 := by omega
      simp only [rideTryCarStep, hsel, bind, Except.bind, if_pos hpos, hidx, popHead, hupd]
      rw [hr]
    · intro k w hw hw0 hwp
      obtain ⟨q, hq1, hq2, hq3⟩ := hwait k w hw hw0 hwp
      rcases q with _ | ⟨h, t1⟩
      · simp at hq2
      · have h1 := a6 _ h t1 (Nat.zero_le _) hq3 hq1
        have hs := hI1.queuesSorted _ _ hq1
        rcases List.mem_cons.mp hq2 with e | e
        · subst e; exact h1
        · have := (List.pairwise_cons.mp hs).1 w e
          omega

/-- A run of `rideTryCarFuel` that returns is a chain of rounds. -/
theorem rideTryCarFuel_rematch : ∀ (n : Nat) (c : car) (s s1 : State),
    rideTryCarFuel n c s = .ok s1 → Rematch c s s1 := by
  intro n
  induction n with
  | zero => intro c s s1 h; simp [rideTryCarFuel] at h
  | succ n ih =>
    intro c s s1 h
    simp only [rideTryCarFuel, bind, Except.bind] at h
    cases hstep : rideTryCarStep c s with
    | error e => rw [hstep] at h; simp at h
    | ok p =>
      obtain ⟨s2, og⟩ := p
      rw [hstep] at h
      cases og with
      | none =>
        have e := Except.ok.inj h
        subst e
        exact Rematch.stop c s _ hstep
      | some g =>
        simp only at h
        exact Rematch.seat c s s2 s1 g hstep (ih _ _ _ h)

/-- With more fuel than there are queued entries, `rideTryCarFuel` returns. -/
theorem rideTryCarFuel_ok : ∀ (n : Nat) (c : car) (s : State), Inv none s →
    mget s.cars.m c.id = some c → queued s < n → ∃ s1, rideTryCarFuel n c s = .ok s1 := by
  intro n
  induction n with
  | zero => intro c s _ _ h; omega
  | succ n ih =>
    intro c s hI hc hq
    rcases rideTryCarStep_spec c s hI hc with ⟨h1, _⟩ | ⟨g, t, s1, h1, hI1, _, _, _, _, hp, hm, hg⟩
    · exact ⟨⟨s.cars, ⟨s.groups.groupsArrived, s.groups.m,
        pruneQueues s.groups.m s.groups.queues⟩⟩,
        by simp only [rideTryCarFuel, h1, bind, Except.bind]⟩
    · have hlt : queued s1 < queued s := by
        have e1 := sum_length_set _ _ g t hp
        have e2 := queued_prune s.groups.m s.groups.queues
        simp only [queued, hg]
        omega
      have hc1 : mget s1.cars.m (carAt s1.cars.m c.id).id = some (carAt s1.cars.m c.id) := by
        rw [hm, carAt_mset, mget_mset, if_pos rfl]
      obtain ⟨s2, h2⟩ := ih (carAt s1.cars.m c.id) s1 hI1 hc1 (by omega)
      exact ⟨s2, by simp only [rideTryCarFuel, h1, bind, Except.bind]; exact h2⟩

/-- The guarantees of a chain of rounds of `rideTryCar` that starts on a
registered car in a state that satisfies the invariant. -/
theorem rematch_post (c : car) (s s1 : State) (h : Rematch c s s1) :
    Inv none s → mget s.cars.m c.id = some c → RematchPost c s s1 := by
  induction h with
  | stop c s s1 hstep =>
    intro hI hc
    have hcOk := hI.cars.carsOk _ _ hc
    rcases rideTryCarStep_spec c s hI hc with ⟨h1, h2⟩ | ⟨g, t, s3, h1, _⟩
    · rw [h1] at hstep
      cases hstep
      constructor
      · exact prune_inv none s hI
      · intro k _; rfl
      · exact ⟨c, hc, rfl, rfl⟩
      · simp only
        rw [carAt_of_mget _ _ _ hc, newly_self _ _ hI.groupsNodup (by omega)]
        omega
      · rfl
      · intro k g hg _; exact hg
      · intro k g hg _; left; exact hg
      · intro k hk; exact hk
      · intro k w hw hw0
        simp only at hw ⊢
        rw [carAt_of_mget _ _ _ hc]
        exact h2 k w hw hw0
      · intro _; exact ⟨rfl, rfl⟩
    · rw [h1] at hstep; cases hstep
  | seat c s s1 s2 g hstep _ ih =>
    intro hI hc
    have hcOk := hI.cars.carsOk _ _ hc
    rcases rideTryCarStep_spec c s hI hc with ⟨h1, _⟩ |
      ⟨g1, t, s3, h1, hI1, hlive, hw0, hfit, _, hp, hm, hg⟩
    · rw [h1] at hstep; cases hstep
    · rw [h1] at hstep; cases hstep
      have hc1 : carAt s1.cars.m c.id =
          (⟨c.id, c.seatsTotal, c.seatsAvailable - g.people⟩ : car) := by
        rw [hm, carAt_mset]
      have hget1 : mget s1.cars.m (carAt s1.cars.m c.id).id = some (carAt s1.cars.m c.id) := by
        rw [hm, carAt_mset, mget_mset, if_pos rfl]
      have P := ih hI1 hget1
      rw [hc1] at P
      have hgid := (hI.groupsOk _ _ hlive)
      have hm1 : ∀ k, mget s1.groups.m k =
          if k = g.id then some (⟨g.id, g.arrival, g.people, c.id⟩ : group)
          else mget s.groups.m k := by
        intro k; rw [hg]; simp only [mget_mset]
      have hg2 : mget s2.groups.m g.id = some (⟨g.id, g.arrival, g.people, c.id⟩ : group) := by
        apply P.traveling
        · rw [hm1, if_pos rfl]
        · simp only; omega
      constructor
      · exact P.inv
      · intro k hk
        rw [P.carsFrame k hk, hm, mget_mset, if_neg hk]
      · obtain ⟨c2, e1, e2, e3⟩ := P.carKept
        exact ⟨c2, e1, e2, e3⟩
      · have e1 := P.seats
        simp only at e1
        have e2 : newly s.groups.m s2.groups.m c.id
            = newly s1.groups.m s2.groups.m c.id + g.people := by
          have := msum_congr_except
            (fun p : Int × group => if p.2.idCar = c.id ∧
              (mget s.groups.m p.1).map (fun g => g.idCar) = some 0 then p.2.people else 0)
            (fun p : Int × group => if p.2.idCar = c.id ∧
              (mget s1.groups.m p.1).map (fun g => g.idCar) = some 0 then p.2.people else 0)
            s2.groups.m g.id _ P.inv.groupsNodup hg2 (by
              intro p _ hne
              simp only [hm1, if_neg hne])
          have hs1g : mget s1.groups.m g.id
              = some (⟨g.id, g.arrival, g.people, c.id⟩ : group) := by
            rw [hm1, if_pos rfl]
          have hne : ¬ c.id = 0 := by omega
          simp only [hlive, hs1g, if_true, Option.map_some', hw0, and_true, and_self,
            Option.some.injEq, hne, and_false, if_false] at this
          unfold newly
          omega
        omega
      · rw [P.arrived, hg]
      · intro k g0 hk hk0
        apply P.traveling k g0 _ hk0
        rw [hm1]
        have : ¬ k = g.id := by
          intro e; subst e; rw [hlive] at hk; cases hk; exact hk0 hw0
        rw [if_neg this]; exact hk
      · intro k g0 hk hk0
        by_cases e : k = g.id
        · subst e
          rw [hlive] at hk; cases hk
          right; exact hg2
        · have := P.waiting k g0 (by rw [hm1, if_neg e]; exact hk) hk0
          exact this
      · intro k hk
        apply P.absent
        rw [hm1]
        have : ¬ k = g.id := by
          intro e; subst e; rw [hlive] at hk; cases hk
        rw [if_neg this]; exact hk
      · exact P.full
      · intro hno
        have := hno _ _ hlive hw0
        omega

/-! ## Drop-off -/

theorem seated_nonneg (m : Map group) (cid : Int) (h : ∀ p ∈ m, 0 ≤ p.2.people) :
    0 ≤ seated m cid := by
  unfold seated
  apply List.sum_nonneg
  intro x hx
  obtain ⟨p, hp, rfl⟩ := List.mem_map.mp hx
  have := h p hp
  split_ifs <;> omega

theorem inv_people_nonneg (sk : Option Int) (s : State) (hI : Inv sk s) (k : Int) :
    ∀ p ∈ mdel s.groups.m k, 0 ≤ p.2.people := by
  intro p hp
  rw [mem_mdel] at hp
  have := hI.groupsOk p.1 p.2 (mget_of_mem _ _ _ hI.groupsNodup hp.1)
  omega

/-- Removing a waiting group from the ledger keeps the invariant. -/
theorem remove_waiting_inv (s : State) (g : group) (hI : Inv none s)
    (hg : mget s.groups.m g.id = some g) (hw : g.idCar = 0) :
    Inv none { s with groups := { s.groups with m := mdel s.groups.m g.id } } := by
  have hsub : ∀ k v, mget (mdel s.groups.m g.id) k = some v → mget s.groups.m k = some v := by
    intro k v h
    rw [mget_mdel] at h
    by_cases e : k = g.id
    · rw [if_pos e] at h; cases h
    · rw [if_neg e] at h; exact h
  constructor
  · exact hI.cars
  · exact nodup_mdel _ _ hI.groupsNodup
  · intro k v hv; exact hI.groupsOk k v (hsub k v hv)
  · intro k1 g1 k2 g2 h1 h2
    exact hI.arrivalInj k1 g1 k2 g2 (hsub _ _ h1) (hsub _ _ h2)
  · intro k c hc
    simp only
    rw [seated_mdel _ _ _ g hI.groupsNodup hg]
    have := hI.conserve k c hc
    have hk := hI.cars.carsOk k c hc
    have hne : ¬ g.idCar = k := by omega
    simp [hne]; exact this
  · exact hI.arrivedNonneg
  · exact hI.queuesLen
  · exact hI.queuesOk
  · exact hI.queuesSorted
  · intro k v hv hv0 hk
    exact hI.waitQ k v (hsub k v hv) hv0 hk

/-- Dropping a traveling group: the seats are given back to its car, the
rematch runs on that car from a state that satisfies the invariant, and
`dropGroup` returns 0 with the state the rematch returns. -/
theorem dropGroup_traveling (d : groupFORMAPI) (s : State) (g : group) (hI : Inv none s)
    (hg : mget s.groups.m d.Id = some g) (hpos : g.idCar > 0) :
    ∃ c pools2 s3, mget s.cars.m g.idCar = some c ∧ c.id = g.idCar ∧
      c.seatsAvailable + g.people ≤ c.seatsTotal ∧
      Inv none ⟨⟨mset s.cars.m c.id
          (⟨c.id, c.seatsTotal, c.seatsAvailable + g.people⟩ : car), pools2⟩,
        ⟨s.groups.groupsArrived, mdel s.groups.m g.id, s.groups.queues⟩⟩ ∧
      giveBack g ⟨s.cars, ⟨s.groups.groupsArrived, mdel s.groups.m g.id, s.groups.queues⟩⟩
        = .ok ((⟨c.id, c.seatsTotal, c.seatsAvailable + g.people⟩ : car),
          ⟨⟨mset s.cars.m c.id
            (⟨c.id, c.seatsTotal, c.seatsAvailable + g.people⟩ : car), pools2⟩,
          ⟨s.groups.groupsArrived, mdel s.groups.m g.id, s.groups.queues⟩⟩) ∧
      Rematch (⟨c.id, c.seatsTotal, c.seatsAvailable + g.people⟩ : car)
        ⟨⟨mset s.cars.m c.id
          (⟨c.id, c.seatsTotal, c.seatsAvailable + g.people⟩ : car), pools2⟩,
        ⟨s.groups.groupsArrived, mdel s.groups.m g.id, s.groups.queues⟩⟩ s3 ∧
      dropGroup d s = .ok (0, s3) := by
  have hgOk := hI.groupsOk _ _ hg
  obtain ⟨hgid, _, hp1, hp6, _, _, hcar⟩ := hgOk
  rcases hcar with h0 | ⟨c, hc⟩
  · omega
  have hcOk := hI.cars.carsOk _ _ hc
  have hcid : c.id = g.idCar := hcOk.1
  have hc2 : mget s.cars.m c.id = some c := by rw [hcid]; exact hc
  have hg2 : mget s.groups.m g.id = some g := by rw [hgid]; exact hg
  have hcons := hI.conserve _ _ hc
  have hsd := seated_mdel s.groups.m g.id g.idCar g hI.groupsNodup hg2
  rw [if_pos rfl] at hsd
  have hnn := seated_nonneg (mdel s.groups.m g.id) g.idCar (inv_people_nonneg none s hI g.id)
  have hle : c.seatsAvailable + g.people ≤ c.seatsTotal := by omega
  have hl := hI.cars.poolsLen
  -- the two pool updates
  obtain ⟨pools1, h1⟩ : ∃ pools1, (if c.seatsAvailable > 0
      then updIdx s.cars.pools (c.seatsAvailable - 1) (fun b => mdel b c.id)
      else .ok s.cars.pools) = .ok pools1 := by
    by_cases hp : c.seatsAvailable > 0
    · rw [if_pos hp]
      exact updIdx_ok _ _ _ (by omega) (by omega)
    · rw [if_neg hp]; exact ⟨_, rfl⟩
  have l1 : pools1.length = 6 := by
    by_cases hp : c.seatsAvailable > 0
    · rw [if_pos hp] at h1; rw [updIdx_length _ _ _ _ h1]; exact hl
    · rw [if_neg hp] at h1; cases h1; exact hl
  obtain ⟨pools2, h2⟩ := updIdx_ok pools1 (c.seatsAvailable + g.people - 1)
    (fun b => mset b c.id (⟨c.id, c.seatsTotal, c.seatsAvailable + g.people⟩ : car))
    (by omega) (by omega)
  have hci := seat_change s.cars c (c.seatsAvailable + g.people) pools1 pools2 hI.cars hc2
    (by omega) hle h1 (by rw [if_pos (by omega)]; exact h2)
  have hsub : ∀ k v, mget (mdel s.groups.m g.id) k = some v → mget s.groups.m k = some v := by
    intro k v h
    rw [mget_mdel] at h
    by_cases e : k = g.id
    · rw [if_pos e] at h; cases h
    · rw [if_neg e] at h; exact h
  have hI2 : Inv none ⟨⟨mset s.cars.m c.id
      (⟨c.id, c.seatsTotal, c.seatsAvailable + g.people⟩ : car), pools2⟩,
      ⟨s.groups.groupsArrived, mdel s.groups.m g.id, s.groups.queues⟩⟩ := by
    constructor
    · exact hci
    · exact nodup_mdel _ _ hI.groupsNodup
    · intro k v hv
      have := hI.groupsOk k v (hsub k v hv)
      refine ⟨this.1, this.2.1, this.2.2.1, this.2.2.2.1, this.2.2.2.2.1, this.2.2.2.2.2.1, ?_⟩
      rcases this.2.2.2.2.2.2 with h0 | ⟨c0, h0⟩
      · left; exact h0
      · right
        simp only [mget_mset]
        by_cases e2 : v.idCar = c.id
        · simp [e2]
        · simp [e2, h0]
    · intro k1 g1 k2 g2 h1 h2
      exact hI.arrivalInj k1 g1 k2 g2 (hsub _ _ h1) (hsub _ _ h2)
    · intro k v hv
      simp only [mget_mset] at hv
      simp only
      rw [seated_mdel _ _ _ g hI.groupsNodup hg2]
      by_cases e : k = c.id
      · rw [if_pos e] at hv; cases hv
        subst e
        simp only [hcid, if_true]
        omega
      · rw [if_neg e] at hv
        have := hI.conserve _ _ hv
        have hne : ¬ g.idCar = k := by rw [← hcid]; exact fun x => e x.symm
        simp [hne]; exact this
    · exact hI.arrivedNonneg
    · exact hI.queuesLen
    · exact hI.queuesOk
    · exact hI.queuesSorted
    · intro k v hv hv0 hk
      exact hI.waitQ k v (hsub k v hv) hv0 hk
  obtain ⟨s3, hr⟩ := rideTryCarFuel_ok
    (queued ⟨⟨mset s.cars.m c.id
      (⟨c.id, c.seatsTotal, c.seatsAvailable + g.people⟩ : car), pools2⟩,
      ⟨s.groups.groupsArrived, mdel s.groups.m g.id, s.groups.queues⟩⟩ + 1)
    (⟨c.id, c.seatsTotal, c.seatsAvailable + g.people⟩ : car) _ hI2
    (by simp [mget_mset]) (by omega)
  have hcA : carAt s.cars.m g.idCar = c := carAt_of_mget _ _ _ hc
  have hgb : giveBack g ⟨s.cars, ⟨s.groups.groupsArrived, mdel s.groups.m g.id, s.groups.queues⟩⟩
      = .ok ((⟨c.id, c.seatsTotal, c.seatsAvailable + g.people⟩ : car),
        ⟨⟨mset s.cars.m c.id
          (⟨c.id, c.seatsTotal, c.seatsAvailable + g.people⟩ : car), pools2⟩,
        ⟨s.groups.groupsArrived, mdel s.groups.m g.id, s.groups.queues⟩⟩) := by
    by_cases hp : c.seatsAvailable > 0
    · rw [if_pos hp] at h1
      simp only [giveBack, hcA, if_pos hp, h1, carAt_mset, h2, bind, Except.bind]
    · rw [if_neg hp] at h1
      cases h1
      simp only [giveBack, hcA, if_neg hp, carAt_mset, h2, bind, Except.bind]
  refine ⟨c, pools2, s3, hc, hcid, hle, hI2, hgb, rideTryCarFuel_rematch _ _ _ _ hr, ?_⟩
  simp only [dropGroup, hg, if_pos hpos, hgb, bind, Except.bind, rideTryCar, hr]

/-! ## Reachable states -/

theorem rideTryGroup_known (pick : Nat) (r : groupJSONAPI) (s : State) (g : group)
    (h : mget s.groups.m r.Id = some g) : rideTryGroup pick r s = .ok (-1, s) := by
  simp only [rideTryGroup, h]

theorem dropGroup_unknown (d : groupFORMAPI) (s : State) (h : mget s.groups.m d.Id = none) :
    dropGroup d s = .ok (-1, s) := by
  simp only [dropGroup, h]

theorem dropGroup_waiting (d : groupFORMAPI) (s : State) (g : group)
    (h : mget s.groups.m d.Id = some g) (hw : ¬ g.idCar > 0) :
    dropGroup d s = .ok (1, ⟨s.cars,
      ⟨s.groups.groupsArrived, mdel s.groups.m g.id, s.groups.queues⟩⟩) := by
  simp only [dropGroup, h, if_neg hw]

theorem locateGroup_state (d : groupFORMAPI) (s : State) : (locateGroup d s).2 = s := by
  unfold locateGroup
  cases mget s.groups.m d.Id <;> rfl

/-- Every reachable state satisfies the representation invariant, and its
counter is below `maxInt`. -/
theorem reachable_inv_bound (s : State) (h : Reachable s) :
    Inv none s ∧ s.groups.groupsArrived < maxInt := by
  induction h with
  | init => exact ⟨inv_resetState, by decide⟩
  | load prior s l _ hv hr _ =>
    obtain ⟨s1, h1, hI1, hg1, _⟩ := loadCars_inv l resetState inv_resetState rfl hv.1 (by
      intro c hc
      have := hv.2 c hc
      exact ⟨this.1, this.2.1, this.2.2, rfl⟩)
    have e : loadCars l resetState = .ok s := hr
    rw [h1] at e
    rw [← Except.ok.inj e]
    exact ⟨hI1, by rw [hg1]; decide⟩
  | journey s s1 pick r res _ hv hr hb ih =>
    refine ⟨?_, hb⟩
    cases hk : mget s.groups.m r.Id with
    | some g =>
      rw [rideTryGroup_known pick r s g hk] at hr
      have e := Except.ok.inj hr
      rw [← (Prod.mk.inj e).2]; exact ih.1
    | none =>
      rcases rideTryGroup_new pick r s ih.1 ih.2 hv.2.1 hv.2.2 hk with
        ⟨c, s2, h1, hI2, _⟩ | ⟨_, s2, q, h1, hI2, _⟩
      · rw [h1] at hr
        have e := Except.ok.inj hr
        rw [← (Prod.mk.inj e).2]; exact hI2 hv.1
      · rw [h1] at hr
        have e := Except.ok.inj hr
        rw [← (Prod.mk.inj e).2]; exact hI2 hv.1
  | dropoff s s1 d res _ hr ih =>
    cases hk : mget s.groups.m d.Id with
    | none =>
      rw [dropGroup_unknown d s hk] at hr
      have e := Except.ok.inj hr
      rw [← (Prod.mk.inj e).2]; exact ih
    | some g =>
      by_cases hpos : g.idCar > 0
      · obtain ⟨c, pools2, s3, _, _, _, hI2, _, hrm, h1⟩ := dropGroup_traveling d s g ih.1 hk hpos
        rw [h1] at hr
        have e := Except.ok.inj hr
        rw [← (Prod.mk.inj e).2]
        have hP := rematch_post _ _ _ hrm hI2 (by simp [mget_mset])
        exact ⟨hP.inv, by rw [hP.arrived]; exact ih.2⟩
      · rw [dropGroup_waiting d s g hk hpos] at hr
        have e := Except.ok.inj hr
        rw [← (Prod.mk.inj e).2]
        have hgOk := ih.1.groupsOk _ _ hk
        have hw : g.idCar = 0 := by
          rcases hgOk.2.2.2.2.2.2 with h0 | ⟨c, hc⟩
          · exact h0
          · have := (ih.1.cars.carsOk _ _ hc).2.1
            omega
        exact ⟨remove_waiting_inv s g ih.1 (by rw [hgOk.1]; exact hk) hw, ih.2⟩
  | locate s d _ ih =>
    rw [locateGroup_state]; exact ih

/-- Every reachable state satisfies the representation invariant. -/
theorem reachable_inv (s : State) (h : Reachable s) : Inv none s :=
  (reachable_inv_bound s h).1

/-- The counter of a reachable state is below `maxInt`: its increment does
not wrap. -/
theorem reachable_bound (s : State) (h : Reachable s) : s.groups.groupsArrived < maxInt :=
  (reachable_inv_bound s h).2

theorem demo0_reachable : Reachable demo0 :=
  Reachable.load resetState demo0 [⟨1, 4⟩] Reachable.init (by decide) (by decide)

theorem demo1_reachable : Reachable demo1 :=
  Reachable.journey demo0 demo1 0 ⟨1, 4⟩ 0 demo0_reachable (by decide) (by decide) (by decide)

theorem demo2_reachable : Reachable demo2 :=
  Reachable.journey demo1 demo2 0 ⟨2, 1⟩ 1 demo1_reachable (by decide) (by decide) (by decide)

theorem demo3_reachable : Reachable demo3 :=
  Reachable.dropoff demo2 demo3 ⟨1⟩ 0 demo2_reachable (by decide)

/-- When `rideTryCar` is entered, the state satisfies the invariant and the
car passed is the car as `cars.m` holds it. -/
theorem rematchCall_inv (c : car) (s : State) (h : RematchCall c s) :
    Inv none s ∧ mget s.cars.m c.id = some c := by
  induction h with
  | first s d g c1 s2 hR hg hpos hgb =>
    obtain ⟨c, pools2, s3, _, _, _, hI2, hgb2, _, _⟩ :=
      dropGroup_traveling d s g (reachable_inv s hR) hg hpos
    rw [hgb2] at hgb
    have e := Prod.mk.inj (Except.ok.inj hgb)
    rw [← e.1, ← e.2]
    exact ⟨hI2, by simp [mget_mset]⟩
  | next c s s1 g _ hstep ih =>
    rcases rideTryCarStep_spec c s ih.1 ih.2 with ⟨h1, _⟩ | ⟨g1, t, s3, h1, hI1, _, _, _, _, _, hm, _⟩
    · rw [h1] at hstep; cases hstep
    · rw [h1] at hstep
      have e := Prod.mk.inj (Except.ok.inj hstep)
      rw [← e.1]
      exact ⟨hI1, by rw [hm, carAt_mset, mget_mset, if_pos rfl]⟩

theorem demoTwoWaiting_reachable : Reachable demoTwoWaiting :=
  Reachable.journey demo2 demoTwoWaiting 0 ⟨3, 2⟩ 1 demo2_reachable (by decide) (by decide)
    (by decide)

theorem demoCall_call : RematchCall ⟨1, 4, 4⟩ demoCall :=
  RematchCall.first demoTwoWaiting ⟨1⟩ ⟨1, 1, 4, 1⟩ ⟨1, 4, 4⟩ demoCall
    demoTwoWaiting_reachable (by decide) (by decide) (by decide)

theorem demoTwoCars_reachable : Reachable demoTwoCars :=
  Reachable.load resetState demoTwoCars [⟨1, 4⟩, ⟨2, 4⟩] Reachable.init (by decide) (by decide)

/-- Whatever the state, `ride` changes the group side only in the ledger
entry of the group it seats. -/
theorem ride_groups (c : car) (g : group) (s s1 : State) (h : ride c g s = .ok s1) :
    s1.groups = ⟨s.groups.groupsArrived,
      mset s.groups.m g.id (⟨g.id, g.arrival, g.people, c.id⟩ : group), s.groups.queues⟩ := by
  simp only [ride, bind, Except.bind] at h
  cases h1 : updIdx s.cars.pools (c.seatsAvailable - 1) (fun b => mdel b c.id) with
  | error e => rw [h1] at h; simp at h
  | ok pools1 =>
    rw [h1] at h
    simp only at h
    split at h
    · split at h
      · cases h
      · cases h; rfl
    · cases h; rfl

/-- Whatever the state, a ride request of an unknown group that returns has
returned 0 or 1 and has recorded the group. -/
theorem rideTryGroup_records (pick : Nat) (r : groupJSONAPI) (s s1 : State) (res : Int)
    (hnew : mget s.groups.m r.Id = none) (h : rideTryGroup pick r s = .ok (res, s1)) :
    (res = 0 ∨ res = 1) ∧ ∃ g, mget s1.groups.m r.Id = some g := by
  simp only [rideTryGroup, hnew, bind, Except.bind] at h
  split at h
  · cases h
  · rename_i found hscan
    cases found with
    | some b =>
      simp only at h
      split at h
      · rename_i k c hb
        split at h
        · cases h
        · rename_i s2 hr
          have e := Prod.mk.inj (Except.ok.inj h)
          have hg := ride_groups _ _ _ _ hr
          rw [← e.2, hg]
          exact ⟨Or.inl e.1.symm, _, by rw [mget_mset, if_pos rfl]⟩
      · cases h
    | none =>
      simp only at h
      split at h
      · cases h
      · have e := Prod.mk.inj (Except.ok.inj h)
        rw [← e.2]
        exact ⟨Or.inr e.1.symm, _, by rw [mget_mset, if_pos rfl]⟩

/-- Whatever the state, a drop-off of a known group that returns has
returned 0 or 1. -/
theorem dropGroup_known (d : groupFORMAPI) (s s1 : State) (g : group) (res : Int)
    (hg : mget s.groups.m d.Id = some g) (h : dropGroup d s = .ok (res, s1)) :
    res = 0 ∨ res = 1 := by
  simp only [dropGroup, hg, bind, Except.bind] at h
  split at h
  · split at h
    · cases h
    · split at h
      · cases h
      · left; exact (Prod.mk.inj (Except.ok.inj h)).1.symm
  · right; exact (Prod.mk.inj (Except.ok.inj h)).1.symm

/-- What `loadCars` does to a state with six pool buckets, for a fleet with
distinct ids and seats in 1..6 (the ids need not be positive): it returns,
leaves the group side alone, and `cars.m` then holds the cars of the fleet,
each with all its seats available, next to the cars it held under other ids. -/
theorem loadCars_spec (l : List carJSONAPI) : ∀ (s : State), s.cars.pools.length = 6 →
    (l.map (fun c => c.Id)).Nodup → (∀ c ∈ l, 1 ≤ c.Seats ∧ c.Seats ≤ 6) →
    ∃ s1, loadCars l s = .ok s1 ∧ s1.groups = s.groups ∧ s1.cars.pools.length = 6 ∧
      ∀ k c, mget s1.cars.m k = some c ↔
        ((∃ cj ∈ l, cj.Id = k ∧ c = ⟨k, cj.Seats, cj.Seats⟩) ∨
          (k ∉ l.map (fun c => c.Id) ∧ mget s.cars.m k = some c)) := by
  induction l with
  | nil =>
    intro s hl _ _
    exact ⟨s, rfl, rfl, hl, by simp⟩
  | cons cj rest ih =>
    intro s hl hN hV
    have hcj := hV cj (List.mem_cons_self _ _)
    obtain ⟨pools1, h1⟩ := updIdx_ok s.cars.pools (cj.Seats - 1)
      (fun b => mset b cj.Id (⟨cj.Id, cj.Seats, cj.Seats⟩ : car))
      (by omega) (by rw [hl]; omega)
    have hN2 : cj.Id ∉ rest.map (fun c => c.Id) ∧ (rest.map (fun c => c.Id)).Nodup := by
      simpa using hN
    obtain ⟨s1, hr, hg1, hl1, hm1⟩ := ih
      { s with cars := ⟨mset s.cars.m cj.Id (⟨cj.Id, cj.Seats, cj.Seats⟩ : car), pools1⟩ }
      (by simp only; rw [updIdx_length _ _ _ _ h1]; exact hl) hN2.2
      (fun c hc => hV c (List.mem_cons_of_mem _ hc))
    refine ⟨s1, ?_, hg1, hl1, ?_⟩
    · simp only [loadCars, carAt_mset, h1, bind, Except.bind]
      exact hr
    · intro k c
      rw [hm1 k c]
      simp only [mget_mset, List.mem_cons, exists_eq_or_imp, List.map_cons, not_or]
      by_cases e : k = cj.Id
      · subst e
        have hno : ¬ ∃ a ∈ rest, a.Id = cj.Id ∧ c = (⟨cj.Id, a.Seats, a.Seats⟩ : car) := by
          rintro ⟨a, ha, ha2, _⟩
          exact hN2.1 (by rw [← ha2]; exact List.mem_map_of_mem (fun c => c.Id) ha)
        simp only [if_true, true_and, not_true_eq_false, false_and, or_false, hno, false_or,
          Option.some.injEq]
        constructor
        · rintro ⟨_, h⟩; exact h.symm
        · intro h; exact ⟨hN2.1, h.symm⟩
      · have e2 : ¬ cj.Id = k := fun x => e x.symm
        simp only [e2, e, false_and, false_or, not_false_eq_true, true_and, if_false]

/-! ## The claims -/

/-- C1, seat conservation: in every reachable state, every car `c` of
`cars.m` has `c.seatsAvailable` plus the people of the ledger groups whose
`idCar` is `c.id` equal to `c.seatsTotal` (the ledger holds each group id
once, so the sum counts each group once). -/
theorem seat_conservation (s : State) (h : Reachable s) (k : Int) (c : car)
    (hc : mget s.cars.m k = some c) :
    keysNodup s.groups.m ∧ c.seatsAvailable + seated s.groups.m c.id = c.seatsTotal := by
  have hI := reachable_inv s h
  rw [(hI.cars.carsOk k c hc).1]
  exact ⟨hI.groupsNodup, hI.conserve k c hc⟩

theorem seat_conservation_witness :
    Reachable demo3 ∧ mget demo3.cars.m 1 = some ⟨1, 4, 3⟩ ∧
      keysNodup demo3.groups.m ∧ (3 : Int) + seated demo3.groups.m 1 = 4 :=
  ⟨demo3_reachable, rfl, seat_conservation demo3 demo3_reachable 1 ⟨1, 4, 3⟩ rfl⟩

/-- C2, pool consistency: in every reachable state there are six pool
buckets, and for every bucket `k` and every id: the id is a key of the bucket
exactly when `cars.m` holds a car under that id with `k + 1` seats available;
the value stored in the bucket is the car `cars.m` holds; a car without
available seats is in no bucket; an id absent from `cars.m` is in no bucket. -/
theorem pool_consistency (s : State) (h : Reachable s) :
    s.cars.pools.length = 6 ∧
    ∀ (k : Nat) (b : Map car), s.cars.pools[k]? = some b → ∀ id : Int,
      (id ∈ mkeys b ↔ ∃ c, mget s.cars.m id = some c ∧ c.seatsAvailable = (k : Int) + 1) ∧
      (∀ v, mget b id = some v → mget s.cars.m id = some v) ∧
      (∀ c, mget s.cars.m id = some c → c.seatsAvailable = 0 → id ∉ mkeys b) ∧
      (mget s.cars.m id = none → id ∉ mkeys b) := by
  have hI := (reachable_inv s h).cars
  refine ⟨hI.poolsLen, ?_⟩
  intro k b hb id
  have ok := hI.poolsOk k b hb id
  have key : id ∈ mkeys b ↔ ∃ v, mget b id = some v := by
    rw [← not_iff_not, ← mget_none_iff]
    cases mget b id <;> simp
  refine ⟨?_, ?_, ?_, ?_⟩
  · rw [key]
    constructor
    · rintro ⟨v, hv⟩; exact ⟨v, (ok v).mp hv⟩
    · rintro ⟨c, hc⟩; exact ⟨c, (ok c).mpr hc⟩
  · intro v hv; exact ((ok v).mp hv).1
  · intro c hc h0
    rw [key]
    rintro ⟨v, hv⟩
    have := (ok v).mp hv
    rw [hc] at this
    have e := Option.some.inj this.1
    rw [← e] at this
    omega
  · intro hn
    rw [key]
    rintro ⟨v, hv⟩
    have := (ok v).mp hv
    rw [hn] at this
    cases this.1

theorem pool_consistency_witness :
    Reachable demo3 ∧ demo3.cars.pools.length = 6 ∧
      ((1 : Int) ∈ mkeys [(1, (⟨1, 4, 3⟩ : car))] ↔
        ∃ c, mget demo3.cars.m 1 = some c ∧ c.seatsAvailable = ((2 : Nat) : Int) + 1) :=
  ⟨demo3_reachable, (pool_consistency demo3 demo3_reachable).1,
    ((pool_consistency demo3 demo3_reachable).2 2 [(1, ⟨1, 4, 3⟩)] rfl 1).1⟩

/-- C3, arrival fairness, one round at a time: at every call of `rideTryCar`
(from `dropGroup` in a reachable state, or from the round before), if some
waiting group `w` of the ledger fits the seats the car has at that call
(`w.people ≤ c.seatsAvailable`), then the round seats a group `g`: `g` was
waiting and fits, its ledger entry gets `idCar = c.id` and no other ledger
entry changes, and every other waiting group that fits arrived strictly later
than `g`, whatever its size; so of two waiting groups that both fit the seats
the car has at that call, the round does not seat the one that arrived
later. -/
theorem arrival_fairness (c : car) (s : State) (h : RematchCall c s) (w : group)
    (hw : mget s.groups.m w.id = some w) (hw0 : w.idCar = 0)
    (hfit : w.people ≤ c.seatsAvailable) :
    ∃ g s1, rideTryCarStep c s = .ok (s1, some g) ∧
      mget s.groups.m g.id = some g ∧ g.idCar = 0 ∧ g.people ≤ c.seatsAvailable ∧
      mget s1.groups.m g.id = some (⟨g.id, g.arrival, g.people, c.id⟩ : group) ∧
      (∀ k, k ≠ g.id → mget s1.groups.m k = mget s.groups.m k) ∧
      (∀ w2, mget s.groups.m w2.id = some w2 → w2.idCar = 0 →
        w2.people ≤ c.seatsAvailable → w2 ≠ g → g.arrival < w2.arrival) ∧
      ∀ a b : group,
        mget s.groups.m a.id = some a → a.idCar = 0 → a.people ≤ c.seatsAvailable →
        mget s.groups.m b.id = some b → b.idCar = 0 → b.people ≤ c.seatsAvailable →
        a.arrival < b.arrival → g ≠ b := by
  obtain ⟨hI, hc⟩ := rematchCall_inv c s h
  rcases rideTryCarStep_spec c s hI hc with ⟨_, h2⟩ |
    ⟨g, t, s1, h1, _, hlive, hg0, hgfit, hmin, _, _, hg⟩
  · have := h2 _ _ hw hw0
    omega
  · have hlater : ∀ w2, mget s.groups.m w2.id = some w2 → w2.idCar = 0 →
        w2.people ≤ c.seatsAvailable → w2 ≠ g → g.arrival < w2.arrival := by
      intro w2 hw2 hw20 hw2fit hne
      have hle := hmin _ _ hw2 hw20 hw2fit
      rcases lt_or_eq_of_le hle with hlt | heq
      · exact hlt
      · exfalso
        have hid := hI.arrivalInj _ _ _ _ hlive hw2 heq
        rw [← hid, hlive] at hw2
        exact hne (Option.some.inj hw2).symm
    refine ⟨g, s1, h1, hlive, hg0, hgfit, ?_, ?_, hlater, ?_⟩
    · rw [hg]; simp [mget_mset]
    · intro k hk
      rw [hg]; simp only [mget_mset, if_neg hk]
    · intro a b ha ha0 hafit _ _ _ hab e
      by_cases hag : a = g
      · rw [hag, e] at hab
        exact lt_irrefl _ hab
      · have := hlater a ha ha0 hafit hag
        rw [e] at this
        exact lt_irrefl _ (lt_trans this hab)

theorem arrival_fairness_witness :
    (∃ s1, rideTryCarStep ⟨1, 4, 4⟩ demoCall = .ok (s1, some ⟨2, 2, 1, 0⟩)) ∧
    ∃ g s1, rideTryCarStep ⟨1, 4, 4⟩ demoCall = .ok (s1, some g) ∧
      mget demoCall.groups.m g.id = some g ∧ g.idCar = 0 ∧
      g.people ≤ (⟨1, 4, 4⟩ : car).seatsAvailable ∧
      mget s1.groups.m g.id = some (⟨g.id, g.arrival, g.people, (⟨1, 4, 4⟩ : car).id⟩ : group) ∧
      (∀ k, k ≠ g.id → mget s1.groups.m k = mget demoCall.groups.m k) ∧
      (∀ w2, mget demoCall.groups.m w2.id = some w2 → w2.idCar = 0 →
        w2.people ≤ (⟨1, 4, 4⟩ : car).seatsAvailable → w2 ≠ g → g.arrival < w2.arrival) ∧
      ∀ a b : group,
        mget demoCall.groups.m a.id = some a → a.idCar = 0 →
        a.people ≤ (⟨1, 4, 4⟩ : car).seatsAvailable →
        mget demoCall.groups.m b.id = some b → b.idCar = 0 →
        b.people ≤ (⟨1, 4, 4⟩ : car).seatsAvailable →
        a.arrival < b.arrival → g ≠ b :=
  ⟨⟨_, rfl⟩, arrival_fairness ⟨1, 4, 4⟩ demoCall demoCall_call ⟨3, 3, 2, 0⟩ (by decide)
    (by decide) (by decide)⟩

theorem demoPass_reachable : Reachable demoPass :=
  Reachable.journey demoPass3 demoPass 0 ⟨4, 1⟩ 1
    (Reachable.journey demoPass2 demoPass3 0 ⟨3, 3⟩ 1
      (Reachable.journey demoPass1 demoPass2 0 ⟨2, 1⟩ 1
        (Reachable.journey demoPass0 demoPass1 0 ⟨1, 3⟩ 0
          (Reachable.load resetState demoPass0 [⟨1, 3⟩] Reachable.init (by decide) (by decide))
          (by decide) (by decide) (by decide))
        (by decide) (by decide) (by decide))
      (by decide) (by decide) (by decide))
    (by decide) (by decide) (by decide)

/-- C3, the reading over a whole drop-off fails: `demoPass` is reachable, and
when group 1 is dropped there, the waiting groups 3 (3 people, arrival 3) and
4 (1 person, arrival 4) both fit the three seats of the freed car; the first
round seats group 2, the second round finds two seats left and seats group 4,
and group 3 is still waiting when `dropGroup` returns. -/
theorem arrival_fairness_passed :
    Reachable demoPass ∧ dropGroup ⟨1⟩ demoPass = .ok (0, demoPassed) ∧
    mget demoPassed.groups.m 4 = some ⟨4, 4, 1, 1⟩ ∧
    mget demoPassed.groups.m 3 = some ⟨3, 3, 3, 0⟩ ∧
    ¬ FreedCarOrder demoPass ⟨1⟩ := by
  refine ⟨demoPass_reachable, by decide, by decide, by decide, fun h => ?_⟩
  have h34 := h ⟨1, 1, 3, 1⟩ ⟨1, 3, 3⟩ demoPassCall demoPassed (by decide) (by decide)
    (by decide) (by decide) ⟨3, 3, 3, 0⟩ ⟨4, 4, 1, 0⟩ (by decide) (by decide) (by decide)
    (by decide) (by decide) (by decide) (by decide) (by decide)
  exact absurd h34 (by decide)

/-- C4, outcome of a new ride request: in a reachable state, for a request
whose id is not in the ledger and whose people are in 1..6 (whatever `pick`
the map iteration takes): if some car has enough seats available, the call
returns 0, the group is recorded with `idCar` the id of a car that had enough
seats available, that car loses `people` available seats, no other car and no
other ledger entry changes and the queues are as before; if no car has enough
seats, the call returns 1, the group is recorded with `idCar = 0` and appended
at the end of queue `people - 1`, and the car registry is as before. -/
theorem ride_request_outcome (s : State) (h : Reachable s) (pick : Nat) (r : groupJSONAPI)
    (hnew : mget s.groups.m r.Id = none) (h1 : 1 ≤ r.People) (h6 : r.People ≤ 6) :
    ((∃ k c, mget s.cars.m k = some c ∧ r.People ≤ c.seatsAvailable) →
      ∃ c s1, rideTryGroup pick r s = .ok (0, s1) ∧
        mget s.cars.m c.id = some c ∧ r.People ≤ c.seatsAvailable ∧
        mget s1.groups.m r.Id
          = some (⟨r.Id, s.groups.groupsArrived + 1, r.People, c.id⟩ : group) ∧
        (∀ k, k ≠ r.Id → mget s1.groups.m k = mget s.groups.m k) ∧
        mget s1.cars.m c.id
          = some (⟨c.id, c.seatsTotal, c.seatsAvailable - r.People⟩ : car) ∧
        (∀ k, k ≠ c.id → mget s1.cars.m k = mget s.cars.m k) ∧
        s1.groups.queues = s.groups.queues) ∧
    ((∀ k c, mget s.cars.m k = some c → c.seatsAvailable < r.People) →
      ∃ s1 q, rideTryGroup pick r s = .ok (1, s1) ∧
        mget s1.groups.m r.Id
          = some (⟨r.Id, s.groups.groupsArrived + 1, r.People, 0⟩ : group) ∧
        (∀ k, k ≠ r.Id → mget s1.groups.m k = mget s.groups.m k) ∧
        s.groups.queues[(r.People - 1).toNat]? = some q ∧
        s1.groups.queues = s.groups.queues.set (r.People - 1).toNat
          (q ++ [(⟨r.Id, s.groups.groupsArrived + 1, r.People, 0⟩ : group)]) ∧
        s1.cars = s.cars) := by
  have hI := reachable_inv s h
  rcases rideTryGroup_new pick r s hI (reachable_bound s h) h1 h6 hnew with
    ⟨c, s1, hr, _, hc, hfit, _, hm, hg⟩ | ⟨hno, s1, q, hr, _, hcars, hq, hg⟩
  · constructor
    · intro _
      refine ⟨c, s1, hr, hc, hfit, ?_, ?_, ?_, ?_, ?_⟩
      · rw [hg]; simp only [mget_mset, if_true]
      · intro k hk; rw [hg]; simp only [mget_mset, if_neg hk]
      · rw [hm]; simp only [mget_mset, if_true]
      · intro k hk; rw [hm]; simp only [mget_mset, if_neg hk]
      · rw [hg]
    · intro hno
      have := hno _ _ hc
      omega
  · constructor
    · rintro ⟨k, c, hc, hfit⟩
      have := hno k c hc
      omega
    · intro _
      refine ⟨s1, q, hr, ?_, ?_, hq, ?_, hcars⟩
      · rw [hg]; simp only [mget_mset, if_true]
      · intro k hk; rw [hg]; simp only [mget_mset, if_neg hk]
      · rw [hg]

theorem ride_request_outcome_witness :
    ((∃ k c, mget demo1.cars.m k = some c ∧ (1 : Int) ≤ c.seatsAvailable) →
      ∃ c s1, rideTryGroup 0 ⟨2, 1⟩ demo1 = .ok (0, s1) ∧
        mget demo1.cars.m c.id = some c ∧ (1 : Int) ≤ c.seatsAvailable ∧
        mget s1.groups.m 2 = some (⟨2, demo1.groups.groupsArrived + 1, 1, c.id⟩ : group) ∧
        (∀ k, k ≠ 2 → mget s1.groups.m k = mget demo1.groups.m k) ∧
        mget s1.cars.m c.id = some (⟨c.id, c.seatsTotal, c.seatsAvailable - 1⟩ : car) ∧
        (∀ k, k ≠ c.id → mget s1.cars.m k = mget demo1.cars.m k) ∧
        s1.groups.queues = demo1.groups.queues) ∧
    ((∀ k c, mget demo1.cars.m k = some c → c.seatsAvailable < (1 : Int)) →
      ∃ s1 q, rideTryGroup 0 ⟨2, 1⟩ demo1 = .ok (1, s1) ∧
        mget s1.groups.m 2 = some (⟨2, demo1.groups.groupsArrived + 1, 1, 0⟩ : group) ∧
        (∀ k, k ≠ 2 → mget s1.groups.m k = mget demo1.groups.m k) ∧
        demo1.groups.queues[((1 : Int) - 1).toNat]? = some q ∧
        s1.groups.queues = demo1.groups.queues.set ((1 : Int) - 1).toNat
          (q ++ [(⟨2, demo1.groups.groupsArrived + 1, 1, 0⟩ : group)]) ∧
        s1.cars = demo1.cars) :=
  ride_request_outcome demo1 demo1_reachable 0 ⟨2, 1⟩ (by decide) (by decide) (by decide)

/-- C5, idempotence of ride requests: whatever the state, a request whose id
is in the ledger returns -1 and leaves the state as it is; so when a request
of an unknown id has returned (with 0 or 1), a second request with the same
id, whatever its people and whatever the iteration order, returns -1 and
changes nothing; in a reachable state the first request of a valid unknown
group does return; and with cars 1 and 2 of 4 seats, group 1 of 4 people is
seated by the first request and gets -1 from the second. -/
theorem ride_request_idempotent :
    (∀ (s : State) (pick : Nat) (r : groupJSONAPI) (g : group),
      mget s.groups.m r.Id = some g → rideTryGroup pick r s = .ok (-1, s)) ∧
    (∀ (s s1 : State) (pick pick2 : Nat) (r r2 : groupJSONAPI) (res : Int),
      mget s.groups.m r.Id = none → rideTryGroup pick r s = .ok (res, s1) → r2.Id = r.Id →
      (res = 0 ∨ res = 1) ∧ rideTryGroup pick2 r2 s1 = .ok (-1, s1)) ∧
    (∀ (s : State) (pick : Nat) (r : groupJSONAPI),
      Reachable s → validRequest r → mget s.groups.m r.Id = none →
      ∃ res s1, rideTryGroup pick r s = .ok (res, s1) ∧ (res = 0 ∨ res = 1)) ∧
    (∀ pick pick2 : Nat, ∃ s1, rideTryGroup pick ⟨1, 4⟩ demoTwoCars = .ok (0, s1) ∧
      rideTryGroup pick2 ⟨1, 4⟩ s1 = .ok (-1, s1)) := by
  refine ⟨?_, ?_, ?_, ?_⟩
  · intro s pick r g hg
    exact rideTryGroup_known pick r s g hg
  · intro s s1 pick pick2 r r2 res hnew hr hid
    obtain ⟨hres, g, hg⟩ := rideTryGroup_records pick r s s1 res hnew hr
    exact ⟨hres, rideTryGroup_known pick2 r2 s1 g (by rw [hid]; exact hg)⟩
  · intro s pick r hR hv hnew
    rcases rideTryGroup_new pick r s (reachable_inv s hR) (reachable_bound s hR)
        hv.2.1 hv.2.2 hnew with
      ⟨c, s1, hr, _⟩ | ⟨_, s1, q, hr, _⟩
    · exact ⟨0, s1, hr, Or.inl rfl⟩
    · exact ⟨1, s1, hr, Or.inr rfl⟩
  · intro pick pick2
    rcases rideTryGroup_new pick ⟨1, 4⟩ demoTwoCars (reachable_inv _ demoTwoCars_reachable)
      (by decide) (by decide) (by decide) (by decide) with ⟨c, s1, hr, _, _, _, _, _, hg⟩ | ⟨hno, _⟩
    · refine ⟨s1, hr, ?_⟩
      apply rideTryGroup_known pick2 ⟨1, 4⟩ s1 _
      rw [hg, mget_mset, if_pos rfl]
    · have := hno 1 ⟨1, 4, 4⟩ (by decide)
      simp at this

theorem ride_request_idempotent_witness :
    rideTryGroup 0 ⟨1, 4⟩ demo1 = .ok (-1, demo1) ∧
    ((0 : Int) = 0 ∨ (0 : Int) = 1) ∧ rideTryGroup 7 ⟨1, 2⟩ demo1 = .ok (-1, demo1) :=
  ⟨ride_request_idempotent.1 demo1 0 ⟨1, 4⟩ ⟨1, 1, 4, 1⟩ (by decide),
    ride_request_idempotent.2.1 demo0 demo1 0 7 ⟨1, 4⟩ ⟨1, 2⟩ 0 (by decide) (by decide) rfl⟩

/-- C6, dropping an unknown group: whatever the state, `dropGroup` returns
-1 exactly when the id is not in the ledger, and then the state it returns is
the state it received, queues included. -/
theorem drop_unknown (s : State) (d : groupFORMAPI) :
    ((∃ s1, dropGroup d s = .ok (-1, s1)) ↔ mget s.groups.m d.Id = none) ∧
    (mget s.groups.m d.Id = none → dropGroup d s = .ok (-1, s)) := by
  refine ⟨⟨?_, ?_⟩, dropGroup_unknown d s⟩
  · rintro ⟨s1, h⟩
    cases hk : mget s.groups.m d.Id with
    | none => rfl
    | some g =>
      have := dropGroup_known d s s1 g (-1) hk h
      omega
  · intro hk
    exact ⟨s, dropGroup_unknown d s hk⟩

theorem drop_unknown_witness :
    ((∃ s1, dropGroup ⟨5⟩ demo2 = .ok (-1, s1)) ↔ mget demo2.groups.m 5 = none) ∧
    dropGroup ⟨5⟩ demo2 = .ok (-1, demo2) :=
  ⟨(drop_unknown demo2 ⟨5⟩).1, (drop_unknown demo2 ⟨5⟩).2 (by decide)⟩

/-- C8, dropping a waiting group: whatever the state, for a group `g` that
the ledger holds under `g.id` with `idCar = 0`, `dropGroup` returns 1 and the
state it returns differs from the one it received only in the ledger, by the
removal of the entry `g.id`: `cars.m`, the pools, the queues (the entry of
`g` included) and `groupsArrived` are as before. -/
theorem drop_waiting (s : State) (g : group) (hg : mget s.groups.m g.id = some g)
    (hw : g.idCar = 0) :
    dropGroup ⟨g.id⟩ s = .ok (1, ⟨s.cars,
      ⟨s.groups.groupsArrived, mdel s.groups.m g.id, s.groups.queues⟩⟩) ∧
    mget (mdel s.groups.m g.id) g.id = none ∧
    ∀ k, k ≠ g.id → mget (mdel s.groups.m g.id) k = mget s.groups.m k := by
  refine ⟨dropGroup_waiting ⟨g.id⟩ s g hg (by omega), ?_, ?_⟩
  · rw [mget_mdel, if_pos rfl]
  · intro k hk; rw [mget_mdel, if_neg hk]

theorem drop_waiting_witness :
    dropGroup ⟨2⟩ demo2 = .ok (1, ⟨demo2.cars,
      ⟨demo2.groups.groupsArrived, mdel demo2.groups.m 2, demo2.groups.queues⟩⟩) ∧
    mget (mdel demo2.groups.m 2) 2 = none ∧
    ∀ k, k ≠ 2 → mget (mdel demo2.groups.m 2) k = mget demo2.groups.m k :=
  drop_waiting demo2 ⟨2, 2, 1, 0⟩ (by decide) (by decide)

/-- C9, locate: in a reachable state, `locateGroup` returns -1 exactly when
the id is not in the ledger, 0 exactly when the ledger holds the group
waiting (`idCar = 0`), and otherwise the `idCar` of the group, which is
positive and the id of a car of `cars.m`; the state is unchanged. -/
theorem locate_result (s : State) (h : Reachable s) (d : groupFORMAPI) :
    ((locateGroup d s).1 = -1 ↔ mget s.groups.m d.Id = none) ∧
    ((locateGroup d s).1 = 0 ↔ ∃ g, mget s.groups.m d.Id = some g ∧ g.idCar = 0) ∧
    (∀ g, mget s.groups.m d.Id = some g → g.idCar ≠ 0 →
      (locateGroup d s).1 = g.idCar ∧ 0 < g.idCar ∧
        ∃ c, mget s.cars.m g.idCar = some c ∧ c.id = g.idCar) ∧
    (locateGroup d s).2 = s := by
  have hI := reachable_inv s h
  have hpos : ∀ g, mget s.groups.m d.Id = some g → g.idCar ≠ 0 →
      0 < g.idCar ∧ ∃ c, mget s.cars.m g.idCar = some c ∧ c.id = g.idCar := by
    intro g hg hne
    rcases (hI.groupsOk _ _ hg).2.2.2.2.2.2 with h0 | ⟨c, hc⟩
    · exact absurd h0 hne
    · have := hI.cars.carsOk _ _ hc
      exact ⟨this.2.1, c, hc, this.1⟩
  refine ⟨?_, ?_, ?_, locateGroup_state d s⟩
  · cases hk : mget s.groups.m d.Id with
    | none => simp [locateGroup, hk]
    | some g =>
      simp only [locateGroup, hk]
      constructor
      · intro e
        by_cases h0 : g.idCar = 0
        · omega
        · have := (hpos g hk h0).1
          omega
      · intro e; cases e
  · cases hk : mget s.groups.m d.Id with
    | none => simp [locateGroup, hk]
    | some g => simp [locateGroup, hk]
  · intro g hg hne
    refine ⟨by simp only [locateGroup, hg], hpos g hg hne⟩

theorem locate_result_witness :
    ((locateGroup ⟨2⟩ demo3).1 = -1 ↔ mget demo3.groups.m 2 = none) ∧
    ((locateGroup ⟨2⟩ demo3).1 = 0 ↔ ∃ g, mget demo3.groups.m 2 = some g ∧ g.idCar = 0) ∧
    (∀ g, mget demo3.groups.m 2 = some g → g.idCar ≠ 0 →
      (locateGroup ⟨2⟩ demo3).1 = g.idCar ∧ 0 < g.idCar ∧
        ∃ c, mget demo3.cars.m g.idCar = some c ∧ c.id = g.idCar) ∧
    (locateGroup ⟨2⟩ demo3).2 = demo3 :=
  locate_result demo3 demo3_reachable ⟨2⟩

/-- C7, dropping a traveling group: in a reachable state, for a group `g`
of the ledger with `idCar > 0`, `dropGroup` returns 0; afterwards `g` is not
in the ledger, every car other than `g.idCar` is as before, every other
group that was traveling has the ledger entry it had, and the car of `g` has
its former available seats plus `g.people` minus the people of the formerly
waiting groups now seated in it; when no waiting group fits the freed car,
that is `g.people` seats more than before. -/
theorem drop_traveling (s : State) (h : Reachable s) (g : group)
    (hg : mget s.groups.m g.id = some g) (hpos : g.idCar > 0) :
    ∃ s1 c c1, dropGroup ⟨g.id⟩ s = .ok (0, s1) ∧ mget s1.groups.m g.id = none ∧
      (∀ k, k ≠ g.idCar → mget s1.cars.m k = mget s.cars.m k) ∧
      (∀ k w, k ≠ g.id → mget s.groups.m k = some w → w.idCar ≠ 0 →
        mget s1.groups.m k = some w) ∧
      mget s.cars.m g.idCar = some c ∧ mget s1.cars.m g.idCar = some c1 ∧
      c1.seatsAvailable
        = c.seatsAvailable + g.people - newly s.groups.m s1.groups.m g.idCar ∧
      ((∀ k w, mget s.groups.m k = some w → w.idCar = 0 →
          c.seatsAvailable + g.people < w.people) →
        c1.seatsAvailable = c.seatsAvailable + g.people) := by
  have hI := reachable_inv s h
  obtain ⟨c, pools2, s3, hc, hcid, _, hI2, _, hrm, hr⟩ :=
    dropGroup_traveling ⟨g.id⟩ s g hI hg hpos
  have P := rematch_post _ _ _ hrm hI2 (by simp [mget_mset])
  obtain ⟨c1, hc1, _, _⟩ := P.carKept
  simp only at hc1
  have habs : mget s3.groups.m g.id = none := by
    apply P.absent
    simp only [mget_mdel, if_true]
  have hnew : newly s.groups.m s3.groups.m g.idCar
      = newly (mdel s.groups.m g.id) s3.groups.m c.id := by
    rw [hcid]
    apply msum_congr
    intro p hp
    have hp2 := mget_of_mem _ _ _ P.inv.groupsNodup hp
    have hne : ¬ p.1 = g.id := by
      intro e; rw [e, habs] at hp2; cases hp2
    simp only [mget_mdel, if_neg hne]
  refine ⟨s3, c, c1, hr, habs, ?_, ?_, hc, by rw [← hcid]; exact hc1, ?_, ?_⟩
  · intro k hk
    have := P.carsFrame k (by simp only; rw [hcid]; exact hk)
    rw [this]
    simp only [mget_mset]
    rw [if_neg (by rw [hcid]; exact hk)]
  · intro k w hk hw hw0
    apply P.traveling k w _ hw0
    simp only [mget_mdel, if_neg hk]
    exact hw
  · have := P.seats
    simp only at this
    rw [carAt_of_mget _ _ _ hc1] at this
    rw [hnew]
    omega
  · intro hno
    have := P.idle (by
      intro k w hw hw0
      simp only [mget_mdel] at hw
      by_cases e : k = g.id
      · rw [if_pos e] at hw; cases hw
      · rw [if_neg e] at hw
        exact hno k w hw hw0)
    rw [this.1] at hc1
    simp only [mget_mset, if_true, Option.some.injEq] at hc1
    rw [← hc1]

theorem drop_traveling_witness :
    ∃ s1 c c1, dropGroup ⟨1⟩ demo2 = .ok (0, s1) ∧ mget s1.groups.m 1 = none ∧
      (∀ k, k ≠ 1 → mget s1.cars.m k = mget demo2.cars.m k) ∧
      (∀ k w, k ≠ 1 → mget demo2.groups.m k = some w → w.idCar ≠ 0 →
        mget s1.groups.m k = some w) ∧
      mget demo2.cars.m 1 = some c ∧ mget s1.cars.m 1 = some c1 ∧
      c1.seatsAvailable = c.seatsAvailable + 4 - newly demo2.groups.m s1.groups.m 1 ∧
      ((∀ k w, mget demo2.groups.m k = some w → w.idCar = 0 →
          c.seatsAvailable + 4 < w.people) →
        c1.seatsAvailable = c.seatsAvailable + 4) :=
  drop_traveling demo2 demo2_reachable ⟨1, 1, 4, 1⟩ (by decide) (by decide)

/-- C10, a fleet load is a full reset: whatever the prior state, for a fleet
with distinct ids and seats in 1..6, `resetState` followed by `loadCars`
returns a state in which `cars.m` holds exactly the cars of the fleet, each
with `seatsTotal` and `seatsAvailable` equal to its seats, the ledger is
empty, the six queues are empty, `groupsArrived` is 0 and every group id
locates as -1. -/
theorem fleet_load_resets (prior : State) (l : List carJSONAPI)
    (hN : (l.map (fun c => c.Id)).Nodup) (hS : ∀ c ∈ l, 1 ≤ c.Seats ∧ c.Seats ≤ 6) :
    ∃ s, putCars l prior = .ok s ∧
      (∀ k c, mget s.cars.m k = some c ↔
        ∃ cj ∈ l, cj.Id = k ∧ c = (⟨k, cj.Seats, cj.Seats⟩ : car)) ∧
      s.groups.m = [] ∧ s.groups.queues = List.replicate 6 [] ∧
      s.groups.groupsArrived = 0 ∧ ∀ d, (locateGroup d s).1 = -1 := by
  obtain ⟨s1, hr, hg, _, hm⟩ := loadCars_spec l resetState rfl hN hS
  refine ⟨s1, hr, ?_, by rw [hg]; rfl, by rw [hg]; rfl, by rw [hg]; rfl, ?_⟩
  · intro k c
    rw [hm k c]
    simp [resetState, mget]
  · intro d
    have : s1.groups.m = [] := by rw [hg]; rfl
    simp [locateGroup, this, mget]

theorem fleet_load_resets_witness :
    ∃ s, putCars [⟨1, 4⟩, ⟨2, 4⟩] demo3 = .ok s ∧
      (∀ k c, mget s.cars.m k = some c ↔
        ∃ cj ∈ [(⟨1, 4⟩ : carJSONAPI), ⟨2, 4⟩], cj.Id = k ∧
          c = (⟨k, cj.Seats, cj.Seats⟩ : car)) ∧
      s.groups.m = [] ∧ s.groups.queues = List.replicate 6 [] ∧
      s.groups.groupsArrived = 0 ∧ ∀ d, (locateGroup d s).1 = -1 :=
  fleet_load_resets demo3 [⟨1, 4⟩, ⟨2, 4⟩] (by decide) (by decide)

/-! ## Whatever the state -/

theorem bind_no_timeout {α β : Type} (x : Except Fault α) (f : α → Except Fault β)
    (hx : x ≠ .error Fault.timeout) (hf : ∀ a, f a ≠ .error Fault.timeout) :
    (x >>= f) ≠ .error Fault.timeout := by
  cases x with
  | error e => simpa [bind, Except.bind] using hx
  | ok a => simpa [bind, Except.bind] using hf a

theorem idx_no_timeout {α : Type} (l : List α) (i : Int) : idx l i ≠ .error Fault.timeout := by
  unfold idx
  split_ifs
  · cases l[i.toNat]? <;> simp
  · simp

theorem updIdx_no_timeout {α : Type} (l : List α) (i : Int) (f : α → α) :
    updIdx l i f ≠ .error Fault.timeout := by
  unfold updIdx
  split_ifs
  · cases l[i.toNat]? <;> simp
  · simp

theorem popHead_no_timeout (q : List group) : popHead q ≠ .error Fault.timeout := by
  cases q <;> simp [popHead]

theorem ride_no_timeout (c : car) (g : group) (s : State) :
    ride c g s ≠ .error Fault.timeout := by
  unfold ride
  apply bind_no_timeout _ _ (updIdx_no_timeout _ _ _)
  intro pools1
  simp only
  split_ifs
  · apply bind_no_timeout _ _ (updIdx_no_timeout _ _ _)
    intro pools2; simp
  · simp

theorem selectGroup_no_timeout (queues : List (List group)) : ∀ (n : Nat) (acc : group × Int),
    selectGroup queues n acc ≠ .error Fault.timeout := by
  intro n
  induction n with
  | zero => intro acc; simp [selectGroup]
  | succ n ih =>
    intro acc
    obtain ⟨g, gq⟩ := acc
    unfold selectGroup
    apply bind_no_timeout _ _ (idx_no_timeout _ _)
    intro q
    cases q with
    | nil => exact ih _
    | cons h t =>
      simp only
      split_ifs
      · exact ih _
      · exact ih _

/-- A round of `rideTryCar` never runs out of fuel: it has no recursion. -/
theorem rideTryCarStep_no_timeout (c : car) (s : State) :
    rideTryCarStep c s ≠ .error Fault.timeout := by
  unfold rideTryCarStep
  apply bind_no_timeout _ _ (selectGroup_no_timeout _ _ _)
  rintro ⟨g, gq⟩
  simp only
  split_ifs
  · apply bind_no_timeout _ _ (idx_no_timeout _ _)
    intro q
    apply bind_no_timeout _ _ (popHead_no_timeout _)
    intro t
    apply bind_no_timeout _ _ (updIdx_no_timeout _ _ _)
    intro queues2
    apply bind_no_timeout _ _ (ride_no_timeout _ _ _)
    intro s3; simp
  · simp

/-- Whatever the queues, what the selection loop returns is what it started
with or the head of one of the queues below the bound. -/
theorem selectGroup_any (queues : List (List group)) : ∀ (n : Nat) (acc r : group × Int),
    selectGroup queues n acc = .ok r →
    r = acc ∨ ∃ (i : Nat) (t : List group), i < n ∧ r.2 = (i : Int) ∧
      queues[i]? = some (r.1 :: t) := by
  intro n
  induction n with
  | zero =>
    intro acc r h
    simp only [selectGroup] at h
    left; exact (Except.ok.inj h).symm
  | succ n ih =>
    intro acc r h
    obtain ⟨g, gq⟩ := acc
    simp only [selectGroup, bind, Except.bind] at h
    cases hq : idx queues (n : Int) with
    | error e => rw [hq] at h; simp at h
    | ok q =>
      rw [hq] at h
      have hq2 := ((idx_eq_ok _ _ _).mp hq).2
      simp only [Int.toNat_ofNat] at hq2
      have lift : ∀ acc1, selectGroup queues n acc1 = .ok r →
          (r = acc1 ∨ ∃ (i : Nat) (t : List group), i < n + 1 ∧ r.2 = (i : Int) ∧
            queues[i]? = some (r.1 :: t)) := by
        intro acc1 h1
        rcases ih acc1 r h1 with e | ⟨i, t, h2, h3, h4⟩
        · left; exact e
        · right; exact ⟨i, t, by omega, h3, h4⟩
      cases q with
      | nil =>
        simp only at h
        exact lift _ h
      | cons hd tl =>
        simp only at h
        split_ifs at h
        · rcases lift _ h with e | e
          · right
            refine ⟨n, tl, by omega, by rw [e], by rw [e]; exact hq2⟩
          · right; exact e
        · exact lift _ h

/-- Whatever the state, `ride` sets the car it is given in `cars.m`, with the
people of the group taken off its available seats. -/
theorem ride_cars (c : car) (g : group) (s s1 : State) (h : ride c g s = .ok s1) :
    s1.cars.m = mset s.cars.m c.id
      (⟨c.id, c.seatsTotal, c.seatsAvailable - g.people⟩ : car) := by
  simp only [ride, bind, Except.bind] at h
  cases h1 : updIdx s.cars.pools (c.seatsAvailable - 1) (fun b => mdel b c.id) with
  | error e => rw [h1] at h; simp at h
  | ok pools1 =>
    rw [h1] at h
    simp only at h
    split at h
    · split at h
      · cases h
      · cases h; rfl
    · cases h; rfl

/-- Whatever the state, a round of `rideTryCar` that returns has either
seated nobody and pruned the queues, or taken the head of a pruned queue
below the available seats of the car and called `ride` on it. -/
theorem rideTryCarStep_any (c : car) (s s1 : State) (og : Option group)
    (h : rideTryCarStep c s = .ok (s1, og)) :
    (og = none ∧ s1 = ⟨s.cars, ⟨s.groups.groupsArrived, s.groups.m,
        pruneQueues s.groups.m s.groups.queues⟩⟩) ∨
    (∃ (g : group) (i : Nat) (t : List group), og = some g ∧ i < c.seatsAvailable.toNat ∧
      (pruneQueues s.groups.m s.groups.queues)[i]? = some (g :: t) ∧
      ride c g ⟨s.cars, ⟨s.groups.groupsArrived, s.groups.m,
        (pruneQueues s.groups.m s.groups.queues).set i t⟩⟩ = .ok s1) := by
  simp only [rideTryCarStep, bind, Except.bind] at h
  cases hsel : selectGroup (pruneQueues s.groups.m s.groups.queues) c.seatsAvailable.toNat
      (zeroGroup, -1) with
  | error e => rw [hsel] at h; simp at h
  | ok r =>
    obtain ⟨g, gq⟩ := r
    rw [hsel] at h
    simp only at h
    rcases selectGroup_any _ _ _ _ hsel with e | ⟨i, t, hi, hgq, hq⟩
    · have e2 : gq = -1 := (Prod.mk.inj e).2
      subst e2
      left
      simp only [ge_iff_le, Left.nonneg_neg_iff, Int.reduceLE, if_false] at h
      have e3 := Prod.mk.inj (Except.ok.inj h)
      exact ⟨e3.2.symm, e3.1.symm⟩
    · right
      simp only at hgq hq
      subst hgq
      have hpos : (i : Int) ≥ 0 := by omega
      rw [if_pos hpos, idx_nat _ i _ hq] at h
      simp only [popHead, updIdx_nat _ i _ _ hq] at h
      cases hr : ride c g ⟨s.cars, ⟨s.groups.groupsArrived, s.groups.m,
          (pruneQueues s.groups.m s.groups.queues).set i t⟩⟩ with
      | error e => rw [hr] at h; simp at h
      | ok s3 =>
        rw [hr] at h
        have e3 := Prod.mk.inj (Except.ok.inj h)
        refine ⟨g, i, t, e3.2.symm, hi, hq, ?_⟩
        rw [← e3.1]; exact hr
/-- Whatever the state, a round that seats a group leaves fewer queued
entries than it found. -/
theorem rideTryCarStep_queued (c : car) (s s1 : State) (g : group)
    (h : rideTryCarStep c s = .ok (s1, some g)) : queued s1 < queued s := by
  rcases rideTryCarStep_any c s s1 _ h with ⟨e, _⟩ | ⟨g1, i, t, _, _, hq, hr⟩
  · cases e
  · have hg := ride_groups _ _ _ _ hr
    have e1 := sum_length_set _ _ g1 t hq
    have e2 := queued_prune s.groups.m s.groups.queues
    simp only [queued, hg]
    omega

/-- Whatever the state, with more fuel than there are queued entries
`rideTryCarFuel` does not run out of fuel. -/
theorem rideTryCarFuel_no_timeout : ∀ (n : Nat) (c : car) (s : State), queued s < n →
    rideTryCarFuel n c s ≠ .error Fault.timeout := by
  intro n
  induction n with
  | zero => intro c s h; omega
  | succ n ih =>
    intro c s hq
    simp only [rideTryCarFuel, bind, Except.bind]
    cases hstep : rideTryCarStep c s with
    | error e =>
      simp only
      intro h
      have := Except.error.inj h
      rw [this] at hstep
      exact rideTryCarStep_no_timeout c s hstep
    | ok p =>
      obtain ⟨s1, og⟩ := p
      cases og with
      | none => simp
      | some g =>
        simp only
        have := rideTryCarStep_queued c s s1 g hstep
        exact ih _ _ (by omega)

/-- Whatever the state, the result of `rideTryCarFuel` does not depend on the
fuel once there is more of it than there are queued entries. -/
theorem rideTryCarFuel_indep : ∀ (n m : Nat) (c : car) (s : State), queued s < n →
    queued s < m → rideTryCarFuel n c s = rideTryCarFuel m c s := by
  intro n
  induction n with
  | zero => intro m c s h; omega
  | succ n ih =>
    intro m c s hn hm
    cases m with
    | zero => omega
    | succ m =>
      simp only [rideTryCarFuel, bind, Except.bind]
      cases hstep : rideTryCarStep c s with
      | error e => rfl
      | ok p =>
        obtain ⟨s1, og⟩ := p
        cases og with
        | none => rfl
        | some g =>
          simp only
          have := rideTryCarStep_queued c s s1 g hstep
          exact ih m _ _ (by omega) (by omega)

/-- Whatever the state, `rideTryCarFuel` makes at most as many recursive
calls as there are queued entries. -/
theorem rematchCalls_le_queued : ∀ (n : Nat) (c : car) (s : State),
    rematchCalls n c s ≤ queued s := by
  intro n
  induction n with
  | zero => intro c s; simp [rematchCalls]
  | succ n ih =>
    intro c s
    simp only [rematchCalls]
    cases hstep : rideTryCarStep c s with
    | error e => simp
    | ok p =>
      obtain ⟨s1, og⟩ := p
      cases og with
      | none => simp
      | some g =>
        simp only
        have h1 := rideTryCarStep_queued c s s1 g hstep
        have h2 := ih (carAt s1.cars.m c.id) s1
        omega

/-- Whatever the state, when the entries of queue `k` all have `k + 1`
people, `rideTryCarFuel` makes at most as many recursive calls as the car has
seats available. -/
theorem rematchCalls_le_seats : ∀ (n : Nat) (c : car) (s : State),
    (∀ (k : Nat) (q : List group), s.groups.queues[k]? = some q →
      ∀ e ∈ q, e.people = (k : Int) + 1) →
    rematchCalls n c s ≤ c.seatsAvailable.toNat := by
  intro n
  induction n with
  | zero => intro c s _; simp [rematchCalls]
  | succ n ih =>
    intro c s hp
    simp only [rematchCalls]
    cases hstep : rideTryCarStep c s with
    | error e => simp
    | ok p =>
      obtain ⟨s1, og⟩ := p
      cases og with
      | none => simp
      | some g =>
        simp only
        rcases rideTryCarStep_any c s s1 _ hstep with ⟨e, _⟩ | ⟨g1, i, t, _, hi, hq, hr⟩
        · cases e
        · have hg := ride_groups _ _ _ _ hr
          have hc := ride_cars _ _ _ _ hr
          have hpr : ∀ (k : Nat) (q : List group),
              (pruneQueues s.groups.m s.groups.queues)[k]? = some q →
              ∀ e ∈ q, e.people = (k : Int) + 1 := by
            intro k q hk e he
            rw [prune_get] at hk
            cases h0 : s.groups.queues[k]? with
            | none => rw [h0] at hk; simp at hk
            | some q0 =>
              rw [h0] at hk; simp at hk; subst hk
              exact hp k q0 h0 e ((List.dropWhile_sublist _).subset he)
          have hg1 := hpr i _ hq g1 (List.mem_cons_self _ _)
          have h2 := ih (carAt s1.cars.m c.id) s1 (by
            intro k q hk e he
            rw [hg] at hk
            simp only at hk
            rw [set_get _ i k _ t hq] at hk
            by_cases ek : k = i
            · rw [if_pos ek] at hk
              have := Option.some.inj hk
              subst this
              rw [ek]
              exact hpr i _ hq e (List.mem_cons_of_mem _ he)
            · rw [if_neg ek] at hk
              exact hpr k q hk e he)
          have hcar : (carAt s1.cars.m c.id).seatsAvailable
              = c.seatsAvailable - g1.people := by
            rw [hc, carAt_mset]
          omega

/-- Whatever the state, a car without available seats gets nobody: the round
only prunes the queues. -/
theorem rideTryCarStep_no_seats (c : car) (s : State) (h : c.seatsAvailable ≤ 0) :
    rideTryCarStep c s = .ok (⟨s.cars, ⟨s.groups.groupsArrived, s.groups.m,
      pruneQueues s.groups.m s.groups.queues⟩⟩, none) := by
  have h0 : c.seatsAvailable.toNat = 0 := by omega
  simp only [rideTryCarStep, h0, selectGroup, bind, Except.bind]
  rfl
/-- Whatever the state, the group a round of `rideTryCar` seats is the head
of a pruned queue and is equal to the ledger entry under its id; the round
changes the ledger in the `idCar` of that entry only, keeps `groupsArrived`
and takes the head off that queue. -/
theorem rideTryCarStep_seat (c : car) (s s1 : State) (g : group)
    (h : rideTryCarStep c s = .ok (s1, some g)) :
    mget s.groups.m g.id = some g ∧
    s1.groups.m = mset s.groups.m g.id (⟨g.id, g.arrival, g.people, c.id⟩ : group) ∧
    s1.groups.groupsArrived = s.groups.groupsArrived ∧
    s1.cars.m = mset s.cars.m c.id (⟨c.id, c.seatsTotal, c.seatsAvailable - g.people⟩ : car) ∧
    ∃ (i : Nat) (t : List group), i < c.seatsAvailable.toNat ∧
      (pruneQueues s.groups.m s.groups.queues)[i]? = some (g :: t) ∧
      s1.groups.queues = (pruneQueues s.groups.m s.groups.queues).set i t := by
  rcases rideTryCarStep_any c s s1 _ h with ⟨e, _⟩ | ⟨g1, i, t, e, hi, hq, hr⟩
  · cases e
  · have e1 := Option.some.inj e
    subst e1
    have hg := ride_groups _ _ _ _ hr
    have hc := ride_cars _ _ _ _ hr
    have hlive : mget s.groups.m g.id = some g := by
      rw [prune_get] at hq
      cases h0 : s.groups.queues[i]? with
      | none => rw [h0] at hq; simp at hq
      | some q0 =>
        rw [h0] at hq; simp at hq
        have := dropWhile_head _ _ _ _ hq
        rw [← live_iff]; simpa using this
    refine ⟨hlive, by rw [hg], by rw [hg], hc, i, t, hi, hq, by rw [hg]⟩

/-- Whatever the state, a round of `rideTryCar` that seats nobody leaves the
cars and the ledger as they are. -/
theorem rideTryCarStep_none (c : car) (s s1 : State)
    (h : rideTryCarStep c s = .ok (s1, none)) :
    s1 = ⟨s.cars, ⟨s.groups.groupsArrived, s.groups.m,
      pruneQueues s.groups.m s.groups.queues⟩⟩ := by
  rcases rideTryCarStep_any c s s1 _ h with ⟨_, e⟩ | ⟨g1, i, t, e, _⟩
  · exact e
  · cases e

/-- Whatever the state, a run of `rideTryCar` keeps the keys of the ledger
and the id, arrival and people of every entry, and keeps `groupsArrived`. -/
theorem rematch_ledger (c : car) (s s1 : State) (h : Rematch c s s1) :
    s1.groups.groupsArrived = s.groups.groupsArrived ∧
    ∀ k, (mget s.groups.m k = none → mget s1.groups.m k = none) ∧
      ∀ v, mget s.groups.m k = some v → ∃ v1, mget s1.groups.m k = some v1 ∧
        v1.id = v.id ∧ v1.arrival = v.arrival ∧ v1.people = v.people := by
  induction h with
  | stop c s s1 hstep =>
    rw [rideTryCarStep_none c s s1 hstep]
    exact ⟨rfl, fun k => ⟨fun h => h, fun v hv => ⟨v, hv, rfl, rfl, rfl⟩⟩⟩
  | seat c s s1 s2 g hstep _ ih =>
    obtain ⟨hlive, hm, ha, _, _⟩ := rideTryCarStep_seat c s s1 g hstep
    refine ⟨by rw [ih.1, ha], ?_⟩
    intro k
    have hk : mget s1.groups.m k = if k = g.id
        then some (⟨g.id, g.arrival, g.people, c.id⟩ : group) else mget s.groups.m k := by
      rw [hm, mget_mset]
    constructor
    · intro hn
      apply (ih.2 k).1
      rw [hk]
      by_cases e : k = g.id
      · subst e; rw [hlive] at hn; cases hn
      · rw [if_neg e]; exact hn
    · intro v hv
      by_cases e : k = g.id
      · subst e
        rw [hlive] at hv
        have e1 := Option.some.inj hv
        subst e1
        obtain ⟨v1, h1, h2, h3, h4⟩ := (ih.2 g.id).2 _ (by rw [hk, if_pos rfl])
        exact ⟨v1, h1, h2, h3, h4⟩
      · exact (ih.2 k).2 v (by rw [hk, if_neg e]; exact hv)

/-- Whatever the state, `giveBack` leaves the group side as it is. -/
theorem giveBack_groups (g : group) (s s2 : State) (c1 : car)
    (h : giveBack g s = .ok (c1, s2)) : s2.groups = s.groups := by
  simp only [giveBack, bind, Except.bind] at h
  repeat' split at h
  all_goals first
    | (cases h; done)
    | (have e := Prod.mk.inj (Except.ok.inj h); rw [← e.2])

/-- Whatever the state, `loadCars` leaves the group side as it is. -/
theorem loadCars_groups (l : List carJSONAPI) : ∀ (s s1 : State),
    loadCars l s = .ok s1 → s1.groups = s.groups := by
  induction l with
  | nil => intro s s1 h; rw [← Except.ok.inj h]
  | cons cj rest ih =>
    intro s s1 h
    simp only [loadCars, bind, Except.bind] at h
    split at h
    · cases h
    · have := ih _ _ h
      exact this

/-- Whatever the state, a ride request of an unknown group that returns has
incremented `groupsArrived` (a Go increment, which wraps at `maxInt`), has
recorded the group with the new count as its arrival, and has left every
other ledger entry as it was. -/
theorem rideTryGroup_ledger (pick : Nat) (r : groupJSONAPI) (s s1 : State) (res : Int)
    (hnew : mget s.groups.m r.Id = none) (h : rideTryGroup pick r s = .ok (res, s1)) :
    s1.groups.groupsArrived = wrapInt (s.groups.groupsArrived + 1) ∧
    (∃ g, mget s1.groups.m r.Id = some g ∧ g.id = r.Id ∧
      g.arrival = wrapInt (s.groups.groupsArrived + 1) ∧ g.people = r.People) ∧
    ∀ k, k ≠ r.Id → mget s1.groups.m k = mget s.groups.m k := by
  simp only [rideTryGroup, hnew, bind, Except.bind] at h
  split at h
  · cases h
  · rename_i found hscan
    cases found with
    | some b =>
      simp only at h
      split at h
      · rename_i k c hb
        split at h
        · cases h
        · rename_i s2 hr
          have e := Prod.mk.inj (Except.ok.inj h)
          have hg := ride_groups _ _ _ _ hr
          rw [← e.2, hg]
          refine ⟨rfl, ⟨_, by rw [mget_mset, if_pos rfl], rfl, rfl, rfl⟩, ?_⟩
          intro k hk
          simp only [mget_mset, if_neg hk]
      · cases h
    | none =>
      simp only at h
      split at h
      · cases h
      · have e := Prod.mk.inj (Except.ok.inj h)
        rw [← e.2]
        refine ⟨rfl, ⟨_, by rw [mget_mset, if_pos rfl], rfl, rfl, rfl⟩, ?_⟩
        intro k hk
        simp only [mget_mset, if_neg hk]

/-- Whatever the state, a drop-off that returns keeps `groupsArrived`, adds
no key to the ledger, and keeps the id, arrival and people of every entry
other than the one it deletes. -/
theorem dropGroup_ledger (d : groupFORMAPI) (s s1 : State) (res : Int)
    (h : dropGroup d s = .ok (res, s1)) :
    s1.groups.groupsArrived = s.groups.groupsArrived ∧
    ∀ k, (mget s.groups.m k = none → mget s1.groups.m k = none) ∧
      ∀ v v1, mget s.groups.m k = some v → mget s1.groups.m k = some v1 →
        v1.id = v.id ∧ v1.arrival = v.arrival ∧ v1.people = v.people := by
  cases hk : mget s.groups.m d.Id with
  | none =>
    rw [dropGroup_unknown d s hk] at h
    have e := Prod.mk.inj (Except.ok.inj h)
    rw [← e.2]
    refine ⟨rfl, fun k => ⟨fun h => h, ?_⟩⟩
    intro v v1 h1 h2
    rw [h1] at h2
    have e1 := Option.some.inj h2
    subst e1
    exact ⟨rfl, rfl, rfl⟩
  | some g =>
    have hdel : ∀ k, (mget s.groups.m k = none → mget (mdel s.groups.m g.id) k = none) ∧
        ∀ v, mget (mdel s.groups.m g.id) k = some v → mget s.groups.m k = some v := by
      intro k
      rw [mget_mdel]
      by_cases e : k = g.id
      · simp [e]
      · simp [e]
    by_cases hpos : g.idCar > 0
    · simp only [dropGroup, hk, if_pos hpos, bind, Except.bind] at h
      split at h
      · cases h
      · rename_i p hgb
        obtain ⟨c1, s2⟩ := p
        simp only at h
        split at h
        · cases h
        · rename_i s3 hr
          have e := Prod.mk.inj (Except.ok.inj h)
          rw [← e.2]
          have hg2 := giveBack_groups _ _ _ _ hgb
          have L := rematch_ledger _ _ _ (rideTryCarFuel_rematch _ _ _ _ hr)
          rw [hg2] at L
          refine ⟨L.1, ?_⟩
          intro k
          constructor
          · intro hn
            exact (L.2 k).1 ((hdel k).1 hn)
          · intro v v1 h1 h2
            cases h0 : mget (mdel s.groups.m g.id) k with
            | none =>
              have := (L.2 k).1 h0
              rw [this] at h2; cases h2
            | some v0 =>
              have e0 := (hdel k).2 v0 h0
              rw [h1] at e0
              have e1 := Option.some.inj e0
              subst e1
              obtain ⟨v2, h3, h4⟩ := (L.2 k).2 _ h0
              rw [h2] at h3
              have e2 := Option.some.inj h3
              subst e2
              exact h4
    · rw [dropGroup_waiting d s g hk hpos] at h
      have e := Prod.mk.inj (Except.ok.inj h)
      rw [← e.2]
      refine ⟨rfl, fun k => ⟨(hdel k).1, ?_⟩⟩
      intro v v1 h1 h2
      have := (hdel k).2 v1 h2
      rw [h1] at this
      have e1 := Option.some.inj this
      subst e1
      exact ⟨rfl, rfl, rfl⟩
/-! ## Calls of the rematch and of `ride` -/

/-- A call of `rideTryCar` returns, with the guarantees of `RematchPost`. -/
theorem rematchCall_run (c : car) (s : State) (h : RematchCall c s) :
    ∃ s1, rideTryCar c s = .ok s1 ∧ RematchPost c s s1 := by
  obtain ⟨hI, hc⟩ := rematchCall_inv c s h
  obtain ⟨s1, hr⟩ := rideTryCarFuel_ok (queued s + 1) c s hI hc (by omega)
  exact ⟨s1, hr, rematch_post c s s1 (rideTryCarFuel_rematch _ _ _ _ hr) hI hc⟩

/-- A group that waits after a run of `rideTryCar` waited before it, with
the same ledger entry. -/
theorem rematchPost_waiting_back (c : car) (s s1 : State) (P : RematchPost c s s1)
    (hc : c.id ≠ 0) (k : Int) (w : group) (hw : mget s1.groups.m k = some w)
    (hw0 : w.idCar = 0) : mget s.groups.m k = some w := by
  cases h0 : mget s.groups.m k with
  | none => rw [P.absent k h0] at hw; cases hw
  | some g0 =>
    by_cases hg : g0.idCar = 0
    · rcases P.waiting k g0 h0 hg with h1 | h1
      · rw [hw] at h1; exact h1.symm
      · rw [hw] at h1
        have e := Option.some.inj h1
        rw [e] at hw0
        exact absurd hw0 hc
    · have h1 := P.traveling k g0 h0 hg
      rw [hw] at h1
      have e := Option.some.inj h1
      rw [e] at hw0
      exact absurd hw0 hg

/-- The car and the bucket a ride request of a new group picks: the bucket
the scan yields is the first non-empty one from `people - 1` on, the car
picked in it is registered with as many seats available as the bucket says,
and `rideTryGroup` returns 0 with the state `ride` returns for that car. -/
theorem rideTryGroup_pick (pick : Nat) (r : groupJSONAPI) (s : State) (hI : Inv none s)
    (hv1 : 1 ≤ r.People) (hv6 : r.People ≤ 6) (hnew : mget s.groups.m r.Id = none)
    (b : Map car) (k : Int) (c : car)
    (hscan : scanPools s.cars.pools ((s.cars.pools.length : Int) - (r.People - 1)).toNat
      (r.People - 1) = .ok (some b))
    (hb : b[pick % b.length]? = some (k, c)) :
    mget s.cars.m c.id = some c ∧ k = c.id ∧ r.People ≤ c.seatsAvailable ∧
    (∃ j : Nat, s.cars.pools[j]? = some b ∧ c.seatsAvailable = (j : Int) + 1 ∧
      ∀ i : Nat, r.People - 1 ≤ (i : Int) → i < j → s.cars.pools[i]? = some []) ∧
    ∃ s1, ride c ⟨r.Id, wrapInt (s.groups.groupsArrived + 1), r.People, 0⟩
        ⟨s.cars, ⟨wrapInt (s.groups.groupsArrived + 1),
          mset s.groups.m r.Id ⟨r.Id, wrapInt (s.groups.groupsArrived + 1), r.People, 0⟩,
          s.groups.queues⟩⟩ = .ok s1 ∧
      rideTryGroup pick r s = .ok (0, s1) := by
  have hl := hI.cars.poolsLen
  have hn : (((r.People - 1).toNat : Nat) : Int) = r.People - 1 := by omega
  have hf : ((s.cars.pools.length : Int) - (r.People - 1)).toNat = 6 - (r.People - 1).toNat := by
    omega
  rcases scanPools_spec s.cars.pools (6 - (r.People - 1).toNat) (r.People - 1).toNat (by omega)
    with ⟨j, b1, h1, h2, h3, h4, h5⟩ | ⟨h1, _⟩
  · rw [hn, ← hf, hscan] at h1
    have eb : b = b1 := Option.some.inj (Except.ok.inj h1)
    subst eb
    have hmem : (k, c) ∈ b := by
      obtain ⟨hlt, hget⟩ := List.getElem?_eq_some.mp hb
      rw [← hget]; exact List.getElem_mem _
    have hgetb : mget b k = some c := mget_of_mem b k c (hI.cars.poolsNodup j b h3) hmem
    have hcar := (hI.cars.poolsOk j b h3 k c).mp hgetb
    have hcid := (hI.cars.carsOk k c hcar.1).1
    subst hcid
    obtain ⟨pools2, hr, _⟩ := ride_ok c
      (⟨r.Id, wrapInt (s.groups.groupsArrived + 1), r.People, 0⟩ : group)
      ⟨s.cars, ⟨wrapInt (s.groups.groupsArrived + 1),
        mset s.groups.m r.Id (⟨r.Id, wrapInt (s.groups.groupsArrived + 1), r.People, 0⟩ : group),
        s.groups.queues⟩⟩ hI.cars hcar.1 hv1 (by simp only; omega)
    refine ⟨hcar.1, rfl, by omega, ⟨j, h3, hcar.2, ?_⟩, _, hr, ?_⟩
    · intro i hi1 hi2
      exact h5 i (by omega) hi2
    · simp only [rideTryGroup, hnew, hscan, bind, Except.bind, hb, hr]
  · rw [hn, ← hf, hscan] at h1
    cases h1

/-- Every call of `ride` is made with a registered car and a group of at
least one person that fits the seats available, and it returns. -/
theorem rideCall_fits (c : car) (g : group) (s : State) (h : RideCall c g s) :
    mget s.cars.m c.id = some c ∧ 1 ≤ g.people ∧ g.people ≤ c.seatsAvailable ∧
    ∃ s1, ride c g s = .ok s1 := by
  cases h with
  | request s0 pick r b k c hR hv hnew hscan hb =>
    obtain ⟨h1, _, h3, _, s1, hr, _⟩ := rideTryGroup_pick pick r s0 (reachable_inv s0 hR)
      hv.2.1 hv.2.2 hnew b k c hscan hb
    exact ⟨h1, hv.2.1, h3, s1, hr⟩
  | rematch c s0 g i t hC hsel hq =>
    obtain ⟨hI, hc⟩ := rematchCall_inv c s0 hC
    rcases rideTryCarStep_spec c s0 hI hc with ⟨h1, _⟩ |
      ⟨g1, t1, s1, h1, _, hlive, _, hfit, _, _, _, _⟩
    · simp only [rideTryCarStep, hsel, bind, Except.bind] at h1
      have hpos : (i : Int) ≥ 0 := by omega
      rw [if_pos hpos, idx_nat _ i _ hq] at h1
      simp only [popHead, updIdx_nat _ i _ _ hq] at h1
      split at h1
      · cases h1
      · cases h1
    · simp only [rideTryCarStep, hsel, bind, Except.bind] at h1
      have hpos : (i : Int) ≥ 0 := by omega
      rw [if_pos hpos, idx_nat _ i _ hq] at h1
      simp only [popHead, updIdx_nat _ i _ _ hq] at h1
      split at h1
      · cases h1
      · rename_i s3 hr
        have e := Prod.mk.inj (Except.ok.inj h1)
        have eg : g = g1 := Option.some.inj e.2
        subst eg
        have hp := (hI.groupsOk _ _ hlive).2.2.1
        exact ⟨hc, hp, hfit, s3, hr⟩
/-! ## More on reachable states -/

/-- A request other than a fleet load, in a reachable state, keeps the ids
of the cars and the id and total seats of every car. -/
theorem step_cars (s s1 : State) (hR : Reachable s) (h : Step s s1) :
    ∀ k, (mget s.cars.m k = none → mget s1.cars.m k = none) ∧
      ∀ c, mget s.cars.m k = some c →
        ∃ c1, mget s1.cars.m k = some c1 ∧ c1.id = c.id ∧ c1.seatsTotal = c.seatsTotal := by
  have hI := reachable_inv s hR
  have same : ∀ k, (mget s.cars.m k = none → mget s.cars.m k = none) ∧
      ∀ c, mget s.cars.m k = some c →
        ∃ c1, mget s.cars.m k = some c1 ∧ c1.id = c.id ∧ c1.seatsTotal = c.seatsTotal :=
    fun k => ⟨fun h => h, fun c hc => ⟨c, hc, rfl, rfl⟩⟩
  have upd : ∀ (c : car) (a : Int), mget s.cars.m c.id = some c →
      ∀ k, (mget s.cars.m k = none →
          mget (mset s.cars.m c.id (⟨c.id, c.seatsTotal, a⟩ : car)) k = none) ∧
        ∀ c0, mget s.cars.m k = some c0 →
          ∃ c1, mget (mset s.cars.m c.id (⟨c.id, c.seatsTotal, a⟩ : car)) k = some c1 ∧
            c1.id = c0.id ∧ c1.seatsTotal = c0.seatsTotal := by
    intro c a hc k
    rw [mget_mset]
    by_cases e : k = c.id
    · subst e
      rw [if_pos rfl]
      constructor
      · intro hn; rw [hn] at hc; cases hc
      · intro c0 hc0
        rw [hc] at hc0
        have e0 := Option.some.inj hc0
        subst e0
        exact ⟨_, rfl, rfl, rfl⟩
    · rw [if_neg e]
      exact ⟨fun h => h, fun c0 hc0 => ⟨c0, hc0, rfl, rfl⟩⟩
  cases h with
  | journey _ pick r res hv hr =>
    cases hk : mget s.groups.m r.Id with
    | some g =>
      rw [rideTryGroup_known pick r s g hk] at hr
      rw [← (Prod.mk.inj (Except.ok.inj hr)).2]; exact same
    | none =>
      rcases rideTryGroup_new pick r s hI (reachable_bound s hR) hv.2.1 hv.2.2 hk with
        ⟨c, s2, h1, _, hc, _, _, hm, _⟩ | ⟨_, s2, q, h1, _, hcars, _⟩
      · rw [h1] at hr
        rw [← (Prod.mk.inj (Except.ok.inj hr)).2, hm]
        exact upd c _ hc
      · rw [h1] at hr
        rw [← (Prod.mk.inj (Except.ok.inj hr)).2, hcars]; exact same
  | dropoff _ d res hr =>
    cases hk : mget s.groups.m d.Id with
    | none =>
      rw [dropGroup_unknown d s hk] at hr
      rw [← (Prod.mk.inj (Except.ok.inj hr)).2]; exact same
    | some g =>
      by_cases hpos : g.idCar > 0
      · obtain ⟨c, pools2, s3, hc, hcid, _, hI2, _, hrm, h1⟩ :=
          dropGroup_traveling d s g hI hk hpos
        rw [h1] at hr
        rw [← (Prod.mk.inj (Except.ok.inj hr)).2]
        have P := rematch_post _ _ _ hrm hI2 (by simp [mget_mset])
        have hc2 : mget s.cars.m c.id = some c := by rw [hcid]; exact hc
        intro k
        have U := upd c (c.seatsAvailable + g.people) hc2 k
        by_cases e : k = c.id
        · subst e
          obtain ⟨c1, e1, e2, e3⟩ := P.carKept
          simp only at e1 e2 e3
          constructor
          · intro hn; rw [hn] at hc2; cases hc2
          · intro c0 hc0
            rw [hc2] at hc0
            have e0 := Option.some.inj hc0
            subst e0
            exact ⟨c1, e1, e2, e3⟩
        · have F := P.carsFrame k e
          simp only at F
          rw [F]
          exact U
      · rw [dropGroup_waiting d s g hk hpos] at hr
        rw [← (Prod.mk.inj (Except.ok.inj hr)).2]; exact same
  | locate d =>
    rw [locateGroup_state]; exact same

/-- In a reachable state no operation on valid input panics or runs out of
fuel: a fleet load, a ride request and a drop-off all return. -/
theorem reachable_progress (s : State) (hR : Reachable s) :
    (∀ l, validFleet l → ∃ s1, putCars l s = .ok s1) ∧
    (∀ pick r, validRequest r → ∃ res s1, rideTryGroup pick r s = .ok (res, s1)) ∧
    (∀ d, ∃ res s1, dropGroup d s = .ok (res, s1)) := by
  have hI := reachable_inv s hR
  refine ⟨?_, ?_, ?_⟩
  · intro l hv
    obtain ⟨s1, h1, _⟩ := loadCars_inv l resetState inv_resetState rfl hv.1 (by
      intro c hc
      have := hv.2 c hc
      exact ⟨this.1, this.2.1, this.2.2, rfl⟩)
    exact ⟨s1, h1⟩
  · intro pick r hv
    cases hk : mget s.groups.m r.Id with
    | some g => exact ⟨-1, s, rideTryGroup_known pick r s g hk⟩
    | none =>
      rcases rideTryGroup_new pick r s hI (reachable_bound s hR) hv.2.1 hv.2.2 hk with
        ⟨c, s2, h1, _⟩ | ⟨_, s2, q, h1, _⟩
      · exact ⟨0, s2, h1⟩
      · exact ⟨1, s2, h1⟩
  · intro d
    cases hk : mget s.groups.m d.Id with
    | none => exact ⟨-1, s, dropGroup_unknown d s hk⟩
    | some g =>
      by_cases hpos : g.idCar > 0
      · obtain ⟨c, pools2, s3, _, _, _, _, _, _, h1⟩ := dropGroup_traveling d s g hI hk hpos
        exact ⟨0, s3, h1⟩
      · exact ⟨1, _, dropGroup_waiting d s g hk hpos⟩

/-- In every reachable state no waiting group fits any car. -/
theorem reachable_noFit (s : State) (h : Reachable s) : NoFit s := by
  induction h with
  | init =>
    intro k g kc c hg
    simp [resetState, mget] at hg
  | load prior s l _ hv hr _ =>
    have hg := loadCars_groups l resetState s hr
    intro k g kc c hk
    rw [hg] at hk
    simp [resetState, mget] at hk
  | journey s s1 pick r res hR hv hr _ ih =>
    have hI := reachable_inv s hR
    cases hk : mget s.groups.m r.Id with
    | some g =>
      rw [rideTryGroup_known pick r s g hk] at hr
      rw [← (Prod.mk.inj (Except.ok.inj hr)).2]; exact ih
    | none =>
      rcases rideTryGroup_new pick r s hI (reachable_bound s hR) hv.2.1 hv.2.2 hk with
        ⟨c, s2, h1, _, hc, _, _, hm, hg⟩ | ⟨hno, s2, q, h1, _, hcars, _, hg⟩
      · rw [h1] at hr
        rw [← (Prod.mk.inj (Except.ok.inj hr)).2]
        have hcpos := (hI.cars.carsOk _ _ hc).2.1
        intro k w kc cc hw hw0 hcc
        rw [hg] at hw
        simp only [mget_mset] at hw
        by_cases e : k = r.Id
        · rw [if_pos e] at hw
          have := Option.some.inj hw
          rw [← this] at hw0
          simp only at hw0
          omega
        · rw [if_neg e] at hw
          rw [hm, mget_mset] at hcc
          by_cases e2 : kc = c.id
          · rw [if_pos e2] at hcc
            have := Option.some.inj hcc
            rw [← this]
            simp only
            have := ih k w c.id c hw hw0 hc
            have := hv.2.1
            omega
          · rw [if_neg e2] at hcc
            exact ih k w kc cc hw hw0 hcc
      · rw [h1] at hr
        rw [← (Prod.mk.inj (Except.ok.inj hr)).2]
        intro k w kc cc hw hw0 hcc
        rw [hcars] at hcc
        rw [hg] at hw
        simp only [mget_mset] at hw
        by_cases e : k = r.Id
        · rw [if_pos e] at hw
          have := Option.some.inj hw
          rw [← this]
          exact hno kc cc hcc
        · rw [if_neg e] at hw
          exact ih k w kc cc hw hw0 hcc
  | dropoff s s1 d res hR hr ih =>
    have hI := reachable_inv s hR
    cases hk : mget s.groups.m d.Id with
    | none =>
      rw [dropGroup_unknown d s hk] at hr
      rw [← (Prod.mk.inj (Except.ok.inj hr)).2]; exact ih
    | some g =>
      have hsub : ∀ k v, mget (mdel s.groups.m g.id) k = some v → mget s.groups.m k = some v := by
        intro k v h
        rw [mget_mdel] at h
        by_cases e : k = g.id
        · rw [if_pos e] at h; cases h
        · rw [if_neg e] at h; exact h
      by_cases hpos : g.idCar > 0
      · obtain ⟨c, pools2, s3, hc, hcid, _, hI2, _, hrm, h1⟩ :=
          dropGroup_traveling d s g hI hk hpos
        rw [h1] at hr
        rw [← (Prod.mk.inj (Except.ok.inj hr)).2]
        have P := rematch_post _ _ _ hrm hI2 (by simp [mget_mset])
        have hcpos := (hI.cars.carsOk _ _ hc).2.1
        intro k w kc cc hw hw0 hcc
        by_cases e : kc = c.id
        · have F := P.full k w hw hw0
          simp only at F
          rw [e] at hcc
          rw [carAt_of_mget _ _ _ hcc] at F
          exact F
        · have F := P.carsFrame kc e
          simp only [mget_mset, if_neg e] at F
          rw [F] at hcc
          have hw2 := rematchPost_waiting_back _ _ _ P (by simp only; omega) k w hw hw0
          exact ih k w kc cc (hsub k w hw2) hw0 hcc
      · rw [dropGroup_waiting d s g hk hpos] at hr
        rw [← (Prod.mk.inj (Except.ok.inj hr)).2]
        intro k w kc cc hw hw0 hcc
        exact ih k w kc cc (hsub k w hw) hw0 hcc
  | locate s d _ ih =>
    rw [locateGroup_state]; exact ih

/-- Whatever the state, an id that is not in the ledger stays out of it as
long as no ride request is made for it. -/
theorem quiet_absent (k : Int) (s s1 : State) (h : Quiet k s s1)
    (hk : mget s.groups.m k = none) : mget s1.groups.m k = none := by
  induction h with
  | refl => exact hk
  | load s1 s2 l _ hr _ =>
    have hg := loadCars_groups l resetState s2 hr
    rw [hg]; rfl
  | journey s1 s2 pick r res _ hne hr ih =>
    cases h0 : mget s1.groups.m r.Id with
    | some g =>
      rw [rideTryGroup_known pick r s1 g h0] at hr
      rw [← (Prod.mk.inj (Except.ok.inj hr)).2]; exact ih
    | none =>
      have L := rideTryGroup_ledger pick r s1 s2 res h0 hr
      rw [L.2.2 k (fun e => hne e.symm)]; exact ih
  | dropoff s1 s2 d res _ hr ih =>
    exact ((dropGroup_ledger d s1 s2 res hr).2 k).1 ih
  | locate s1 d _ ih =>
    rw [locateGroup_state]; exact ih

/-- In a reachable state, after a drop-off that returns, the id dropped is
not in the ledger. -/
theorem dropGroup_removes (s s1 : State) (d : groupFORMAPI) (res : Int) (hR : Reachable s)
    (hr : dropGroup d s = .ok (res, s1)) : mget s1.groups.m d.Id = none := by
  have hI := reachable_inv s hR
  cases hk : mget s.groups.m d.Id with
  | none => exact ((dropGroup_ledger d s s1 res hr).2 d.Id).1 hk
  | some g =>
    have hid := (hI.groupsOk _ _ hk).1
    by_cases hpos : g.idCar > 0
    · obtain ⟨c, pools2, s3, _, _, _, hI2, _, hrm, h1⟩ := dropGroup_traveling d s g hI hk hpos
      rw [h1] at hr
      rw [← (Prod.mk.inj (Except.ok.inj hr)).2]
      have P := rematch_post _ _ _ hrm hI2 (by simp [mget_mset])
      apply P.absent
      simp only [mget_mdel, hid, if_true]
    · rw [dropGroup_waiting d s g hk hpos] at hr
      rw [← (Prod.mk.inj (Except.ok.inj hr)).2]
      simp only [mget_mdel, hid, if_true]
theorem demoStale_reachable : Reachable demoStale :=
  Reachable.dropoff demo2 demoStale ⟨2⟩ 1 demo2_reachable (by decide)

theorem demoAgain_reachable : Reachable demoAgain :=
  Reachable.journey demoStale demoAgain 0 ⟨2, 1⟩ 1 demoStale_reachable (by decide) (by decide)
    (by decide)

theorem demoCallStale_call : RematchCall ⟨1, 4, 4⟩ demoCallStale :=
  RematchCall.first demoAgain ⟨1⟩ ⟨1, 1, 4, 1⟩ ⟨1, 4, 4⟩ demoCallStale
    demoAgain_reachable (by decide) (by decide) (by decide)

theorem demoAfter_reachable : Reachable demoAfter :=
  Reachable.dropoff demoAgain demoAfter ⟨1⟩ 0 demoAgain_reachable (by decide)

/-! ## Further claims -/

/-- C11, the scenario of the specification: after `resetState` and the load
of `[{id: 1, seats: 4}]`, the request of group 1 for 4 people returns 0 and
car 1 has 0 seats available; the request of group 2 for 1 person returns 1;
the drop-off of group 1 returns 0, after which group 2 has `idCar = 1` and
car 1 has 3 seats available; locating group 2 returns 1. This holds whatever
the prior state and the iteration order. -/
theorem spec_scenario (prior : State) (p1 p2 : Nat) :
    putCars [⟨1, 4⟩] prior = .ok demo0 ∧
    rideTryGroup p1 ⟨1, 4⟩ demo0 = .ok (0, demo1) ∧
    mget demo1.cars.m 1 = some ⟨1, 4, 0⟩ ∧
    rideTryGroup p2 ⟨2, 1⟩ demo1 = .ok (1, demo2) ∧
    dropGroup ⟨1⟩ demo2 = .ok (0, demo3) ∧
    mget demo3.groups.m 2 = some ⟨2, 2, 1, 1⟩ ∧
    mget demo3.cars.m 1 = some ⟨1, 4, 3⟩ ∧
    (locateGroup ⟨2⟩ demo3).1 = 1 := by
  refine ⟨rfl, ?_, by decide, ?_, by decide, by decide, by decide, by decide⟩
  · obtain ⟨_, _, _, _, s1, hr, h⟩ := rideTryGroup_pick p1 ⟨1, 4⟩ demo0
      (reachable_inv _ demo0_reachable) (by decide) (by decide) (by decide)
      [(1, ⟨1, 4, 4⟩)] 1 ⟨1, 4, 4⟩ (by decide) (by simp [Nat.mod_one])
    have e : ride ⟨1, 4, 4⟩ ⟨1, demo0.groups.groupsArrived + 1, 4, 0⟩
        ⟨demo0.cars, ⟨demo0.groups.groupsArrived + 1,
          mset demo0.groups.m 1 ⟨1, demo0.groups.groupsArrived + 1, 4, 0⟩,
          demo0.groups.queues⟩⟩ = .ok demo1 := by decide
    rw [h]
    have e2 : (Except.ok s1 : Except Fault State) = Except.ok demo1 := by
      rw [← hr]; exact e
    rw [Except.ok.inj e2]
  · rfl
/-- C12, arrival sequence numbers. In every state whose counter is a Go
`int` below `maxInt`, among them every reachable state, a ride request of an
unknown id that returns has advanced `groupsArrived` by exactly one and has
recorded the group with the new count as its arrival; with the counter at
`maxInt` the Go increment wraps, and the new count and arrival are `minInt`.
Whatever the state: a request of a known id returns -1 with the state,
counter included, as it was; and no operation changes the arrival of a ledger
entry that is still there afterwards (`rideTryGroup`, `dropGroup`,
`rideTryCar`, `ride` called with the ledger entry of the group, `loadCars`,
`locateGroup`). In every reachable state the counter lies in `0..maxInt - 1`
and the arrivals of the ledger groups lie in `1..groupsArrived` and are
pairwise distinct. -/
theorem arrival_numbers :
    (∀ (s s1 : State) (pick : Nat) (r : groupJSONAPI) (res : Int),
      mget s.groups.m r.Id = none → rideTryGroup pick r s = .ok (res, s1) →
      minInt ≤ s.groups.groupsArrived → s.groups.groupsArrived < maxInt →
      s1.groups.groupsArrived = s.groups.groupsArrived + 1 ∧
        ∃ g, mget s1.groups.m r.Id = some g ∧ g.arrival = s.groups.groupsArrived + 1) ∧
    (∀ (s s1 : State) (pick : Nat) (r : groupJSONAPI) (res : Int),
      mget s.groups.m r.Id = none → rideTryGroup pick r s = .ok (res, s1) →
      s.groups.groupsArrived = maxInt →
      s1.groups.groupsArrived = minInt ∧
        ∃ g, mget s1.groups.m r.Id = some g ∧ g.arrival = minInt) ∧
    (∀ (s : State) (pick : Nat) (r : groupJSONAPI) (g : group),
      mget s.groups.m r.Id = some g → rideTryGroup pick r s = .ok (-1, s)) ∧
    (∀ (s s1 : State) (pick : Nat) (r : groupJSONAPI) (res : Int) (k : Int) (v v1 : group),
      rideTryGroup pick r s = .ok (res, s1) → mget s.groups.m k = some v →
      mget s1.groups.m k = some v1 → v1.arrival = v.arrival) ∧
    (∀ (s s1 : State) (d : groupFORMAPI) (res : Int) (k : Int) (v v1 : group),
      dropGroup d s = .ok (res, s1) → mget s.groups.m k = some v →
      mget s1.groups.m k = some v1 →
      v1.arrival = v.arrival ∧ s1.groups.groupsArrived = s.groups.groupsArrived) ∧
    (∀ (c : car) (s s1 : State) (k : Int) (v v1 : group),
      rideTryCar c s = .ok s1 → mget s.groups.m k = some v →
      mget s1.groups.m k = some v1 → v1.arrival = v.arrival) ∧
    (∀ (c : car) (g : group) (s s1 : State) (k : Int) (v v1 : group),
      mget s.groups.m g.id = some g → ride c g s = .ok s1 → mget s.groups.m k = some v →
      mget s1.groups.m k = some v1 → v1.arrival = v.arrival) ∧
    (∀ (l : List carJSONAPI) (s s1 : State), loadCars l s = .ok s1 → s1.groups = s.groups) ∧
    (∀ (d : groupFORMAPI) (s : State), (locateGroup d s).2 = s) ∧
    (∀ s : State, Reachable s →
      (0 ≤ s.groups.groupsArrived ∧ s.groups.groupsArrived < maxInt) ∧
      (∀ k g, mget s.groups.m k = some g →
        1 ≤ g.arrival ∧ g.arrival ≤ s.groups.groupsArrived) ∧
      ∀ k1 g1 k2 g2, mget s.groups.m k1 = some g1 → mget s.groups.m k2 = some g2 →
        k1 ≠ k2 → g1.arrival ≠ g2.arrival) := by
  refine ⟨?_, ?_, ?_, ?_, ?_, ?_, ?_, loadCars_groups, locateGroup_state, ?_⟩
  · intro s s1 pick r res hnew hr hlo hhi
    obtain ⟨h1, ⟨g, h2, _, h3, _⟩, _⟩ := rideTryGroup_ledger pick r s s1 res hnew hr
    have hw := wrapInt_succ s.groups.groupsArrived (by omega) hhi
    rw [hw] at h1 h3
    exact ⟨h1, g, h2, h3⟩
  · intro s s1 pick r res hnew hr hmax
    obtain ⟨h1, ⟨g, h2, _, h3, _⟩, _⟩ := rideTryGroup_ledger pick r s s1 res hnew hr
    rw [hmax, wrapInt_maxInt] at h1 h3
    exact ⟨h1, g, h2, h3⟩
  · intro s pick r g hg
    exact rideTryGroup_known pick r s g hg
  · intro s s1 pick r res k v v1 hr hv hv1
    cases hk : mget s.groups.m r.Id with
    | some g =>
      rw [rideTryGroup_known pick r s g hk] at hr
      rw [← (Prod.mk.inj (Except.ok.inj hr)).2, hv] at hv1
      rw [Option.some.inj hv1]
    | none =>
      have L := rideTryGroup_ledger pick r s s1 res hk hr
      have hne : k ≠ r.Id := by
        intro e; rw [e, hk] at hv; cases hv
      rw [L.2.2 k hne, hv] at hv1
      rw [Option.some.inj hv1]
  · intro s s1 d res k v v1 hr hv hv1
    have L := dropGroup_ledger d s s1 res hr
    exact ⟨((L.2 k).2 v v1 hv hv1).2.1, L.1⟩
  · intro c s s1 k v v1 hr hv hv1
    have L := rematch_ledger c s s1 (rideTryCarFuel_rematch _ _ _ _ hr)
    obtain ⟨v2, h2, _, h3, _⟩ := (L.2 k).2 v hv
    rw [hv1] at h2
    rw [Option.some.inj h2]; exact h3
  · intro c g s s1 k v v1 hg hr hv hv1
    have G := ride_groups c g s s1 hr
    rw [G] at hv1
    simp only [mget_mset] at hv1
    by_cases e : k = g.id
    · rw [if_pos e] at hv1
      rw [e, hg] at hv
      rw [← Option.some.inj hv1, ← Option.some.inj hv]
    · rw [if_neg e, hv] at hv1
      rw [Option.some.inj hv1]
  · intro s hR
    have hI := reachable_inv s hR
    refine ⟨⟨hI.arrivedNonneg, reachable_bound s hR⟩, ?_, ?_⟩
    · intro k g hg
      have := hI.groupsOk k g hg
      exact ⟨this.2.2.2.2.1, this.2.2.2.2.2.1⟩
    · intro k1 g1 k2 g2 h1 h2 hne ha
      exact hne (hI.arrivalInj k1 g1 k2 g2 h1 h2 ha)

theorem arrival_numbers_witness :
    (demo2.groups.groupsArrived = demo1.groups.groupsArrived + 1 ∧
      ∃ g, mget demo2.groups.m 2 = some g ∧ g.arrival = demo1.groups.groupsArrived + 1) ∧
    (demoWrapped.groups.groupsArrived = minInt ∧
      ∃ g, mget demoWrapped.groups.m 1 = some g ∧ g.arrival = minInt) ∧
    ((⟨2, 2, 1, 1⟩ : group).arrival = (⟨2, 2, 1, 0⟩ : group).arrival ∧
      demo3.groups.groupsArrived = demo2.groups.groupsArrived) ∧
    ((1 : Int) ≠ 2 → (⟨1, 1, 4, 1⟩ : group).arrival ≠ (⟨2, 2, 1, 0⟩ : group).arrival) :=
  ⟨arrival_numbers.1 demo1 demo2 0 ⟨2, 1⟩ 1 (by decide) (by decide) (by decide) (by decide),
    arrival_numbers.2.1 demoLast demoWrapped 0 ⟨1, 4⟩ 0 (by decide) (by decide) (by decide),
    arrival_numbers.2.2.2.2.1 demo2 demo3 ⟨1⟩ 0 2 ⟨2, 2, 1, 0⟩ ⟨2, 2, 1, 1⟩ (by decide)
      (by decide) (by decide),
    (arrival_numbers.2.2.2.2.2.2.2.2.2 demo2 demo2_reachable).2.2 1 ⟨1, 1, 4, 1⟩ 2
      ⟨2, 2, 1, 0⟩ (by decide) (by decide)⟩

/-- C13, car seat bounds: in every reachable state every car has
`0 ≤ seatsAvailable ≤ seatsTotal`; a request other than a fleet load, in a
reachable state, keeps the ids of the cars and the `seatsTotal` of every
car; and every call of `ride`, from `rideTryGroup` in a reachable state or
from a round of `rideTryCar`, is made with a car of `cars.m` and a group with
`people ≤ seatsAvailable` of that car. -/
theorem seat_bounds :
    (∀ s : State, Reachable s → ∀ k c, mget s.cars.m k = some c →
      0 ≤ c.seatsAvailable ∧ c.seatsAvailable ≤ c.seatsTotal) ∧
    (∀ s s1 : State, Reachable s → Step s s1 →
      ∀ k, (mget s.cars.m k = none → mget s1.cars.m k = none) ∧
        ∀ c, mget s.cars.m k = some c →
          ∃ c1, mget s1.cars.m k = some c1 ∧ c1.seatsTotal = c.seatsTotal) ∧
    (∀ (c : car) (g : group) (s : State), RideCall c g s →
      mget s.cars.m c.id = some c ∧ g.people ≤ c.seatsAvailable) := by
  refine ⟨?_, ?_, ?_⟩
  · intro s hR k c hc
    have := (reachable_inv s hR).cars.carsOk k c hc
    exact ⟨this.2.2.2.2.1, this.2.2.2.2.2⟩
  · intro s s1 hR hS k
    have := step_cars s s1 hR hS k
    refine ⟨this.1, ?_⟩
    intro c hc
    obtain ⟨c1, h1, _, h2⟩ := this.2 c hc
    exact ⟨c1, h1, h2⟩
  · intro c g s h
    have := rideCall_fits c g s h
    exact ⟨this.1, this.2.2.1⟩

theorem seat_bounds_witness :
    ((0 : Int) ≤ (⟨1, 4, 3⟩ : car).seatsAvailable ∧
      (⟨1, 4, 3⟩ : car).seatsAvailable ≤ (⟨1, 4, 3⟩ : car).seatsTotal) ∧
    (∃ c1, mget demo3.cars.m 1 = some c1 ∧ c1.seatsTotal = (⟨1, 4, 0⟩ : car).seatsTotal) ∧
    (mget demo0.cars.m (⟨1, 4, 4⟩ : car).id = some ⟨1, 4, 4⟩ ∧
      (4 : Int) ≤ (⟨1, 4, 4⟩ : car).seatsAvailable) := by
  have hcall := RideCall.request demo0 0 ⟨1, 4⟩ [(1, ⟨1, 4, 4⟩)] 1 ⟨1, 4, 4⟩ demo0_reachable
    (by decide) (by decide) (by decide) (by decide)
  exact ⟨seat_bounds.1 demo3 demo3_reachable 1 ⟨1, 4, 3⟩ (by decide),
    ((seat_bounds.2.1 demo2 demo3 demo2_reachable
      (Step.dropoff demo2 demo3 ⟨1⟩ 0 (by decide))) 1).2 ⟨1, 4, 0⟩ (by decide),
    seat_bounds.2.2 _ _ _ hcall⟩
/-- C14, car selection scans the buckets upward: in a reachable state, when
`rideTryGroup` seats a new group of `p` people (returns 0), the car `c` it is
seated in comes from the lowest-indexed non-empty pool bucket with index at
least `p - 1`: bucket `j` holds `c`, `c.seatsAvailable = j + 1`, the buckets
from `p - 1` to `j - 1` are empty, and no car with at least `p` seats
available has fewer seats available than `c`. Which car of the bucket is taken
is arbitrary: for every car of bucket `j` some iteration order seats the
group in it. -/
theorem car_selection (s : State) (hR : Reachable s) (pick : Nat) (r : groupJSONAPI)
    (s1 : State) (hnew : mget s.groups.m r.Id = none) (h1 : 1 ≤ r.People)
    (h6 : r.People ≤ 6) (hr : rideTryGroup pick r s = .ok (0, s1)) :
    ∃ (c : car) (j : Nat) (b : Map car),
      mget s1.groups.m r.Id
        = some (⟨r.Id, s.groups.groupsArrived + 1, r.People, c.id⟩ : group) ∧
      mget s.cars.m c.id = some c ∧
      s.cars.pools[j]? = some b ∧ mget b c.id = some c ∧
      c.seatsAvailable = (j : Int) + 1 ∧ r.People - 1 ≤ (j : Int) ∧
      (∀ i : Nat, r.People - 1 ≤ (i : Int) → i < j → s.cars.pools[i]? = some []) ∧
      (∀ k c2, mget s.cars.m k = some c2 → r.People ≤ c2.seatsAvailable →
        c.seatsAvailable ≤ c2.seatsAvailable) ∧
      (∀ k2 c2, mget b k2 = some c2 → ∃ pick2 s2, rideTryGroup pick2 r s = .ok (0, s2) ∧
        mget s2.groups.m r.Id
          = some (⟨r.Id, s.groups.groupsArrived + 1, r.People, c2.id⟩ : group)) := by
  have hI := reachable_inv s hR
  have hw : wrapInt (s.groups.groupsArrived + 1) = s.groups.groupsArrived + 1 :=
    wrapInt_succ _ (by have := hI.arrivedNonneg; unfold minInt; omega) (reachable_bound s hR)
  have hl := hI.cars.poolsLen
  have hn : (((r.People - 1).toNat : Nat) : Int) = r.People - 1 := by omega
  have hf : ((s.cars.pools.length : Int) - (r.People - 1)).toNat = 6 - (r.People - 1).toNat := by
    omega
  rcases scanPools_spec s.cars.pools (6 - (r.People - 1).toNat) (r.People - 1).toNat (by omega)
    with ⟨j0, b, hscan, _, hb0, hne, _⟩ | ⟨hscan, _⟩
  · rw [hn, ← hf] at hscan
    have hlen : pick % b.length < b.length := Nat.mod_lt _ (List.length_pos.mpr hne)
    have hpk : b[pick % b.length]? = some b[pick % b.length] := by simp [hlen]
    rcases hb : b[pick % b.length] with ⟨k, c⟩
    rw [hb] at hpk
    obtain ⟨hc, hk, hfit, ⟨j, hj, hsa, hempty⟩, s2, hride, hres⟩ :=
      rideTryGroup_pick pick r s hI h1 h6 hnew b k c hscan hpk
    rw [hres] at hr
    have es : s2 = s1 := (Prod.mk.inj (Except.ok.inj hr)).2
    subst es
    have hnodup := hI.cars.poolsNodup j b hj
    have entry : ∀ (n : Nat) (k2 : Int) (c2 : car), b[n]? = some (k2, c2) →
        mget b k2 = some c2 := by
      intro n k2 c2 h
      obtain ⟨hlt, hget⟩ := List.getElem?_eq_some.mp h
      exact mget_of_mem b k2 c2 hnodup (by rw [← hget]; exact List.getElem_mem _)
    refine ⟨c, j, b, ?_, hc, hj, by rw [← hk]; exact entry _ k c hpk, hsa, by omega,
      hempty, ?_, ?_⟩
    · rw [ride_groups _ _ _ _ hride]
      simp only [mget_mset, if_true, hw]
    · intro k2 c2 hc2 hp2
      by_contra hlt
      have hc2Ok := hI.cars.carsOk k2 c2 hc2
      obtain ⟨b2, hb2, hg2⟩ := car_in_bucket s.cars hI.cars k2 c2 hc2 (by omega)
      have := hempty (c2.seatsAvailable - 1).toNat (by omega) (by omega)
      rw [hb2] at this
      have e := Option.some.inj this
      rw [e] at hg2
      simp [mget] at hg2
    · intro k2 c2 hc2
      have hmem := mget_some_mem b k2 c2 hc2
      obtain ⟨n, hn2⟩ := List.getElem?_of_mem hmem
      have hlt : n < b.length := get_lt_of_some _ _ _ hn2
      have hmod : n % b.length = n := Nat.mod_eq_of_lt hlt
      obtain ⟨_, _, _, _, s3, hride3, hres3⟩ :=
        rideTryGroup_pick n r s hI h1 h6 hnew b k2 c2 hscan (by rw [hmod]; exact hn2)
      refine ⟨n, s3, hres3, ?_⟩
      rw [ride_groups _ _ _ _ hride3]
      simp only [mget_mset, if_true, hw]
  · rw [hn, ← hf] at hscan
    simp only [rideTryGroup, hnew, hscan, bind, Except.bind] at hr
    split at hr
    · cases hr
    · have := (Prod.mk.inj (Except.ok.inj hr)).1
      omega

theorem car_selection_witness :
    ∃ s1, rideTryGroup 0 ⟨1, 4⟩ demoTwoCars = .ok (0, s1) ∧
    ∃ (c : car) (j : Nat) (b : Map car),
      mget s1.groups.m 1 = some (⟨1, demoTwoCars.groups.groupsArrived + 1, 4, c.id⟩ : group) ∧
      mget demoTwoCars.cars.m c.id = some c ∧
      demoTwoCars.cars.pools[j]? = some b ∧ mget b c.id = some c ∧
      c.seatsAvailable = (j : Int) + 1 ∧ (4 : Int) - 1 ≤ (j : Int) ∧
      (∀ i : Nat, (4 : Int) - 1 ≤ (i : Int) → i < j → demoTwoCars.cars.pools[i]? = some []) ∧
      (∀ k c2, mget demoTwoCars.cars.m k = some c2 → (4 : Int) ≤ c2.seatsAvailable →
        c.seatsAvailable ≤ c2.seatsAvailable) ∧
      (∀ k2 c2, mget b k2 = some c2 →
        ∃ pick2 s2, rideTryGroup pick2 ⟨1, 4⟩ demoTwoCars = .ok (0, s2) ∧
          mget s2.groups.m 1
            = some (⟨1, demoTwoCars.groups.groupsArrived + 1, 4, c2.id⟩ : group)) :=
  ⟨_, rfl, car_selection demoTwoCars demoTwoCars_reachable 0 ⟨1, 4⟩ _ (by decide) (by decide)
    (by decide) rfl⟩
/-- C15, the rematch fills the car until nothing fits: every call of
`rideTryCar` on car `c` (from `dropGroup` in a reachable state, or from the
round before) returns, and when it returns no waiting group has
`people ≤ cars.m[c.id].seatsAvailable`; every ledger entry is as before or was
waiting and now has `idCar = c.id`, no entry appears; and the people seated by
the call are what the car lost in available seats, at most the seats it had
available when the call started. -/
theorem rematch_fills (c : car) (s : State) (h : RematchCall c s) :
    ∃ s1, rideTryCar c s = .ok s1 ∧
      (∀ k w, mget s1.groups.m k = some w → w.idCar = 0 →
        (carAt s1.cars.m c.id).seatsAvailable < w.people) ∧
      (∀ k g, mget s.groups.m k = some g →
        mget s1.groups.m k = some g ∨
          (g.idCar = 0 ∧
            mget s1.groups.m k = some (⟨g.id, g.arrival, g.people, c.id⟩ : group))) ∧
      (∀ k, mget s.groups.m k = none → mget s1.groups.m k = none) ∧
      (carAt s1.cars.m c.id).seatsAvailable
        = c.seatsAvailable - newly s.groups.m s1.groups.m c.id ∧
      0 ≤ (carAt s1.cars.m c.id).seatsAvailable ∧
      newly s.groups.m s1.groups.m c.id ≤ c.seatsAvailable := by
  obtain ⟨s1, hr, P⟩ := rematchCall_run c s h
  obtain ⟨c1, hc1, _, _⟩ := P.carKept
  have hc1Ok := P.inv.cars.carsOk _ _ hc1
  have hseats := P.seats
  have hcar := carAt_of_mget _ _ _ hc1
  rw [hcar] at hseats
  refine ⟨s1, hr, ?_, ?_, P.absent, by rw [hcar]; omega, by rw [hcar]; exact hc1Ok.2.2.2.2.1,
    by omega⟩
  · intro k w hw hw0
    exact P.full k w hw hw0
  · intro k g hg
    by_cases hg0 : g.idCar = 0
    · rcases P.waiting k g hg hg0 with h1 | h1
      · left; exact h1
      · right; exact ⟨hg0, h1⟩
    · left; exact P.traveling k g hg hg0

theorem rematch_fills_witness :
    ∃ s1, rideTryCar ⟨1, 4, 4⟩ demoCall = .ok s1 ∧
      (∀ k w, mget s1.groups.m k = some w → w.idCar = 0 →
        (carAt s1.cars.m (⟨1, 4, 4⟩ : car).id).seatsAvailable < w.people) ∧
      (∀ k g, mget demoCall.groups.m k = some g →
        mget s1.groups.m k = some g ∨
          (g.idCar = 0 ∧
            mget s1.groups.m k
              = some (⟨g.id, g.arrival, g.people, (⟨1, 4, 4⟩ : car).id⟩ : group))) ∧
      (∀ k, mget demoCall.groups.m k = none → mget s1.groups.m k = none) ∧
      (carAt s1.cars.m (⟨1, 4, 4⟩ : car).id).seatsAvailable
        = (⟨1, 4, 4⟩ : car).seatsAvailable
          - newly demoCall.groups.m s1.groups.m (⟨1, 4, 4⟩ : car).id ∧
      0 ≤ (carAt s1.cars.m (⟨1, 4, 4⟩ : car).id).seatsAvailable ∧
      newly demoCall.groups.m s1.groups.m (⟨1, 4, 4⟩ : car).id
        ≤ (⟨1, 4, 4⟩ : car).seatsAvailable :=
  rematch_fills ⟨1, 4, 4⟩ demoCall demoCall_call

/-- C16, stale queue entries are never seated: at every call of
`rideTryCar`, the group `g` a round seats is the head of a pruned queue, which
the round pops, and the ledger holds under `g.id` a group equal to it (same
id, arrival and people) with `idCar = 0`. In a reachable state a drop-off
that returns leaves the id dropped out of the ledger, and, whatever the
state, an id that is not in the ledger stays out of it, and locates as -1,
through every sequence of requests without a ride request for it. In the run
where group 2 is dropped while waiting and asks for a ride again, the rematch
seats the new entry, of arrival 3, and not the old one. -/
theorem stale_never_seated :
    (∀ (c : car) (s s1 : State) (g : group), RematchCall c s →
      rideTryCarStep c s = .ok (s1, some g) →
      mget s.groups.m g.id = some g ∧ g.idCar = 0 ∧
      ∃ (i : Nat) (t : List group),
        (pruneQueues s.groups.m s.groups.queues)[i]? = some (g :: t) ∧
        s1.groups.queues = (pruneQueues s.groups.m s.groups.queues).set i t) ∧
    (∀ (s s1 : State) (d : groupFORMAPI) (res : Int), Reachable s →
      dropGroup d s = .ok (res, s1) →
      mget s1.groups.m d.Id = none ∧ (locateGroup d s1).1 = -1) ∧
    (∀ (k : Int) (s s1 : State), mget s.groups.m k = none → Quiet k s s1 →
      mget s1.groups.m k = none ∧ (locateGroup ⟨k⟩ s1).1 = -1) ∧
    (dropGroup ⟨2⟩ demo2 = .ok (1, demoStale) ∧
      rideTryGroup 0 ⟨2, 1⟩ demoStale = .ok (1, demoAgain) ∧
      dropGroup ⟨1⟩ demoAgain = .ok (0, demoAfter) ∧
      mget demoAfter.groups.m 2 = some ⟨2, 3, 1, 1⟩) := by
  have loc : ∀ (k : Int) (s : State), mget s.groups.m k = none →
      (locateGroup ⟨k⟩ s).1 = -1 := by
    intro k s h
    simp only [locateGroup, h]
  refine ⟨?_, ?_, ?_, by decide, by decide, by decide, by decide⟩
  · intro c s s1 g hC hstep
    obtain ⟨hI, hc⟩ := rematchCall_inv c s hC
    obtain ⟨hlive, _, _, _, i, t, _, hq, hs⟩ := rideTryCarStep_seat c s s1 g hstep
    have hpr := prune_inv none s hI
    have := hpr.queuesOk i _ hq g (List.mem_cons_self _ _)
    exact ⟨hlive, this.2.1, i, t, hq, hs⟩
  · intro s s1 d res hR hr
    have := dropGroup_removes s s1 d res hR hr
    exact ⟨this, loc d.Id s1 this⟩
  · intro k s s1 hk hQ
    have := quiet_absent k s s1 hQ hk
    exact ⟨this, loc k s1 this⟩

theorem stale_never_seated_witness :
    (∃ s1, rideTryCarStep ⟨1, 4, 4⟩ demoCallStale = .ok (s1, some ⟨2, 3, 1, 0⟩) ∧
      mget demoCallStale.groups.m (⟨2, 3, 1, 0⟩ : group).id = some ⟨2, 3, 1, 0⟩ ∧
      (⟨2, 3, 1, 0⟩ : group).idCar = 0 ∧
      ∃ (i : Nat) (t : List group),
        (pruneQueues demoCallStale.groups.m demoCallStale.groups.queues)[i]?
          = some ((⟨2, 3, 1, 0⟩ : group) :: t) ∧
        s1.groups.queues
          = (pruneQueues demoCallStale.groups.m demoCallStale.groups.queues).set i t) ∧
    (mget demoStale.groups.m (⟨2⟩ : groupFORMAPI).Id = none ∧
      (locateGroup ⟨2⟩ demoStale).1 = -1) ∧
    (mget demoAfter.groups.m 7 = none ∧ (locateGroup ⟨7⟩ demoAfter).1 = -1) :=
  ⟨⟨_, rfl, stale_never_seated.1 ⟨1, 4, 4⟩ demoCallStale _ ⟨2, 3, 1, 0⟩ demoCallStale_call rfl⟩,
    stale_never_seated.2.1 demo2 demoStale ⟨2⟩ 1 demo2_reachable (by decide),
    stale_never_seated.2.2.1 7 demoAgain demoAfter (by decide)
      (Quiet.dropoff demoAgain demoAgain demoAfter ⟨1⟩ 0 (Quiet.refl demoAgain) (by decide))⟩

/-- C17, the wait-queue representation invariant: in every reachable state
there are six queues, and for every queue `k`: its entries have `k + 1` people
and `idCar = 0`; they are in strictly increasing order of arrival; its live
entries (those equal to the ledger entry under their id) are exactly the
waiting groups of `k + 1` people, each once; and pruning removes no live
entry. So every waiting group is in the queue of its size. -/
theorem queue_invariant (s : State) (hR : Reachable s) :
    s.groups.queues.length = 6 ∧
    (∀ (k : Nat) (q : List group), s.groups.queues[k]? = some q →
      (∀ e ∈ q, e.people = (k : Int) + 1 ∧ e.idCar = 0) ∧
      q.Pairwise (fun a b => a.arrival < b.arrival) ∧
      (∀ g, g ∈ q.filter (live s.groups.m) ↔
        (mget s.groups.m g.id = some g ∧ g.idCar = 0 ∧ g.people = (k : Int) + 1)) ∧
      (q.filter (live s.groups.m)).Nodup ∧
      (∀ e ∈ q, live s.groups.m e = true →
        e ∈ q.dropWhile (fun e => !(live s.groups.m e)))) ∧
    (∀ g, mget s.groups.m g.id = some g → g.idCar = 0 →
      ∃ q, s.groups.queues[(g.people - 1).toNat]? = some q ∧ g ∈ q) := by
  have hI := reachable_inv s hR
  refine ⟨hI.queuesLen, ?_, ?_⟩
  · intro k q hq
    have hOk := hI.queuesOk k q hq
    have hS := hI.queuesSorted k q hq
    refine ⟨fun e he => ⟨(hOk e he).1, (hOk e he).2.1⟩, hS, ?_, ?_, ?_⟩
    · intro g
      rw [List.mem_filter, live_iff]
      constructor
      · rintro ⟨hg, hl⟩
        exact ⟨hl, (hOk g hg).2.1, (hOk g hg).1⟩
      · rintro ⟨hl, h0, hp⟩
        obtain ⟨q1, hq1, hg1⟩ := hI.waitQ g.id g hl h0 (by simp)
        have hk : (g.people - 1).toNat = k := by omega
        rw [hk, hq] at hq1
        rw [Option.some.inj hq1]
        exact ⟨hg1, hl⟩
    · apply List.Nodup.sublist (List.filter_sublist q)
      have : q.Pairwise (fun a b => a ≠ b) := by
        apply List.Pairwise.imp _ hS
        intro a b hab e
        rw [e] at hab
        omega
      exact this
    · intro e he hl
      exact mem_dropWhile _ _ _ he (by simp [hl])
  · intro g hg h0
    exact hI.waitQ g.id g hg h0 (by simp)

theorem queue_invariant_witness :
    demoAgain.groups.queues.length = 6 ∧
    ((∀ e ∈ [(⟨2, 2, 1, 0⟩ : group), ⟨2, 3, 1, 0⟩],
        e.people = ((0 : Nat) : Int) + 1 ∧ e.idCar = 0) ∧
      [(⟨2, 2, 1, 0⟩ : group), ⟨2, 3, 1, 0⟩].Pairwise (fun a b => a.arrival < b.arrival) ∧
      (∀ g, g ∈ [(⟨2, 2, 1, 0⟩ : group), ⟨2, 3, 1, 0⟩].filter (live demoAgain.groups.m) ↔
        (mget demoAgain.groups.m g.id = some g ∧ g.idCar = 0 ∧
          g.people = ((0 : Nat) : Int) + 1)) ∧
      ([(⟨2, 2, 1, 0⟩ : group), ⟨2, 3, 1, 0⟩].filter (live demoAgain.groups.m)).Nodup ∧
      (∀ e ∈ [(⟨2, 2, 1, 0⟩ : group), ⟨2, 3, 1, 0⟩], live demoAgain.groups.m e = true →
        e ∈ [(⟨2, 2, 1, 0⟩ : group), ⟨2, 3, 1, 0⟩].dropWhile
          (fun e => !(live demoAgain.groups.m e)))) :=
  ⟨(queue_invariant demoAgain demoAgain_reachable).1,
    (queue_invariant demoAgain demoAgain_reachable).2.1 0 _ rfl⟩

/-- C18, no waiting group fits any car: in every reachable state, every
ledger group with `idCar = 0` has more people than any car of `cars.m` has
seats available. -/
theorem no_waiting_group_fits (s : State) (hR : Reachable s) (k : Int) (g : group)
    (kc : Int) (c : car) (hg : mget s.groups.m k = some g) (hw : g.idCar = 0)
    (hc : mget s.cars.m kc = some c) : c.seatsAvailable < g.people :=
  reachable_noFit s hR k g kc c hg hw hc

theorem no_waiting_group_fits_witness :
    (⟨1, 4, 0⟩ : car).seatsAvailable < (⟨3, 3, 2, 0⟩ : group).people :=
  no_waiting_group_fits demoTwoWaiting demoTwoWaiting_reachable 3 ⟨3, 3, 2, 0⟩ 1 ⟨1, 4, 0⟩
    (by decide) (by decide) (by decide)
/-- C19, no out-of-range index under validated input. In every reachable
state there are six pool buckets and six queues, every car has its available
seats in `0..6`, every ledger group has its people in `1..6`, and the car a
traveling group names exists in `cars.m`; so a load of a valid fleet, a valid
ride request and every drop-off return a result, neither `Fault.panic` (which
is what an index out of range yields) nor `Fault.timeout`. The same holds for
every call of `rideTryCar` and every call of `ride`. -/
theorem no_panic :
    (∀ s : State, Reachable s →
      s.cars.pools.length = 6 ∧ s.groups.queues.length = 6 ∧
      (∀ k c, mget s.cars.m k = some c → 0 ≤ c.seatsAvailable ∧ c.seatsAvailable ≤ 6) ∧
      (∀ k g, mget s.groups.m k = some g → 1 ≤ g.people ∧ g.people ≤ 6) ∧
      (∀ k g, mget s.groups.m k = some g → g.idCar > 0 →
        ∃ c, mget s.cars.m g.idCar = some c) ∧
      (∀ l, validFleet l → ∃ s1, putCars l s = .ok s1) ∧
      (∀ pick r, validRequest r → ∃ res s1, rideTryGroup pick r s = .ok (res, s1)) ∧
      (∀ d, ∃ res s1, dropGroup d s = .ok (res, s1))) ∧
    (∀ (c : car) (s : State), RematchCall c s → ∃ s1, rideTryCar c s = .ok s1) ∧
    (∀ (c : car) (g : group) (s : State), RideCall c g s → ∃ s1, ride c g s = .ok s1) := by
  refine ⟨?_, ?_, ?_⟩
  · intro s hR
    have hI := reachable_inv s hR
    obtain ⟨p1, p2, p3⟩ := reachable_progress s hR
    refine ⟨hI.cars.poolsLen, hI.queuesLen, ?_, ?_, ?_, p1, p2, p3⟩
    · intro k c hc
      have := hI.cars.carsOk k c hc
      omega
    · intro k g hg
      have := hI.groupsOk k g hg
      exact ⟨this.2.2.1, this.2.2.2.1⟩
    · intro k g hg hpos
      rcases (hI.groupsOk k g hg).2.2.2.2.2.2 with h0 | hc
      · omega
      · exact hc
  · intro c s h
    obtain ⟨s1, hr, _⟩ := rematchCall_run c s h
    exact ⟨s1, hr⟩
  · intro c g s h
    exact (rideCall_fits c g s h).2.2.2

theorem no_panic_witness :
    (∃ res s1, rideTryGroup 5 ⟨9, 6⟩ demoTwoWaiting = .ok (res, s1)) ∧
    (∃ res s1, dropGroup ⟨1⟩ demoTwoWaiting = .ok (res, s1)) ∧
    (∃ s1, rideTryCar ⟨1, 4, 4⟩ demoCall = .ok s1) :=
  ⟨(no_panic.1 demoTwoWaiting demoTwoWaiting_reachable).2.2.2.2.2.2.1 5 ⟨9, 6⟩ (by decide),
    (no_panic.1 demoTwoWaiting demoTwoWaiting_reachable).2.2.2.2.2.2.2 ⟨1⟩,
    no_panic.2.1 ⟨1, 4, 4⟩ demoCall demoCall_call⟩

/-- C20, the rematch terminates, whatever the state and the car: with one
unit of fuel more than there are queued entries `rideTryCar` does not run out
of fuel, and more fuel gives the same result; a recursive call is made only
after a round that leaves fewer queued entries, so the recursive calls are at
most as many as the queued entries; when every entry of queue `k` has `k + 1`
people and the car has no negative seat count they are at most
`c.seatsAvailable`; and with `seatsAvailable == 0` there is no recursive call
and nobody is seated: the call returns the state with its queues pruned. -/
theorem rematch_terminates (c : car) (s : State) :
    rideTryCar c s ≠ .error Fault.timeout ∧
    (∀ n, queued s < n → rideTryCarFuel n c s = rideTryCar c s) ∧
    (∀ s1 g, rideTryCarStep c s = .ok (s1, some g) → queued s1 < queued s) ∧
    (∀ n, rematchCalls n c s ≤ queued s) ∧
    ((∀ (k : Nat) (q : List group), s.groups.queues[k]? = some q →
        ∀ e ∈ q, e.people = (k : Int) + 1) →
      0 ≤ c.seatsAvailable → ∀ n, (rematchCalls n c s : Int) ≤ c.seatsAvailable) ∧
    (c.seatsAvailable = 0 →
      (∀ n, rematchCalls n c s = 0) ∧
      rideTryCar c s = .ok ⟨s.cars, ⟨s.groups.groupsArrived, s.groups.m,
        pruneQueues s.groups.m s.groups.queues⟩⟩) := by
  refine ⟨rideTryCarFuel_no_timeout _ c s (by omega), ?_,
    fun s1 g h => rideTryCarStep_queued c s s1 g h, fun n => rematchCalls_le_queued n c s,
    ?_, ?_⟩
  · intro n hn
    exact rideTryCarFuel_indep n (queued s + 1) c s hn (by omega)
  · intro hp h0 n
    have := rematchCalls_le_seats n c s hp
    omega
  · intro h0
    have hstep := rideTryCarStep_no_seats c s (by omega)
    constructor
    · intro n
      cases n with
      | zero => rfl
      | succ n => simp only [rematchCalls, hstep]
    · simp only [rideTryCar, rideTryCarFuel, hstep, bind, Except.bind]

theorem rematch_terminates_witness :
    rematchCalls 3 ⟨1, 4, 4⟩ demoCall = 2 ∧ queued demoCall = 2 ∧
    rideTryCar ⟨1, 4, 4⟩ demoCall ≠ .error Fault.timeout ∧
    rideTryCarFuel 9 ⟨1, 4, 4⟩ demoCall = rideTryCar ⟨1, 4, 4⟩ demoCall ∧
    rematchCalls 9 ⟨1, 4, 4⟩ demoCall ≤ queued demoCall ∧
    ((rematchCalls 9 ⟨1, 4, 4⟩ demoCall : Nat) : Int) ≤ (⟨1, 4, 4⟩ : car).seatsAvailable ∧
    rematchCalls 9 ⟨1, 4, 0⟩ demo2 = 0 :=
  ⟨by decide, by decide, (rematch_terminates ⟨1, 4, 4⟩ demoCall).1,
    (rematch_terminates ⟨1, 4, 4⟩ demoCall).2.1 9 (by decide),
    (rematch_terminates ⟨1, 4, 4⟩ demoCall).2.2.2.1 9,
    (rematch_terminates ⟨1, 4, 4⟩ demoCall).2.2.2.2.1
      (fun k q hk e he => ((rematchCall_inv _ _ demoCall_call).1.queuesOk k q hk e he).1)
      (by decide) 9,
    ((rematch_terminates ⟨1, 4, 0⟩ demo2).2.2.2.2.2 rfl).1 9⟩

end CarPooling
